import Mathlib

/-!
# WFMOHandler: a waitable-event reactor

A shallow embedding of `src/wfmotest/wfmohandler.h` (class `WFMOHandler`) and a
verification of its registry, timer and dispatch contract.

Modelling conventions

* A Win32 `HANDLE` is a natural number, `0` being `NULL`.
* `unsigned` is 32 bits wide: the timer id counter is a `Nat` reduced modulo `2 ^ 32`
  wherever the source does arithmetic on it.
* `m_waithandlers` (a `std::list<WaitHandlerBase*>`) is a `List WaitHandlerBase`.  The
  identity of the heap object behind each pointer is kept in the field `addr`, drawn from
  the allocation counter `nextAddr` of the reactor.
* A user functor (`Handler`) is a tag together with the list of public API calls it makes
  on the reactor while it runs; the reactor runs it under `m_sync`, which is recursive, so
  those calls execute in place.
* The two manual-reset events are the booleans `shutdownSet` and `rebuildSet`.
* A waitable timer object is the pair last set by a successful `SetWaitableTimer` (due
  time and period, in milliseconds), or `none` when it was never armed or was cancelled.
* `trace` records, in order, what the reactor did that an observer can see: functor
  invocations, `OnWaitHandleRemoved` calls, object construction and destruction, each
  successful `AddTimer` with its repeat argument and returned id, and which object a
  removal marked.
-/

namespace WFMO

abbrev HANDLE := Nat

/-- Windows limitation on the number of handles of one wait. -/
def MAX_WAIT_COUNT : Nat := 64

/-- Number of values of the C++ type `unsigned`. -/
def UINT_RANGE : Nat := 2 ^ 32

mutual
/-- User supplied function object: a tag and the API calls it performs when run. -/
inductive Handler where
  | mk (tag : Nat) (calls : List ApiCall)
/-- Calls of the public registration interface. `hTimer` is the handle that
`CreateWaitableTimer` returns inside the `TimerHandler` constructor. -/
inductive ApiCall where
  | addWaitHandle (h : HANDLE) (handler : Handler)
  | removeWaitHandle (h : HANDLE)
  | addTimer (hTimer : HANDLE) (milliseconds : Nat) (repeat_ : Bool) (handler : Handler)
  | removeTimer (id : Nat)
  | adjustTimer (id : Nat) (interval : Nat) (repeat_ : Bool)
end

def Handler.tag : Handler → Nat
  | .mk t _ => t

def Handler.calls : Handler → List ApiCall
  | .mk _ cs => cs

/-- State of a waitable timer object: due time and period of the last
`SetWaitableTimer`, `none` if never armed or cancelled. -/
abbrev TimerObject := Option (Nat × Nat)

/-- Members that `TimerHandler<>` adds to `WaitHandlerBase` (`TimerIntermediate::m_id`,
`m_interval`, `m_repeat`) and the state of the timer object behind `m_h`. -/
structure TimerPart where
  m_id : Nat
  m_interval : Nat
  m_repeat : Bool
  armed : TimerObject

/-- One registered trigger: `WaitHandler<>` when `timer = none`, `TimerHandler<>`
otherwise. -/
structure WaitHandlerBase where
  addr : Nat
  m_h : HANDLE
  m_markfordeletion : Bool
  m_handler : Handler
  timer : Option TimerPart

def WaitHandlerBase.IsTimer (e : WaitHandlerBase) : Bool := e.timer.isSome

/-- Observable events, in the order the reactor produces them. -/
inductive Event where
  | created (addr : Nat)
  | addTimerReturned (addr : Nat) (repeat_ : Bool) (id : Nat)
  | removeMarked (addr : Nat)
  | selfMarked (addr : Nat)
  | invoked (addr : Nat) (tag : Nat)
  | handleRemoved (addr : Nat) (h : HANDLE)
  | destroyed (addr : Nat)
deriving DecidableEq, Repr

/-- Data members of `WFMOHandler` with the state of its two event objects. -/
structure WFMOHandler where
  m_waithandlers : List WaitHandlerBase
  m_shutdownevent : HANDLE
  m_rebuildwaitarrayevent : HANDLE
  m_htWorker : HANDLE
  m_nexttimertriggerid : Nat
  shutdownSet : Bool
  rebuildSet : Bool
  nextAddr : Nat
  trace : List Event

/-- Constructor `WFMOHandler()`: the two events are created non-signalled, the registry
is empty and the timer id counter starts at 1. -/
def WFMOHandler.new (hShutdown hRebuild : HANDLE) : WFMOHandler :=
  { m_waithandlers := []
    m_shutdownevent := hShutdown
    m_rebuildwaitarrayevent := hRebuild
    m_htWorker := 0
    m_nexttimertriggerid := 1
    shutdownSet := false
    rebuildSet := false
    nextAddr := 0
    trace := [] }

/-- Number of entries not marked for deletion (the loop of `IsWaitHandleSlotAvailable`). -/
def nUsed (l : List WaitHandlerBase) : Nat :=
  l.countP (fun e => !e.m_markfordeletion)

/-- Method `IsWaitHandleSlotAvailable`. -/
def IsWaitHandleSlotAvailable (s : WFMOHandler) : Bool :=
  if nUsed s.m_waithandlers ≥ MAX_WAIT_COUNT - 2 then false else true

/-- The call `::SetEvent(m_rebuildwaitarrayevent)`. -/
def setRebuild (s : WFMOHandler) : WFMOHandler := { s with rebuildSet := true }

/-- Constructor `WaitHandler(h, handler)`. -/
def WaitHandler.new (addr : Nat) (h : HANDLE) (handler : Handler) : WaitHandlerBase :=
  { addr := addr, m_h := h, m_markfordeletion := false, m_handler := handler, timer := none }

/-- Method `AddWaitHandle(h, handler)`. -/
def AddWaitHandle (h : HANDLE) (handler : Handler) (s : WFMOHandler) : Bool × WFMOHandler :=
  if !IsWaitHandleSlotAvailable s then (false, s)
  else
    let pT := WaitHandler.new s.nextAddr h handler
    (true, setRebuild { s with
      m_waithandlers := s.m_waithandlers ++ [pT]
      nextAddr := s.nextAddr + 1
      trace := s.trace ++ [Event.created pT.addr] })

/-- The call `SetWaitableTimer(h, due, period)` as the constructor, `invoke` and `AdjustTimer` call
it: a relative due time of `milliseconds` and `LONG lPeriod = repeat ? milliseconds : 0`.
The `unsigned` is converted to the signed 32-bit `LONG`, so `lPeriod` is negative from
2^31 on. The call fails, leaving the timer object as it was, on a `NULL` handle and on a
negative period. -/
def SetWaitableTimer (h : HANDLE) (milliseconds : Nat) (repeat_ : Bool)
    (t : TimerObject) : TimerObject :=
  let lPeriod := if repeat_ then milliseconds % UINT_RANGE else 0
  if h = 0 ∨ 2 ^ 31 ≤ lPeriod then t else some (milliseconds, lPeriod)

/-- Constructor `TimerHandler(milliseconds, repeat, id, handler)`; `hTimer` is what
`CreateWaitableTimer` returned. -/
def TimerHandler.new (addr : Nat) (hTimer : HANDLE) (milliseconds : Nat) (repeat_ : Bool)
    (id : Nat) (handler : Handler) : WaitHandlerBase :=
  { addr := addr, m_h := hTimer, m_markfordeletion := false, m_handler := handler,
    timer := some
      { m_id := id, m_interval := milliseconds, m_repeat := repeat_,
        armed := SetWaitableTimer hTimer milliseconds repeat_ none } }

/-- Method `AddTimer(milliseconds, repeat, handler)`. The result is the returned `unsigned`
(`return false` is 0). -/
def AddTimer (hTimer : HANDLE) (milliseconds : Nat) (repeat_ : Bool) (handler : Handler)
    (s : WFMOHandler) : Nat × WFMOHandler :=
  if !IsWaitHandleSlotAvailable s then (0, s)
  else
    let id := s.m_nexttimertriggerid
    let next := (id + 1) % UINT_RANGE
    let pT := TimerHandler.new s.nextAddr hTimer milliseconds repeat_ id handler
    let ret := (next + UINT_RANGE - 1) % UINT_RANGE
    (ret, setRebuild { s with
      m_waithandlers := s.m_waithandlers ++ [pT]
      m_nexttimertriggerid := next
      nextAddr := s.nextAddr + 1
      trace := s.trace ++ [Event.created pT.addr, Event.addTimerReturned pT.addr repeat_ ret] })

/-- Apply `f` to the first element satisfying `p` (a loop that ends in `break`). -/
def updateFirst (p : WaitHandlerBase → Bool) (f : WaitHandlerBase → WaitHandlerBase) :
    List WaitHandlerBase → List WaitHandlerBase
  | [] => []
  | e :: rest => if p e then f e :: rest else e :: updateFirst p f rest

/-- Method `RemoveWaitHandle(h)`. -/
def RemoveWaitHandle (h : HANDLE) (s : WFMOHandler) : WFMOHandler :=
  match s.m_waithandlers.find? (fun e => e.m_h == h) with
  | none => s
  | some e =>
    setRebuild { s with
      m_waithandlers :=
        updateFirst (fun e => e.m_h == h) (fun e => { e with m_markfordeletion := true })
          s.m_waithandlers
      trace := s.trace ++ [Event.removeMarked e.addr] }

/-- The test `pTimer && pTimer->m_id == id` of `RemoveTimer` and `AdjustTimer`. -/
def isTimerWithId (id : Nat) (e : WaitHandlerBase) : Bool :=
  match e.timer with
  | none => false
  | some t => t.m_id == id

/-- The call `::CancelWaitableTimer(m_h)`, which fails on a `NULL` handle. -/
def CancelWaitableTimer (e : WaitHandlerBase) : WaitHandlerBase :=
  if e.m_h = 0 then e else { e with timer := e.timer.map (fun t => { t with armed := none }) }

/-- Method `RemoveTimer(id)`. -/
def RemoveTimer (id : Nat) (s : WFMOHandler) : WFMOHandler :=
  match s.m_waithandlers.find? (isTimerWithId id) with
  | none => s
  | some e =>
    setRebuild { s with
      m_waithandlers :=
        updateFirst (isTimerWithId id)
          (fun e => { CancelWaitableTimer e with m_markfordeletion := true })
          s.m_waithandlers
      trace := s.trace ++ [Event.removeMarked e.addr] }

/-- Re-arm the timer object of an entry. -/
def rearm (milliseconds : Nat) (repeat_ : Bool) (e : WaitHandlerBase) : WaitHandlerBase :=
  { e with timer := e.timer.map (fun t =>
      { t with armed := SetWaitableTimer e.m_h milliseconds repeat_ t.armed }) }

/-- Method `AdjustTimer(id, interval, repeat)`: the loop has no `break`, it visits every entry. -/
def AdjustTimer (id : Nat) (interval : Nat) (repeat_ : Bool) (s : WFMOHandler) : WFMOHandler :=
  { s with m_waithandlers := s.m_waithandlers.map (fun e =>
      if isTimerWithId id e && !e.m_markfordeletion then rearm interval repeat_ e else e) }

/-- One call of the public registration interface, its return value dropped. -/
def ApiCall.exec : ApiCall → WFMOHandler → WFMOHandler
  | .addWaitHandle h handler, s => (AddWaitHandle h handler s).2
  | .removeWaitHandle h, s => RemoveWaitHandle h s
  | .addTimer hTimer ms r handler, s => (AddTimer hTimer ms r handler s).2
  | .removeTimer id, s => RemoveTimer id s
  | .adjustTimer id interval r, s => AdjustTimer id interval r s

/-- The API calls a functor makes while it runs, in order. -/
def runCalls (cs : List ApiCall) (s : WFMOHandler) : WFMOHandler :=
  cs.foldl (fun st c => c.exec st) s

/-- The call `m_handler()` of the entry `e`. -/
def callHandler (e : WaitHandlerBase) (s : WFMOHandler) : WFMOHandler :=
  runCalls e.m_handler.calls { s with trace := s.trace ++ [Event.invoked e.addr e.m_handler.tag] }

/-- Apply `f` to the element at position `k` (a write through the `this` pointer of the
entry at that position: API calls neither erase nor reorder entries). -/
def updateAt (k : Nat) (f : WaitHandlerBase → WaitHandlerBase) :
    List WaitHandlerBase → List WaitHandlerBase
  | [] => []
  | e :: rest =>
    match k with
    | 0 => f e :: rest
    | k + 1 => e :: updateAt k f rest

/-- Virtual `invoke(pHandler)` of the entry `e` that sits at position `k`:
`WaitHandler<>::invoke` calls the functor; `TimerHandler<>::invoke` calls the functor and
then either re-arms from `m_interval` (when `m_repeat`) or marks itself for deletion and
sets the rebuild event. -/
def invoke (k : Nat) (e : WaitHandlerBase) (s : WFMOHandler) : WFMOHandler :=
  let s1 := callHandler e s
  match e.timer with
  | none => s1
  | some t =>
    if t.m_repeat then
      { s1 with m_waithandlers := updateAt k (rearm t.m_interval t.m_repeat) s1.m_waithandlers }
    else
      setRebuild { s1 with
        m_waithandlers :=
          updateAt k (fun x => { x with m_markfordeletion := true }) s1.m_waithandlers
        trace := s1.trace ++ [Event.selfMarked e.addr] }

/-- Method `InvokeWaitHandleHandler(index, ahandles)`: walk to the entry at `index`, invoke it
unless the walk ran off the end or the entry is marked for deletion. -/
def InvokeWaitHandleHandler (index : Nat) (s : WFMOHandler) : WFMOHandler :=
  match s.m_waithandlers[index]? with
  | none => s
  | some e => if !e.m_markfordeletion then invoke index e s else s

/-- The erase loop of `BuildHandleArray`: for each marked entry, `OnWaitHandleRemoved`
(the base class hook, which does nothing), `delete`, `erase`. Returns the entries kept
and the events produced. -/
def sweep : List WaitHandlerBase → List WaitHandlerBase × List Event
  | [] => ([], [])
  | e :: rest =>
    let r := sweep rest
    if e.m_markfordeletion then
      (r.1, Event.handleRemoved e.addr e.m_h :: Event.destroyed e.addr :: r.2)
    else (e :: r.1, r.2)

/-- The fill loop of `BuildHandleArray`: `ahandles[i++] = (*it)->m_h` from `i`; returns
the array and the final `i`. -/
def fillHandles : List WaitHandlerBase → Nat → List HANDLE → List HANDLE × Nat
  | [], i, a => (a, i)
  | e :: rest, i, a => fillHandles rest (i + 1) (a.set i e.m_h)

/-- The call `std::vector::resize(n)` with value-initialised new elements. -/
def resize (a : List HANDLE) (n : Nat) : List HANDLE :=
  a.take n ++ List.replicate (n - a.length) 0

/-- Method `BuildHandleArray(ahandles)`: returns the new array, the returned count and the
reactor. -/
def BuildHandleArray (ahandles : List HANDLE) (s : WFMOHandler) :
    List HANDLE × Nat × WFMOHandler :=
  let r := sweep s.m_waithandlers
  let a0 := resize ahandles (2 + r.1.length)
  let a1 := a0.set 0 s.m_shutdownevent
  let a2 := a1.set 1 s.m_rebuildwaitarrayevent
  let f := fillHandles r.1 2 a2
  (f.1, f.2, { s with m_waithandlers := r.1, trace := s.trace ++ r.2, rebuildSet := false })

/-- The call `FreePtrContainer(m_waithandlers)`: `delete` every element, then `clear()`. -/
def FreePtrContainer (s : WFMOHandler) : WFMOHandler :=
  { s with
    m_waithandlers := []
    trace := s.trace ++ s.m_waithandlers.map (fun e => Event.destroyed e.addr) }

/-- Method `Start()`; `hThread` is what `_beginthreadex` returned. -/
def Start (hThread : HANDLE) (s : WFMOHandler) : Bool × WFMOHandler :=
  (decide (hThread ≠ 0), { s with m_htWorker := hThread })

/-- Method `Stop()`, seen from the calling thread once the worker has been joined: the shutdown
event is set when a worker exists, both events are closed, every entry is freed. -/
def Stop (s : WFMOHandler) : WFMOHandler :=
  let s1 := if s.m_htWorker ≠ 0 then { s with shutdownSet := true, m_htWorker := 0 } else s
  FreePtrContainer { s1 with m_shutdownevent := 0, m_rebuildwaitarrayevent := 0 }

/-- Locals of `ThreadProc` together with the reactor object. -/
structure ThreadState where
  obj : WFMOHandler
  ahandles : List HANDLE
  nHandles : Nat
  fMore : Bool
  fGracefulExit : Bool

/-- The statement `nHandles = BuildHandleArray(ahandles)` inside `ThreadProc`. -/
def ThreadState.rebuild (ts : ThreadState) : ThreadState :=
  let r := BuildHandleArray ts.ahandles ts.obj
  { ts with obj := r.2.2, ahandles := r.1, nHandles := r.2.1 }

/-- Method `ThreadProc` up to the first wait: `ahandles(MAX_WAIT_COUNT)` and the first
`BuildHandleArray`. -/
def ThreadProc.enter (s : WFMOHandler) : ThreadState :=
  ThreadState.rebuild
    { obj := s, ahandles := List.replicate MAX_WAIT_COUNT 0, nHandles := 0, fMore := true,
      fGracefulExit := false }

/-- One iteration of the `do ... while (fMore)` loop of `ThreadProc` for the value `dwRet`
returned by `WaitForMultipleObjectsEx` (`WAIT_OBJECT_0` is 0). -/
def ThreadProc.iterate (dwRet : Nat) (ts : ThreadState) : ThreadState :=
  if !ts.fMore then ts
  else if dwRet = 0 then { ts with fGracefulExit := true, fMore := false }
  else if dwRet = 1 then ts.rebuild
  else if dwRet > 1 ∧ dwRet < MAX_WAIT_COUNT then
    { ts with obj := InvokeWaitHandleHandler (dwRet - 2) ts.obj }
  else { ts with fMore := false }

/-- A step of the system: an API call from any thread, or one action of the worker
thread. -/
inductive Step where
  | api (c : ApiCall)
  | build
  | dispatch (index : Nat)
  | wake (dwRet : Nat)

def Step.exec : Step → ThreadState → ThreadState
  | .api c, ts => { ts with obj := c.exec ts.obj }
  | .build, ts => ts.rebuild
  | .dispatch index, ts => { ts with obj := InvokeWaitHandleHandler index ts.obj }
  | .wake dwRet, ts => ThreadProc.iterate dwRet ts

def run (steps : List Step) (ts : ThreadState) : ThreadState :=
  steps.foldl (fun st x => x.exec st) ts

/-- A freshly constructed reactor whose worker has not entered its loop yet. -/
def ThreadState.fresh (hShutdown hRebuild : HANDLE) : ThreadState :=
  { obj := WFMOHandler.new hShutdown hRebuild, ahandles := List.replicate MAX_WAIT_COUNT 0,
    nHandles := 0, fMore := true, fGracefulExit := false }

/-- Relation between an entry and its update: a set delete flag is never cleared. -/
def KeepsMark (f : WaitHandlerBase → WaitHandlerBase) : Prop :=
  ∀ e, e.m_markfordeletion = true → (f e).m_markfordeletion = true

/-- The capacity invariant: at most `MAX_WAIT_COUNT - 2` entries are not marked. -/
def WithinCapacity (s : WFMOHandler) : Prop := nUsed s.m_waithandlers ≤ MAX_WAIT_COUNT - 2

/-- Ids that successful `AddTimer` calls returned, in call order. -/
def returnedIds : List Event → List Nat
  | [] => []
  | Event.addTimerReturned _ _ id :: rest => id :: returnedIds rest
  | _ :: rest => returnedIds rest

/-- Link between the timer id counter and the ids handed out so far: after `n` successful
`AddTimer` calls the counter is `(n + 1) mod 2^32` and the `k`-th call returned
`(k + 1) mod 2^32`. -/
def IdsInv (s : WFMOHandler) : Prop :=
  s.m_nexttimertriggerid = ((returnedIds s.trace).length + 1) % UINT_RANGE ∧
  returnedIds s.trace =
    (List.range (returnedIds s.trace).length).map (fun k => (k + 1) % UINT_RANGE)

/-- A repeating timer with id 1, the first object a reactor allocates. -/
def keptTimer : WaitHandlerBase := TimerHandler.new 0 5 1000 true 1 (Handler.mk 0 [])

/-- Register `keptTimer`, then `n` times: add a one-shot timer, remove it by its id and
rebuild. The one-shot timer of round `k` receives the id `(k + 2) mod 2^32`. -/
def churn : Nat → List Step
  | 0 => [Step.api (ApiCall.addTimer 5 1000 true (Handler.mk 0 []))]
  | n + 1 => churn n ++
      [Step.api (ApiCall.addTimer 6 10 false (Handler.mk 1 [])),
       Step.api (ApiCall.removeTimer ((n + 2) % UINT_RANGE)),
       Step.build]

/-- The steps of `churn` that bring the id counter to 0, followed by one more
`AddTimer`. -/
def stepsToWrap : List Step :=
  churn (UINT_RANGE - 2) ++ [Step.api (ApiCall.addTimer 6 10 false (Handler.mk 1 []))]

/-- Calls of `OnWaitHandleRemoved` recorded in a trace: object and reported handle. -/
def removalsOf : List Event → List (Nat × HANDLE)
  | [] => []
  | Event.handleRemoved addr h :: rest => (addr, h) :: removalsOf rest
  | _ :: rest => removalsOf rest

/-- Functor invocations recorded in a trace: the objects whose functor ran. -/
def invocationsOf : List Event → List Nat
  | [] => []
  | Event.invoked addr _ :: rest => addr :: invocationsOf rest
  | _ :: rest => invocationsOf rest

/-- Objects destroyed (`delete`) according to a trace. -/
def destructionsOf : List Event → List Nat
  | [] => []
  | Event.destroyed addr :: rest => addr :: destructionsOf rest
  | _ :: rest => destructionsOf rest

/-- A reactor with one external source registered. -/
def oneSource : WFMOHandler := (AddWaitHandle 7 (Handler.mk 0 []) (WFMOHandler.new 1 2)).2

/-- A reactor with one timer, added as repeating every 50 ms and then adjusted to a single
shot after 200 ms. -/
def adjustedTimer : WFMOHandler :=
  AdjustTimer 1 200 false (AddTimer 5 50 true (Handler.mk 0 []) (WFMOHandler.new 1 2)).2

/-- Members of an entry that only its constructor writes. -/
def WaitHandlerBase.fixedPart (e : WaitHandlerBase) : Nat × HANDLE × Option (Nat × Nat × Bool) :=
  (e.addr, e.m_h, e.timer.map (fun t => (t.m_id, t.m_interval, t.m_repeat)))

/-- The entry `e'` is a later state of the object `e`: the members written only by the
constructor and the functor are the same, and a set delete flag is still set. -/
def Evolves (e e' : WaitHandlerBase) : Prop :=
  e'.fixedPart = e.fixedPart ∧ e'.m_handler = e.m_handler ∧
    (e.m_markfordeletion = true → e'.m_markfordeletion = true)

/-- An update of entries under which every object evolves. -/
def Stable (f : WaitHandlerBase → WaitHandlerBase) : Prop := ∀ e, Evolves e (f e)

/-- Objects are allocated at increasing addresses and pushed at the back: the addresses in
the registry increase strictly and lie below the allocation counter. -/
def WellAddressed (s : WFMOHandler) : Prop :=
  (s.m_waithandlers.map (fun e => e.addr) ++ [s.nextAddr]).Pairwise (fun a b => a < b)

/-- The functor of the object at address `a` can no longer run: the object has been
allocated, and any registry entry at that address is marked for deletion. -/
def Retired (a : Nat) (s : WFMOHandler) : Prop :=
  a < s.nextAddr ∧ ∀ x ∈ s.m_waithandlers, x.addr = a → x.m_markfordeletion = true

/-- Only objects that have been allocated were ever invoked. -/
def InvokedAllocated (s : WFMOHandler) : Prop :=
  ∀ a ∈ invocationsOf s.trace, a < s.nextAddr

/-- The steps of `churn` that bring the id counter back to 1 while `keptTimer`, which has
id 1, is still registered, followed by one more `AddTimer`. -/
def stepsToReuse : List Step :=
  churn (UINT_RANGE - 1) ++ [Step.api (ApiCall.addTimer 6 10 false (Handler.mk 1 []))]

/-- The trace records that `AddTimer(..., repeat = false, ...)` created the object at
address `a`. -/
def OneShotAdded (a : Nat) (tr : List Event) : Prop :=
  ∃ id, Event.addTimerReturned a false id ∈ tr

/-- The entry is a `TimerHandler<>` constructed with `repeat = false`. -/
def IsOneShot (x : WaitHandlerBase) : Prop :=
  ∃ t, x.timer = some t ∧ t.m_repeat = false

/-- State of a one-shot timer object at address `a` between steps: its registry entry,
if any, is a one-shot timer, and either its functor has not run, or it ran once and the
entry is marked for deletion. -/
def OneShotState (a : Nat) (s : WFMOHandler) : Prop :=
  a < s.nextAddr ∧
  (∀ x ∈ s.m_waithandlers, x.addr = a → IsOneShot x) ∧
  ((invocationsOf s.trace).count a = 0 ∨
    ((invocationsOf s.trace).count a = 1 ∧
      ∀ x ∈ s.m_waithandlers, x.addr = a → x.m_markfordeletion = true))

/-- State of a one-shot timer object at address `a` while the functor of the entry `e`
runs. -/
def OneShotDuring (a : Nat) (e : WaitHandlerBase) (s : WFMOHandler) : Prop :=
  a < s.nextAddr ∧
  (∀ x ∈ s.m_waithandlers, x.addr = a → IsOneShot x) ∧
  (e.addr = a → (invocationsOf s.trace).count a = 1) ∧
  (e.addr ≠ a → ((invocationsOf s.trace).count a = 0 ∨
    ((invocationsOf s.trace).count a = 1 ∧
      ∀ x ∈ s.m_waithandlers, x.addr = a → x.m_markfordeletion = true)))

/-- While an entry marked for deletion is in the registry, the rebuild event is set. -/
def RebuildPending (s : WFMOHandler) : Prop :=
  (∃ x ∈ s.m_waithandlers, x.m_markfordeletion = true) → s.rebuildSet = true

/-- What `InvokeWaitHandleHandler` and `invoke` read of an entry: every member but the
state of the timer object. -/
def WaitHandlerBase.visible (e : WaitHandlerBase) :
    (Nat × HANDLE × Option (Nat × Nat × Bool)) × Bool × Handler :=
  (e.fixedPart, e.m_markfordeletion, e.m_handler)

/-- The run `stepsToReuse` followed by a rebuild and the dispatch of the new one-shot
timer, which sits at position 1. -/
def stepsToFire : List Step := stepsToReuse ++ [Step.build, Step.dispatch 1]

/-- What must have happened in the trace `pre` before `OnWaitHandleRemoved` may be called
for the object at address `a`: it was created exactly once, its delete flag was set by a
`RemoveWaitHandle` / `RemoveTimer` call or by its own invoke as a one-shot timer, and the
hook has not been called for it yet. -/
def MayNotify (pre : List Event) (a : Nat) : Prop :=
  pre.count (Event.created a) = 1 ∧
  (Event.removeMarked a ∈ pre ∨ Event.selfMarked a ∈ pre) ∧
  ∀ h, Event.handleRemoved a h ∉ pre

/-- Every `OnWaitHandleRemoved` call in the trace was allowed by what preceded it. -/
def NotifiedProperly (tr : List Event) : Prop :=
  ∀ pre post a h, tr = pre ++ Event.handleRemoved a h :: post → MayNotify pre a

/-- Invariant linking the registry and the trace: notifications are proper; an object
has one `created` event exactly when it has been allocated; a marked entry was marked by
a recorded removal or self-removal; no registered entry has been notified. -/
def TraceInv (s : WFMOHandler) : Prop :=
  NotifiedProperly s.trace ∧
  (∀ a, s.trace.count (Event.created a) = if a < s.nextAddr then 1 else 0) ∧
  (∀ x ∈ s.m_waithandlers, x.m_markfordeletion = true →
    Event.removeMarked x.addr ∈ s.trace ∨ Event.selfMarked x.addr ∈ s.trace) ∧
  (∀ x ∈ s.m_waithandlers, ∀ h, Event.handleRemoved x.addr h ∉ s.trace)

/-- A one-shot timer is added, the snapshot built, the timer fires and is dispatched, and
the rebuild it requested is carried out. -/
def selfRemovalRun : List Step :=
  [Step.api (ApiCall.addTimer 5 100 false (Handler.mk 0 [])), Step.build, Step.wake 2,
    Step.wake 1]

/-- A reactor on which 62 external sources with the handles 10, 11, ..., 71 have been
registered. -/
def fullReactor : WFMOHandler :=
  (List.range 62).foldl (fun s i => (AddWaitHandle (10 + i) (Handler.mk i []) s).2)
    (WFMOHandler.new 1 2)

/-- The indices that the fill loop of `BuildHandleArray` writes, starting from `i`. -/
def fillIndices : List WaitHandlerBase → Nat → List Nat
  | [], _ => []
  | _ :: rest, i => i :: fillIndices rest (i + 1)

/-- The check `_ASSERTE(m_waithandlers.size() <= (MAX_WAIT_COUNT-2))` of
`BuildHandleArray`, evaluated where it stands: after the erase loop. -/
def BuildHandleArray.assertion (s : WFMOHandler) : Bool :=
  decide ((sweep s.m_waithandlers).1.length ≤ MAX_WAIT_COUNT - 2)

/-- The indices of `ahandles` that `BuildHandleArray` writes: the two reserved slots and
those of the fill loop. -/
def BuildHandleArray.writes (s : WFMOHandler) : List Nat :=
  0 :: 1 :: fillIndices (sweep s.m_waithandlers).1 2

/-- The worker has built its snapshot of an empty registry (two slots); a source is
registered afterwards. -/
def staleSnapshotRun : List Step :=
  [Step.build, Step.api (ApiCall.addWaitHandle 7 (Handler.mk 3 []))]

/-- Steps in which the worker performs a sweep-and-snapshot. -/
def Step.rebuilds : Step → Bool
  | Step.build => true
  | Step.wake dwRet => dwRet == 1
  | _ => false

/-- The snapshot has its two reserved slots and lists, from slot 2 on, the handles of the
first registry entries in registry order. -/
def SnapshotPrefix (ts : ThreadState) : Prop :=
  2 ≤ ts.ahandles.length ∧
  ts.ahandles.drop 2 <+: ts.obj.m_waithandlers.map (fun e => e.m_h)

/-- Model of the wait `WaitForMultipleObjectsEx(ahandles.size(), &ahandles[0], FALSE,
INFINITE, TRUE)` when it returns for a signalled object, as the reactor design takes it:
the lowest index whose object is signalled wins. Slot 0 is signalled when the shutdown
event is set, slot 1 when the rebuild event is set, a user slot when `ready` holds of its
handle; `none` means that the wait blocks. -/
def lowestReady (ready : HANDLE → Bool) (ts : ThreadState) : Option Nat :=
  if ts.obj.shutdownSet then some 0
  else if ts.obj.rebuildSet then some 1
  else ((ts.ahandles.drop 2).findIdx? ready).map (fun k => k + 2)

/-- While the rebuild event is not set, the snapshot is current: from slot 2 on it lists
the handles of all registry entries, and no entry is marked for deletion. -/
def InSync (ts : ThreadState) : Prop :=
  ts.obj.rebuildSet = false →
    ts.ahandles.drop 2 = ts.obj.m_waithandlers.map (fun e => e.m_h) ∧
    ∀ x ∈ ts.obj.m_waithandlers, x.m_markfordeletion = false

/-- The erase loop of `BuildHandleArray` in a derived class whose override of the virtual
`OnWaitHandleRemoved(h)` makes the API calls `hook h`. `i` is the position of
`itWaitable`. On a marked entry the loop first advances `itWaitable` (`itDel =
itWaitable++`), which leaves it at `end()` when the entry is the last one, whatever the
hook appends; then it calls the hook, deletes the object and erases the entry. `fuel`
bounds the number of iterations (a hook that keeps registering marked entries makes the
loop run forever). -/
def sweepWith (hook : HANDLE → List ApiCall) : Nat → Nat → WFMOHandler → Option WFMOHandler
  | 0, _, _ => none
  | fuel + 1, i, s =>
    match s.m_waithandlers[i]? with
    | none => some s
    | some e =>
      if e.m_markfordeletion then
        let atEnd := decide (i + 1 = s.m_waithandlers.length)
        let s1 := runCalls (hook e.m_h)
          { s with trace := s.trace ++ [Event.handleRemoved e.addr e.m_h] }
        let s2 := { s1 with
          m_waithandlers := s1.m_waithandlers.eraseIdx i
          trace := s1.trace ++ [Event.destroyed e.addr] }
        if atEnd then some s2 else sweepWith hook fuel i s2
      else sweepWith hook fuel (i + 1) s

/-- Method `BuildHandleArray(ahandles)` in a derived class that overrides
`OnWaitHandleRemoved` by `hook`; `none` when `fuel` iterations of the erase loop do not
suffice. -/
def BuildHandleArrayWith (hook : HANDLE → List ApiCall) (fuel : Nat) (ahandles : List HANDLE)
    (s : WFMOHandler) : Option (List HANDLE × Nat × WFMOHandler) :=
  match sweepWith hook fuel 0 s with
  | none => none
  | some s' =>
    let a0 := resize ahandles (2 + s'.m_waithandlers.length)
    let a1 := a0.set 0 s'.m_shutdownevent
    let a2 := a1.set 1 s'.m_rebuildwaitarrayevent
    let f := fillHandles s'.m_waithandlers 2 a2
    some (f.1, f.2, { s' with rebuildSet := false })

/-- The statement `nHandles = BuildHandleArray(ahandles)` of `ThreadProc` in a derived class
that overrides `OnWaitHandleRemoved` by `hook`. -/
def ThreadState.rebuildWith (hook : HANDLE → List ApiCall) (fuel : Nat) (ts : ThreadState) :
    Option ThreadState :=
  match BuildHandleArrayWith hook fuel ts.ahandles ts.obj with
  | none => none
  | some r => some { ts with obj := r.2.2, ahandles := r.1, nHandles := r.2.1 }

/-- An override of `OnWaitHandleRemoved` that, told that the source with handle 8 is gone,
removes the companion source with handle 7. -/
def companionHook (h : HANDLE) : List ApiCall :=
  if h = 8 then [ApiCall.removeWaitHandle 7] else []

/-- Two sources with the handles 7 and 8 are registered, the worker builds its snapshot,
and the source with handle 8 is removed. -/
def companionRun : List Step :=
  [Step.api (ApiCall.addWaitHandle 7 (Handler.mk 0 [])),
    Step.api (ApiCall.addWaitHandle 8 (Handler.mk 1 [])),
    Step.build,
    Step.api (ApiCall.removeWaitHandle 8)]

/-- Constant `WAIT_OBJECT_0` of winbase.h. -/
def WAIT_OBJECT_0 : Nat := 0

/-- Constant `WAIT_ABANDONED_0` of winbase.h. -/
def WAIT_ABANDONED_0 : Nat := 0x80

/-- Constant `WAIT_IO_COMPLETION` of winbase.h. -/
def WAIT_IO_COMPLETION : Nat := 0xC0

/-- Constant `WAIT_TIMEOUT` of winbase.h. -/
def WAIT_TIMEOUT : Nat := 0x102

/-- Constant `WAIT_FAILED` of winbase.h, `(DWORD)0xFFFFFFFF`. -/
def WAIT_FAILED : Nat := 0xFFFFFFFF

/-- Constant `MAXIMUM_WAIT_OBJECTS` of winnt.h, the largest handle count a multiplex wait
accepts. -/
def MAXIMUM_WAIT_OBJECTS : Nat := 64

/-- The values that the call `::WaitForMultipleObjectsEx(ahandles.size(), &ahandles[0],
FALSE, INFINITE, TRUE)` of `ThreadProc` can return for `nCount = ahandles.size()`:
`WAIT_OBJECT_0 + i` or `WAIT_ABANDONED_0 + i` for an index `i` below `nCount`, when
`nCount` is between 1 and `MAXIMUM_WAIT_OBJECTS`; `WAIT_IO_COMPLETION` (the wait is
alertable); `WAIT_TIMEOUT`; `WAIT_FAILED`. -/
def WaitForMultipleObjectsEx.returns (nCount dwRet : Nat) : Bool :=
  (decide (1 ≤ nCount ∧ nCount ≤ MAXIMUM_WAIT_OBJECTS) &&
    (decide (dwRet < WAIT_OBJECT_0 + nCount) ||
      decide (WAIT_ABANDONED_0 ≤ dwRet ∧ dwRet < WAIT_ABANDONED_0 + nCount))) ||
  dwRet == WAIT_IO_COMPLETION || dwRet == WAIT_TIMEOUT || dwRet == WAIT_FAILED

/-- The check `_ASSERTE(m_waithandlers.size() <= (MAX_WAIT_COUNT-2))` of
`BuildHandleArray` in a derived class that overrides `OnWaitHandleRemoved` by `hook`,
evaluated where it stands: after the erase loop. -/
def BuildHandleArrayWith.assertion (hook : HANDLE → List ApiCall) (fuel : Nat)
    (s : WFMOHandler) : Option Bool :=
  (sweepWith hook fuel 0 s).map
    (fun s1 => decide (s1.m_waithandlers.length ≤ MAX_WAIT_COUNT - 2))

/-- An override of `OnWaitHandleRemoved` that, told that the source with handle 71 is
gone, removes the source with handle 10 and registers a source with handle 73. -/
def replacingHook (h : HANDLE) : List ApiCall :=
  if h = 71 then
    [ApiCall.removeWaitHandle 10, ApiCall.addWaitHandle 73 (Handler.mk 63 [])]
  else []

/-- Sources with the handles 10, 11, ..., 71 are registered, which fills the reactor, and
the worker builds its snapshot; then the source with handle 71 is removed and a source
with handle 72 is registered in the slot this frees. -/
def replacingRun : List Step :=
  (List.range 62).map (fun i => Step.api (ApiCall.addWaitHandle (10 + i) (Handler.mk i [])))
    ++ [Step.build, Step.api (ApiCall.removeWaitHandle 71),
      Step.api (ApiCall.addWaitHandle 72 (Handler.mk 62 []))]

/-! # Theorems -/

/-! ## Unfolding lemmas for the registry operations -/

theorem updateFirst_of_find_none (p : WaitHandlerBase → Bool)
    (f : WaitHandlerBase → WaitHandlerBase) (l : List WaitHandlerBase)
    (h : l.find? p = none) : updateFirst p f l = l := by
  induction l with
  | nil => rfl
  | cons e rest ih =>
    unfold updateFirst
    by_cases hp : p e = true
    · simp [List.find?_cons, hp] at h
    · simp only [List.find?_cons, hp] at h
      simp only [hp, Bool.false_eq_true, if_false, ih h]

theorem RemoveTimer_registry (id : Nat) (s : WFMOHandler) :
    (RemoveTimer id s).m_waithandlers
      = updateFirst (isTimerWithId id)
          (fun e => { CancelWaitableTimer e with m_markfordeletion := true })
          s.m_waithandlers := by
  unfold RemoveTimer
  cases h : s.m_waithandlers.find? (isTimerWithId id) with
  | none => simp only [updateFirst_of_find_none _ _ _ h]
  | some e => rfl

theorem RemoveWaitHandle_registry (h : HANDLE) (s : WFMOHandler) :
    (RemoveWaitHandle h s).m_waithandlers
      = updateFirst (fun e => e.m_h == h) (fun e => { e with m_markfordeletion := true })
          s.m_waithandlers := by
  unfold RemoveWaitHandle
  cases hf : s.m_waithandlers.find? (fun e => e.m_h == h) with
  | none => simp only [updateFirst_of_find_none _ _ _ hf]
  | some e => rfl

theorem RemoveTimer_counter (id : Nat) (s : WFMOHandler) :
    (RemoveTimer id s).m_nexttimertriggerid = s.m_nexttimertriggerid := by
  unfold RemoveTimer; split <;> rfl

theorem RemoveTimer_nextAddr (id : Nat) (s : WFMOHandler) :
    (RemoveTimer id s).nextAddr = s.nextAddr := by
  unfold RemoveTimer; split <;> rfl

theorem RemoveWaitHandle_counter (h : HANDLE) (s : WFMOHandler) :
    (RemoveWaitHandle h s).m_nexttimertriggerid = s.m_nexttimertriggerid := by
  unfold RemoveWaitHandle; split <;> rfl

theorem RemoveWaitHandle_nextAddr (h : HANDLE) (s : WFMOHandler) :
    (RemoveWaitHandle h s).nextAddr = s.nextAddr := by
  unfold RemoveWaitHandle; split <;> rfl

theorem BuildHandleArray_registry (a : List HANDLE) (s : WFMOHandler) :
    (BuildHandleArray a s).2.2.m_waithandlers = (sweep s.m_waithandlers).1 := rfl

theorem BuildHandleArray_counter (a : List HANDLE) (s : WFMOHandler) :
    (BuildHandleArray a s).2.2.m_nexttimertriggerid = s.m_nexttimertriggerid := rfl

/-! ## Live-entry accounting -/

theorem keepsMark_mark : KeepsMark (fun e => { e with m_markfordeletion := true }) :=
  fun _ _ => rfl

theorem keepsMark_cancelMark :
    KeepsMark (fun e => { CancelWaitableTimer e with m_markfordeletion := true }) :=
  fun _ _ => rfl

theorem keepsMark_rearm (ms : Nat) (r : Bool) : KeepsMark (rearm ms r) :=
  fun _ h => h

theorem nUsed_cons (e : WaitHandlerBase) (l : List WaitHandlerBase) :
    nUsed (e :: l) = nUsed l + (if e.m_markfordeletion then 0 else 1) := by
  unfold nUsed
  cases h : e.m_markfordeletion <;> simp [List.countP_cons, h]

theorem nUsed_append (l₁ l₂ : List WaitHandlerBase) :
    nUsed (l₁ ++ l₂) = nUsed l₁ + nUsed l₂ := by
  unfold nUsed
  exact List.countP_append _ l₁ l₂

theorem nUsed_single_le (f : WaitHandlerBase → WaitHandlerBase) (hf : KeepsMark f)
    (e : WaitHandlerBase) :
    (if (f e).m_markfordeletion then 0 else 1) ≤ (if e.m_markfordeletion then 0 else 1) := by
  cases h : e.m_markfordeletion
  · cases (f e).m_markfordeletion <;> simp
  · simp [hf e h]

theorem nUsed_updateFirst_le (p : WaitHandlerBase → Bool) (f : WaitHandlerBase → WaitHandlerBase)
    (hf : KeepsMark f) (l : List WaitHandlerBase) : nUsed (updateFirst p f l) ≤ nUsed l := by
  induction l with
  | nil => simp [updateFirst]
  | cons e rest ih =>
    unfold updateFirst
    by_cases hp : p e = true
    · simp only [hp, if_true, nUsed_cons]
      have := nUsed_single_le f hf e
      omega
    · simp only [hp, Bool.false_eq_true, if_false]
      rw [nUsed_cons, nUsed_cons]
      omega

theorem nUsed_updateAt_le (f : WaitHandlerBase → WaitHandlerBase) (hf : KeepsMark f)
    (l : List WaitHandlerBase) (k : Nat) : nUsed (updateAt k f l) ≤ nUsed l := by
  induction l generalizing k with
  | nil => simp [updateAt]
  | cons e rest ih =>
    cases k with
    | zero =>
      simp only [updateAt, nUsed_cons]
      have := nUsed_single_le f hf e
      omega
    | succ k =>
      simp only [updateAt, nUsed_cons]
      have := ih k
      omega

theorem nUsed_map_le (f : WaitHandlerBase → WaitHandlerBase) (hf : KeepsMark f)
    (l : List WaitHandlerBase) : nUsed (l.map f) ≤ nUsed l := by
  induction l with
  | nil => simp
  | cons e rest ih =>
    simp only [List.map_cons, nUsed_cons]
    have := nUsed_single_le f hf e
    omega

theorem sweep_fst_eq_filter (l : List WaitHandlerBase) :
    (sweep l).1 = l.filter (fun e => !e.m_markfordeletion) := by
  induction l with
  | nil => rfl
  | cons e rest ih =>
    unfold sweep
    cases h : e.m_markfordeletion <;> simp [h, ih]

theorem nUsed_sweep (l : List WaitHandlerBase) : nUsed (sweep l).1 = nUsed l := by
  induction l with
  | nil => rfl
  | cons e rest ih =>
    unfold sweep
    cases h : e.m_markfordeletion <;> simp [h, nUsed_cons, ih]

theorem withinCapacity_AddWaitHandle (h : HANDLE) (handler : Handler) (s : WFMOHandler)
    (hs : WithinCapacity s) : WithinCapacity (AddWaitHandle h handler s).2 := by
  unfold AddWaitHandle IsWaitHandleSlotAvailable
  by_cases hc : nUsed s.m_waithandlers ≥ MAX_WAIT_COUNT - 2
  · simpa [hc] using hs
  · simp only [hc, if_false, Bool.not_true, Bool.false_eq_true]
    have h0 : nUsed ([] : List WaitHandlerBase) = 0 := rfl
    simp only [WithinCapacity, setRebuild, nUsed_append, nUsed_cons, h0, WaitHandler.new,
      Bool.false_eq_true, if_false]
    omega

theorem withinCapacity_AddTimer (hTimer ms : Nat) (r : Bool) (handler : Handler)
    (s : WFMOHandler) (hs : WithinCapacity s) :
    WithinCapacity (AddTimer hTimer ms r handler s).2 := by
  unfold AddTimer IsWaitHandleSlotAvailable
  by_cases hc : nUsed s.m_waithandlers ≥ MAX_WAIT_COUNT - 2
  · simpa [hc] using hs
  · simp only [hc, if_false, Bool.not_true, Bool.false_eq_true]
    have h0 : nUsed ([] : List WaitHandlerBase) = 0 := rfl
    simp only [WithinCapacity, setRebuild, nUsed_append, nUsed_cons, h0, TimerHandler.new,
      Bool.false_eq_true, if_false]
    omega

theorem withinCapacity_RemoveWaitHandle (h : HANDLE) (s : WFMOHandler)
    (hs : WithinCapacity s) : WithinCapacity (RemoveWaitHandle h s) := by
  unfold RemoveWaitHandle
  cases s.m_waithandlers.find? (fun e => e.m_h == h) with
  | none => exact hs
  | some e =>
    exact le_trans (nUsed_updateFirst_le _ _ keepsMark_mark _) hs

theorem withinCapacity_RemoveTimer (id : Nat) (s : WFMOHandler)
    (hs : WithinCapacity s) : WithinCapacity (RemoveTimer id s) := by
  unfold RemoveTimer
  cases s.m_waithandlers.find? (isTimerWithId id) with
  | none => exact hs
  | some e =>
    exact le_trans (nUsed_updateFirst_le _ _ keepsMark_cancelMark _) hs

theorem withinCapacity_AdjustTimer (id interval : Nat) (r : Bool) (s : WFMOHandler)
    (hs : WithinCapacity s) : WithinCapacity (AdjustTimer id interval r s) := by
  refine le_trans (nUsed_map_le _ ?_ _) hs
  intro e he
  by_cases hc : (isTimerWithId id e && !e.m_markfordeletion) = true
  · simp only [hc, if_true]; exact he
  · simp only [hc]; exact he

theorem withinCapacity_exec (c : ApiCall) (s : WFMOHandler) (hs : WithinCapacity s) :
    WithinCapacity (c.exec s) := by
  cases c with
  | addWaitHandle h handler => exact withinCapacity_AddWaitHandle h handler s hs
  | removeWaitHandle h => exact withinCapacity_RemoveWaitHandle h s hs
  | addTimer hTimer ms r handler => exact withinCapacity_AddTimer hTimer ms r handler s hs
  | removeTimer id => exact withinCapacity_RemoveTimer id s hs
  | adjustTimer id interval r => exact withinCapacity_AdjustTimer id interval r s hs

theorem withinCapacity_runCalls (cs : List ApiCall) (s : WFMOHandler)
    (hs : WithinCapacity s) : WithinCapacity (runCalls cs s) := by
  induction cs generalizing s with
  | nil => exact hs
  | cons c cs ih => exact ih _ (withinCapacity_exec c s hs)

theorem withinCapacity_invoke (k : Nat) (e : WaitHandlerBase) (s : WFMOHandler)
    (hs : WithinCapacity s) : WithinCapacity (invoke k e s) := by
  have h1 : WithinCapacity (callHandler e s) := withinCapacity_runCalls _ _ hs
  unfold invoke
  cases e.timer with
  | none => exact h1
  | some t =>
    by_cases hr : t.m_repeat = true
    · simp only [hr, if_true]
      exact le_trans (nUsed_updateAt_le _ (keepsMark_rearm _ _) _ _) h1
    · simp only [hr]
      exact le_trans (nUsed_updateAt_le _ keepsMark_mark _ _) h1

theorem withinCapacity_InvokeWaitHandleHandler (index : Nat) (s : WFMOHandler)
    (hs : WithinCapacity s) : WithinCapacity (InvokeWaitHandleHandler index s) := by
  unfold InvokeWaitHandleHandler
  cases s.m_waithandlers[index]? with
  | none => exact hs
  | some e =>
    by_cases hm : (!e.m_markfordeletion) = true
    · simp only [hm, if_true]; exact withinCapacity_invoke _ _ _ hs
    · simp only [hm]; exact hs

theorem withinCapacity_BuildHandleArray (a : List HANDLE) (s : WFMOHandler)
    (hs : WithinCapacity s) : WithinCapacity (BuildHandleArray a s).2.2 := by
  simp only [WithinCapacity, BuildHandleArray, nUsed_sweep]
  exact hs

theorem withinCapacity_step (x : Step) (ts : ThreadState) (hs : WithinCapacity ts.obj) :
    WithinCapacity (x.exec ts).obj := by
  cases x with
  | api c => exact withinCapacity_exec c _ hs
  | build => exact withinCapacity_BuildHandleArray ts.ahandles _ hs
  | dispatch index => exact withinCapacity_InvokeWaitHandleHandler _ _ hs
  | wake dwRet =>
    simp only [Step.exec, ThreadProc.iterate]
    split_ifs
    · exact hs
    · exact hs
    · exact withinCapacity_BuildHandleArray ts.ahandles _ hs
    · exact withinCapacity_InvokeWaitHandleHandler _ _ hs
    · exact hs

theorem withinCapacity_run (steps : List Step) (ts : ThreadState)
    (hs : WithinCapacity ts.obj) : WithinCapacity (run steps ts).obj := by
  induction steps generalizing ts with
  | nil => exact hs
  | cons x xs ih => exact ih _ (withinCapacity_step x ts hs)

/-- C1: in every state reached from a freshly constructed reactor by any sequence of
AddWaitHandle, AddTimer, RemoveWaitHandle, RemoveTimer, AdjustTimer, BuildHandleArray
and dispatch steps (and whole loop iterations), the number of registry entries whose
delete flag is false is at most MAX_WAIT_COUNT - 2 = 62. -/
theorem live_entries_le_62 (hShutdown hRebuild : HANDLE) (steps : List Step) :
    ((run steps (ThreadState.fresh hShutdown hRebuild)).obj.m_waithandlers.filter
      (fun e => e.m_markfordeletion = false)).length ≤ 62 := by
  have h := withinCapacity_run steps (ThreadState.fresh hShutdown hRebuild)
    (by simp [WithinCapacity, ThreadState.fresh, WFMOHandler.new, nUsed])
  simp only [WithinCapacity, nUsed, MAX_WAIT_COUNT, List.countP_eq_length_filter] at h
  have e : (fun e : WaitHandlerBase => decide (e.m_markfordeletion = false))
      = (fun e => !e.m_markfordeletion) := by
    funext e; cases e.m_markfordeletion <;> rfl
  rw [e]
  exact h

/-! ## Registration and the capacity limit -/

theorem slotAvailable_iff (s : WFMOHandler) :
    IsWaitHandleSlotAvailable s = true ↔ nUsed s.m_waithandlers < 62 := by
  unfold IsWaitHandleSlotAvailable MAX_WAIT_COUNT
  by_cases hc : nUsed s.m_waithandlers ≥ 64 - 2
  · simp only [hc, if_true, Bool.false_eq_true, false_iff]; omega
  · simp only [hc, if_false, true_iff]; omega

theorem nUsed_updateFirst_mark (p : WaitHandlerBase → Bool)
    (f : WaitHandlerBase → WaitHandlerBase) (hf : ∀ e, (f e).m_markfordeletion = true)
    (l : List WaitHandlerBase) (e : WaitHandlerBase) (hfind : l.find? p = some e)
    (he : e.m_markfordeletion = false) : nUsed (updateFirst p f l) + 1 = nUsed l := by
  induction l with
  | nil => simp at hfind
  | cons x rest ih =>
    unfold updateFirst
    by_cases hp : p x = true
    · simp only [List.find?_cons, hp, Option.some.injEq] at hfind
      subst hfind
      simp only [hp, if_true]
      rw [nUsed_cons, nUsed_cons]
      simp [hf x, he]
    · simp only [List.find?_cons, hp] at hfind
      simp only [hp, Bool.false_eq_true, if_false]
      rw [nUsed_cons, nUsed_cons]
      have := ih hfind
      omega

/-- C2: a registration is rejected exactly when the number of entries with delete flag
false is at least 62; a rejected AddWaitHandle returns false, a rejected AddTimer returns
0, and both leave the whole reactor (registry, next timer id, rebuild signal) unchanged;
otherwise the call appends exactly one new entry with delete flag false at the end of the
registry and sets the rebuild signal. In particular, with 62 live sources AddWaitHandle
returns false, and after one live source is removed (by handle or by timer id) and the
snapshot rebuilt, AddWaitHandle returns true. -/
theorem registration_rejected_iff_full (s : WFMOHandler) (h hTimer ms : Nat) (r : Bool)
    (handler : Handler) (ahandles : List HANDLE) :
    ((AddWaitHandle h handler s).1 = false ↔ 62 ≤ nUsed s.m_waithandlers) ∧
    (62 ≤ nUsed s.m_waithandlers →
      AddWaitHandle h handler s = (false, s) ∧ AddTimer hTimer ms r handler s = (0, s)) ∧
    (nUsed s.m_waithandlers < 62 →
      (∃ e, e.m_markfordeletion = false ∧ e.m_h = h ∧
        (AddWaitHandle h handler s).1 = true ∧
        (AddWaitHandle h handler s).2.m_waithandlers = s.m_waithandlers ++ [e] ∧
        (AddWaitHandle h handler s).2.rebuildSet = true) ∧
      (∃ e, e.m_markfordeletion = false ∧ e.IsTimer = true ∧
        (AddTimer hTimer ms r handler s).2.m_waithandlers = s.m_waithandlers ++ [e] ∧
        (AddTimer hTimer ms r handler s).2.rebuildSet = true)) ∧
    (nUsed s.m_waithandlers = 62 →
      (AddWaitHandle h handler s).1 = false ∧
      (∀ h₁ e₁, s.m_waithandlers.find? (fun e => e.m_h == h₁) = some e₁ →
        e₁.m_markfordeletion = false →
        (AddWaitHandle h handler
          (BuildHandleArray ahandles (RemoveWaitHandle h₁ s)).2.2).1 = true) ∧
      (∀ id e₁, s.m_waithandlers.find? (isTimerWithId id) = some e₁ →
        e₁.m_markfordeletion = false →
        (AddWaitHandle h handler
          (BuildHandleArray ahandles (RemoveTimer id s)).2.2).1 = true)) := by
  have hav := slotAvailable_iff s
  have hrej : 62 ≤ nUsed s.m_waithandlers → IsWaitHandleSlotAvailable s = false := by
    intro h62
    cases hb : IsWaitHandleSlotAvailable s
    · rfl
    · have := hav.mp hb; omega
  have hadd : ∀ s' : WFMOHandler, nUsed s'.m_waithandlers < 62 →
      (AddWaitHandle h handler s').1 = true := by
    intro s' hlt
    have := (slotAvailable_iff s').mpr hlt
    simp [AddWaitHandle, this]
  refine ⟨?_, ?_, ?_, ?_⟩
  · constructor
    · intro hf
      by_contra hlt
      have := hadd s (by omega)
      rw [hf] at this
      exact Bool.noConfusion this
    · intro h62
      simp [AddWaitHandle, hrej h62]
  · intro h62
    simp [AddWaitHandle, AddTimer, hrej h62]
  · intro hlt
    have hb := hav.mpr hlt
    constructor
    · exact ⟨WaitHandler.new s.nextAddr h handler, rfl, rfl, by simp [AddWaitHandle, hb],
        by simp [AddWaitHandle, hb, setRebuild],
        by simp [AddWaitHandle, hb, setRebuild]⟩
    · exact ⟨TimerHandler.new s.nextAddr hTimer ms r s.m_nexttimertriggerid handler, rfl, rfl,
        by simp [AddTimer, hb, setRebuild], by simp [AddTimer, hb, setRebuild]⟩
  · intro h62
    refine ⟨by simp [AddWaitHandle, hrej (le_of_eq h62.symm)], ?_, ?_⟩
    · intro h₁ e₁ hfind he
      apply hadd
      have := nUsed_updateFirst_mark (fun e => e.m_h == h₁)
        (fun e => { e with m_markfordeletion := true }) (fun _ => rfl) _ e₁ hfind he
      simp only [BuildHandleArray, RemoveWaitHandle, hfind, setRebuild, nUsed_sweep] at this ⊢
      omega
    · intro id e₁ hfind he
      apply hadd
      have := nUsed_updateFirst_mark (isTimerWithId id)
        (fun e => { CancelWaitableTimer e with m_markfordeletion := true }) (fun _ => rfl) _ e₁
        hfind he
      simp only [BuildHandleArray, RemoveTimer, hfind, setRebuild, nUsed_sweep] at this ⊢
      omega

set_option maxRecDepth 100000 in
/-- Witness for C2: on `fullReactor`, which holds 62 live sources, AddWaitHandle returns
false; after the source with handle 30 is removed and the snapshot rebuilt, AddWaitHandle
returns true. -/
theorem registration_rejected_iff_full_witness :
    (AddWaitHandle 99 (Handler.mk 0 []) fullReactor).1 = false ∧
    (AddWaitHandle 99 (Handler.mk 0 [])
      (BuildHandleArray [] (RemoveWaitHandle 30 fullReactor)).2.2).1 = true :=
  have h := (registration_rejected_iff_full fullReactor 99 0 0 false (Handler.mk 0 []) []).2.2.2
    (by decide)
  ⟨h.1, h.2.1 30 (WaitHandler.new 20 30 (Handler.mk 20 [])) rfl rfl⟩

/-! ## Invariants along runs -/

theorem InvokeWaitHandleHandler_none (index : Nat) (s : WFMOHandler)
    (hg : s.m_waithandlers[index]? = none) : InvokeWaitHandleHandler index s = s := by
  simp [InvokeWaitHandleHandler, hg]

theorem InvokeWaitHandleHandler_marked (index : Nat) (s : WFMOHandler) (e : WaitHandlerBase)
    (hg : s.m_waithandlers[index]? = some e) (hm : e.m_markfordeletion = true) :
    InvokeWaitHandleHandler index s = s := by
  simp [InvokeWaitHandleHandler, hg, hm]

theorem InvokeWaitHandleHandler_live (index : Nat) (s : WFMOHandler) (e : WaitHandlerBase)
    (hg : s.m_waithandlers[index]? = some e) (hm : e.m_markfordeletion = false) :
    InvokeWaitHandleHandler index s = invoke index e s := by
  simp [InvokeWaitHandleHandler, hg, hm]

theorem invoke_external (k : Nat) (e : WaitHandlerBase) (s : WFMOHandler)
    (ht : e.timer = none) : invoke k e s = callHandler e s := by
  simp [invoke, ht]

theorem invoke_repeat (k : Nat) (e : WaitHandlerBase) (t : TimerPart) (s : WFMOHandler)
    (ht : e.timer = some t) (hr : t.m_repeat = true) :
    invoke k e s = { callHandler e s with
      m_waithandlers :=
        updateAt k (rearm t.m_interval t.m_repeat) (callHandler e s).m_waithandlers } := by
  simp [invoke, ht, hr]

theorem invoke_oneshot (k : Nat) (e : WaitHandlerBase) (t : TimerPart) (s : WFMOHandler)
    (ht : e.timer = some t) (hr : t.m_repeat = false) :
    invoke k e s = setRebuild { callHandler e s with
      m_waithandlers :=
        updateAt k (fun x => { x with m_markfordeletion := true })
          (callHandler e s).m_waithandlers
      trace := (callHandler e s).trace ++ [Event.selfMarked e.addr] } := by
  simp [invoke, ht, hr]

theorem runCalls_invariant (M : WFMOHandler → Prop)
    (h : ∀ c s, M s → M (ApiCall.exec c s)) (cs : List ApiCall) (s : WFMOHandler)
    (hs : M s) : M (runCalls cs s) := by
  induction cs generalizing s with
  | nil => exact hs
  | cons c cs ih => exact ih _ (h c s hs)

/-- Induction principle for runs: `P` holds between steps, `M k e` holds while the functor
of the entry `e` found at position `k` is running. -/
theorem run_invariant (P : WFMOHandler → Prop)
    (M : Nat → WaitHandlerBase → WFMOHandler → Prop)
    (hapi : ∀ c s, P s → P (ApiCall.exec c s))
    (hbuild : ∀ a s, P s → P (BuildHandleArray a s).2.2)
    (hstart : ∀ k e s, P s → s.m_waithandlers[k]? = some e → e.m_markfordeletion = false →
      M k e { s with trace := s.trace ++ [Event.invoked e.addr e.m_handler.tag] })
    (hmid : ∀ k e c s, M k e s → M k e (ApiCall.exec c s))
    (hext : ∀ k e s, M k e s → e.timer = none → P s)
    (hrep : ∀ k e t s, M k e s → e.timer = some t → t.m_repeat = true →
      P { s with
        m_waithandlers := updateAt k (rearm t.m_interval t.m_repeat) s.m_waithandlers })
    (hone : ∀ k e t s, M k e s → e.timer = some t → t.m_repeat = false →
      P (setRebuild { s with
        m_waithandlers :=
          updateAt k (fun x => { x with m_markfordeletion := true }) s.m_waithandlers
        trace := s.trace ++ [Event.selfMarked e.addr] }))
    (steps : List Step) (ts : ThreadState) (hs : P ts.obj) : P (run steps ts).obj := by
  have hdisp : ∀ index s, P s → P (InvokeWaitHandleHandler index s) := by
    intro index s hP
    cases hg : s.m_waithandlers[index]? with
    | none => rw [InvokeWaitHandleHandler_none index s hg]; exact hP
    | some e =>
      cases hm : e.m_markfordeletion with
      | true => rw [InvokeWaitHandleHandler_marked index s e hg hm]; exact hP
      | false =>
        have h1 : M index e (callHandler e s) :=
          runCalls_invariant (M index e) (hmid index e) _ _ (hstart index e s hP hg hm)
        rw [InvokeWaitHandleHandler_live index s e hg hm]
        cases ht : e.timer with
        | none => rw [invoke_external index e s ht]; exact hext index e _ h1 ht
        | some t =>
          cases hr : t.m_repeat with
          | true => rw [invoke_repeat index e t s ht hr]; exact hrep index e t _ h1 ht hr
          | false => rw [invoke_oneshot index e t s ht hr]; exact hone index e t _ h1 ht hr
  induction steps generalizing ts with
  | nil => exact hs
  | cons x xs ih =>
    apply ih
    cases x with
    | api c => exact hapi c _ hs
    | build => exact hbuild ts.ahandles _ hs
    | dispatch index => exact hdisp index _ hs
    | wake dwRet =>
      simp only [Step.exec, ThreadProc.iterate]
      split_ifs
      · exact hs
      · exact hs
      · exact hbuild ts.ahandles _ hs
      · exact hdisp _ _ hs
      · exact hs

/-! ## Timer ids -/

theorem UINT_RANGE_eq : UINT_RANGE = 4294967296 := by
  norm_num [UINT_RANGE]

theorem returnedIds_append (a b : List Event) :
    returnedIds (a ++ b) = returnedIds a ++ returnedIds b := by
  induction a with
  | nil => rfl
  | cons x rest ih => cases x <;> simp [returnedIds, ih]

theorem returnedIds_sweep (l : List WaitHandlerBase) : returnedIds (sweep l).2 = [] := by
  induction l with
  | nil => rfl
  | cons e rest ih =>
    unfold sweep
    cases h : e.m_markfordeletion <;> simp [h, returnedIds, ih]

theorem idsInv_of_same (s s' : WFMOHandler)
    (hc : s'.m_nexttimertriggerid = s.m_nexttimertriggerid)
    (ht : returnedIds s'.trace = returnedIds s.trace) (hs : IdsInv s) : IdsInv s' := by
  unfold IdsInv at *
  rw [hc, ht]
  exact hs

theorem idsInv_AddWaitHandle (h : HANDLE) (handler : Handler) (s : WFMOHandler)
    (hs : IdsInv s) : IdsInv (AddWaitHandle h handler s).2 := by
  refine idsInv_of_same s _ ?_ ?_ hs
  · unfold AddWaitHandle; split_ifs <;> rfl
  · unfold AddWaitHandle
    split_ifs
    · rfl
    · simp [setRebuild, returnedIds_append, returnedIds]

theorem counter_step (c : Nat) (hc : c < 4294967296) :
    ((c + 1) % 4294967296 + 4294967296 - 1) % 4294967296 = c := by
  omega

theorem idsInv_AddTimer (hTimer ms : Nat) (r : Bool) (handler : Handler) (s : WFMOHandler)
    (hs : IdsInv s) : IdsInv (AddTimer hTimer ms r handler s).2 := by
  unfold AddTimer
  split_ifs
  · exact hs
  · obtain ⟨h1, h2⟩ := hs
    have hlt : s.m_nexttimertriggerid < 4294967296 := by
      rw [h1, UINT_RANGE_eq]; omega
    have hret : returnedIds (s.trace ++ [Event.created s.nextAddr,
        Event.addTimerReturned s.nextAddr r
          (((s.m_nexttimertriggerid + 1) % UINT_RANGE + UINT_RANGE - 1) % UINT_RANGE)])
        = returnedIds s.trace ++ [s.m_nexttimertriggerid] := by
      rw [returnedIds_append, UINT_RANGE_eq, counter_step _ hlt]
      rfl
    constructor
    · show (s.m_nexttimertriggerid + 1) % UINT_RANGE = _
      simp only [setRebuild, TimerHandler.new]
      rw [hret, List.length_append, List.length_singleton, h1, UINT_RANGE_eq]
      omega
    · simp only [setRebuild, TimerHandler.new]
      rw [hret, List.length_append, List.length_singleton, List.range_succ, List.map_append,
        ← h2, List.map_singleton, ← h1]

theorem idsInv_RemoveWaitHandle (h : HANDLE) (s : WFMOHandler) (hs : IdsInv s) :
    IdsInv (RemoveWaitHandle h s) := by
  refine idsInv_of_same s _ ?_ ?_ hs
  · unfold RemoveWaitHandle; split <;> rfl
  · unfold RemoveWaitHandle
    split
    · rfl
    · simp [setRebuild, returnedIds_append, returnedIds]

theorem idsInv_RemoveTimer (id : Nat) (s : WFMOHandler) (hs : IdsInv s) :
    IdsInv (RemoveTimer id s) := by
  refine idsInv_of_same s _ ?_ ?_ hs
  · unfold RemoveTimer; split <;> rfl
  · unfold RemoveTimer
    split
    · rfl
    · simp [setRebuild, returnedIds_append, returnedIds]

theorem idsInv_exec (c : ApiCall) (s : WFMOHandler) (hs : IdsInv s) : IdsInv (c.exec s) := by
  cases c with
  | addWaitHandle h handler => exact idsInv_AddWaitHandle h handler s hs
  | removeWaitHandle h => exact idsInv_RemoveWaitHandle h s hs
  | addTimer hTimer ms r handler => exact idsInv_AddTimer hTimer ms r handler s hs
  | removeTimer id => exact idsInv_RemoveTimer id s hs
  | adjustTimer id interval r => exact idsInv_of_same s _ rfl rfl hs

theorem idsInv_run (steps : List Step) (ts : ThreadState) (hs : IdsInv ts.obj) :
    IdsInv (run steps ts).obj := by
  refine run_invariant IdsInv (fun _ _ => IdsInv) idsInv_exec ?_ ?_ ?_ ?_ ?_ ?_ steps ts hs
  · intro a s h
    refine idsInv_of_same s _ rfl ?_ h
    simp [BuildHandleArray, returnedIds_append, returnedIds_sweep]
  · intro k e s h _ _
    refine idsInv_of_same s _ rfl ?_ h
    simp [returnedIds_append, returnedIds]
  · intro _ _ c s h
    exact idsInv_exec c s h
  · intro _ _ _ h _
    exact h
  · intro k e t s h _ _
    exact idsInv_of_same s _ rfl rfl h
  · intro k e t s h _ _
    refine idsInv_of_same s _ rfl ?_ h
    simp [setRebuild, returnedIds_append, returnedIds]

theorem idsInv_fresh (hShutdown hRebuild : HANDLE) :
    IdsInv (ThreadState.fresh hShutdown hRebuild).obj := by
  constructor
  · norm_num [ThreadState.fresh, WFMOHandler.new, returnedIds, UINT_RANGE]
  · simp [ThreadState.fresh, WFMOHandler.new, returnedIds]

theorem ids_eq_range' (ids : List Nat) (hlen : ids.length < UINT_RANGE)
    (h : ids = (List.range ids.length).map (fun k => (k + 1) % UINT_RANGE)) :
    ids = List.range' 1 ids.length := by
  rw [List.range'_eq_map_range]
  conv_lhs => rw [h]
  apply List.map_congr_left
  intro k hk
  have hk' : k < ids.length := List.mem_range.mp hk
  rw [UINT_RANGE_eq] at *
  show (k + 1) % 4294967296 = 1 + k
  omega

/-- Timer ids before the counter wraps (the part of C3 that the code keeps): as long as
fewer than 2^32 AddTimer calls have succeeded on a reactor,
the ids those calls returned are 1, 2, 3, ... in call order, hence all at least 1,
strictly increasing and without repetition; and a successful AddTimer returns the timer
id stored on the entry it appends, which is the value of the id counter before the call. -/
theorem addTimer_ids_before_wrap (hShutdown hRebuild : HANDLE) (steps : List Step)
    (hwrap : (returnedIds (run steps (ThreadState.fresh hShutdown hRebuild)).obj.trace).length
      < UINT_RANGE) :
    returnedIds (run steps (ThreadState.fresh hShutdown hRebuild)).obj.trace
      = List.range' 1
          (returnedIds (run steps (ThreadState.fresh hShutdown hRebuild)).obj.trace).length ∧
    (∀ id ∈ returnedIds (run steps (ThreadState.fresh hShutdown hRebuild)).obj.trace, 1 ≤ id) ∧
    (returnedIds (run steps (ThreadState.fresh hShutdown hRebuild)).obj.trace).Pairwise
      (fun a b => a < b) ∧
    (returnedIds (run steps (ThreadState.fresh hShutdown hRebuild)).obj.trace).Nodup ∧
    (∀ hTimer ms r handler,
      nUsed (run steps (ThreadState.fresh hShutdown hRebuild)).obj.m_waithandlers < 62 →
      ∃ e t,
        (AddTimer hTimer ms r handler
          (run steps (ThreadState.fresh hShutdown hRebuild)).obj).2.m_waithandlers
          = (run steps (ThreadState.fresh hShutdown hRebuild)).obj.m_waithandlers ++ [e] ∧
        e.timer = some t ∧
        t.m_id = (AddTimer hTimer ms r handler
          (run steps (ThreadState.fresh hShutdown hRebuild)).obj).1 ∧
        t.m_id = (run steps (ThreadState.fresh hShutdown hRebuild)).obj.m_nexttimertriggerid)
    := by
  have hinv := idsInv_run steps _ (idsInv_fresh hShutdown hRebuild)
  generalize (run steps (ThreadState.fresh hShutdown hRebuild)).obj = s at hwrap hinv ⊢
  obtain ⟨h1, h2⟩ := hinv
  have hr := ids_eq_range' _ hwrap h2
  refine ⟨hr, ?_, ?_, ?_, ?_⟩
  · intro id hid
    rw [hr] at hid
    exact (List.mem_range'_1.mp hid).1
  · rw [hr]; exact List.pairwise_lt_range' 1 _
  · rw [hr]; exact List.nodup_range' 1 _
  · intro hTimer ms r handler hlt
    have hb := (slotAvailable_iff s).mpr hlt
    have hc : s.m_nexttimertriggerid < 4294967296 := by
      rw [UINT_RANGE_eq] at h1
      omega
    refine ⟨TimerHandler.new s.nextAddr hTimer ms r s.m_nexttimertriggerid handler, _,
      by simp [AddTimer, hb, setRebuild], rfl, ?_, rfl⟩
    simp only [AddTimer, hb, Bool.not_true, Bool.false_eq_true, if_false, UINT_RANGE_eq,
      counter_step _ hc]

/-- Witness for the timer ids before the wrap: two one-shot timers and a repeating one
added to a fresh reactor. -/
theorem addTimer_ids_before_wrap_witness :
    returnedIds (run [Step.api (ApiCall.addTimer 5 100 false (Handler.mk 0 [])),
        Step.api (ApiCall.addTimer 6 50 true (Handler.mk 1 [])),
        Step.api (ApiCall.addTimer 7 10 false (Handler.mk 2 []))]
      (ThreadState.fresh 1 2)).obj.trace = [1, 2, 3] :=
  (addTimer_ids_before_wrap 1 2 _ (by decide)).1

/-! ## Wrap-around of the timer id counter -/

theorem run_append (xs ys : List Step) (ts : ThreadState) :
    run (xs ++ ys) ts = run ys (run xs ts) := by
  simp [run, List.foldl_append]

theorem run_cons (x : Step) (xs : List Step) (ts : ThreadState) :
    run (x :: xs) ts = run xs (x.exec ts) := rfl

theorem run_nil (ts : ThreadState) : run [] ts = ts := rfl

theorem isTimerWithId_new (addr hTimer ms : Nat) (r : Bool) (id : Nat) (handler : Handler) :
    isTimerWithId id (TimerHandler.new addr hTimer ms r id handler) = true := by
  simp [isTimerWithId, TimerHandler.new]

theorem churn_round (s : WFMOHandler) (a : List HANDLE)
    (hreg : s.m_waithandlers = [keptTimer]) (hc : s.m_nexttimertriggerid ≠ 1) :
    (BuildHandleArray a (RemoveTimer s.m_nexttimertriggerid
        (AddTimer 6 10 false (Handler.mk 1 []) s).2)).2.2.m_waithandlers = [keptTimer] ∧
    (BuildHandleArray a (RemoveTimer s.m_nexttimertriggerid
        (AddTimer 6 10 false (Handler.mk 1 []) s).2)).2.2.m_nexttimertriggerid
      = (s.m_nexttimertriggerid + 1) % UINT_RANGE ∧
    (BuildHandleArray a (RemoveTimer s.m_nexttimertriggerid
        (AddTimer 6 10 false (Handler.mk 1 []) s).2)).2.2.nextAddr = s.nextAddr + 1 := by
  have hb : IsWaitHandleSlotAvailable s = true := by
    rw [slotAvailable_iff, hreg]; decide
  have hk : isTimerWithId s.m_nexttimertriggerid keptTimer = false := by
    simp [isTimerWithId, keptTimer, TimerHandler.new]
    exact fun h => hc h.symm
  have hadd : (AddTimer 6 10 false (Handler.mk 1 []) s).2.m_waithandlers
      = [keptTimer,
          TimerHandler.new s.nextAddr 6 10 false s.m_nexttimertriggerid (Handler.mk 1 [])] := by
    simp [AddTimer, hb, setRebuild, hreg]
  refine ⟨?_, ?_, ?_⟩
  · have hm : keptTimer.m_markfordeletion = false := rfl
    rw [BuildHandleArray_registry, RemoveTimer_registry, hadd]
    simp [updateFirst, hk, isTimerWithId_new, sweep, hm]
  · rw [BuildHandleArray_counter, RemoveTimer_counter]
    simp [AddTimer, hb, setRebuild]
  · show (RemoveTimer _ _).nextAddr = _
    rw [RemoveTimer_nextAddr]
    simp [AddTimer, hb, setRebuild]

theorem churn_reaches (n : Nat) (hn : n + 1 ≤ UINT_RANGE) :
    (run (churn n) (ThreadState.fresh 1 2)).obj.m_waithandlers = [keptTimer] ∧
    (run (churn n) (ThreadState.fresh 1 2)).obj.m_nexttimertriggerid
      = (n + 2) % UINT_RANGE ∧
    (run (churn n) (ThreadState.fresh 1 2)).obj.nextAddr = n + 1 := by
  induction n with
  | zero => exact ⟨rfl, rfl, rfl⟩
  | succ n ih =>
    obtain ⟨h1, h2, h3⟩ := ih (by omega)
    have hc : (run (churn n) (ThreadState.fresh 1 2)).obj.m_nexttimertriggerid ≠ 1 := by
      rw [h2]; rw [UINT_RANGE_eq] at *; omega
    have := churn_round _ (run (churn n) (ThreadState.fresh 1 2)).ahandles h1 hc
    rw [churn, run_append, run_cons, run_cons, run_cons, run_nil]
    simp only [Step.exec, ApiCall.exec, ThreadState.rebuild, ← h2]
    refine ⟨this.1, ?_, ?_⟩
    · rw [this.2.1, h2, UINT_RANGE_eq]
      omega
    · rw [this.2.2, h3]

theorem AddTimer_trace_of_available (hTimer ms : Nat) (r : Bool) (handler : Handler)
    (s : WFMOHandler) (hb : IsWaitHandleSlotAvailable s = true) :
    (AddTimer hTimer ms r handler s).2.trace
      = s.trace ++ [Event.created s.nextAddr, Event.addTimerReturned s.nextAddr r
          (((s.m_nexttimertriggerid + 1) % UINT_RANGE + UINT_RANGE - 1) % UINT_RANGE)] := by
  simp [AddTimer, hb, setRebuild, TimerHandler.new]

theorem returnedIds_after_churn (n : Nat) (hn : n + 1 ≤ UINT_RANGE) :
    returnedIds (run (churn n ++ [Step.api (ApiCall.addTimer 6 10 false (Handler.mk 1 []))])
        (ThreadState.fresh 1 2)).obj.trace
      = returnedIds (run (churn n) (ThreadState.fresh 1 2)).obj.trace
          ++ [(n + 2) % UINT_RANGE] ∧
    ((n + 2) % UINT_RANGE ≠ 1 →
      returnedIds (run (churn n) (ThreadState.fresh 1 2)).obj.trace ≠ []) := by
  obtain ⟨h1, h2, _⟩ := churn_reaches n hn
  have hinv := idsInv_run (churn n) _ (idsInv_fresh 1 2)
  have hb : IsWaitHandleSlotAvailable (run (churn n) (ThreadState.fresh 1 2)).obj = true := by
    rw [slotAvailable_iff, h1]; decide
  have hlt : (run (churn n) (ThreadState.fresh 1 2)).obj.m_nexttimertriggerid < 4294967296 := by
    rw [h2, UINT_RANGE_eq]; omega
  constructor
  · rw [run_append, run_cons, run_nil]
    simp only [Step.exec, ApiCall.exec]
    rw [AddTimer_trace_of_available _ _ _ _ _ hb, returnedIds_append, UINT_RANGE_eq,
      counter_step _ hlt, h2, UINT_RANGE_eq]
    rfl
  · intro hne hnil
    have h3 := hinv.1
    rw [hnil, h2] at h3
    simp only [List.length_nil, UINT_RANGE_eq] at h3 hne
    omega

/-- C3 (code behaviour at the failing input): on the run `stepsToWrap`, which registers
2^32 - 1 timers one after the other and then one more, the last successful AddTimer
returns 0, the value that stands for a failed registration, so the returned ids are
neither all at least 1 nor strictly increasing in call order. -/
theorem addTimer_ids_wrap_counterexample :
    0 ∈ returnedIds (run stepsToWrap (ThreadState.fresh 1 2)).obj.trace ∧
    ¬ (returnedIds (run stepsToWrap (ThreadState.fresh 1 2)).obj.trace).Pairwise
        (fun a b => a < b) := by
  have hn : UINT_RANGE - 2 + 1 ≤ UINT_RANGE := by norm_num [UINT_RANGE]
  have hz : (UINT_RANGE - 2 + 2) % UINT_RANGE = 0 := by norm_num [UINT_RANGE]
  obtain ⟨h1, h2⟩ := returnedIds_after_churn (UINT_RANGE - 2) hn
  rw [hz] at h1 h2
  replace h2 := h2 (by decide)
  unfold stepsToWrap
  rw [h1]
  constructor
  · simp
  · intro hp
    rw [List.pairwise_append] at hp
    obtain ⟨x, hx⟩ := List.exists_mem_of_ne_nil _ h2
    have := hp.2.2 x hx 0 (by simp)
    omega

/-! ## Sweep and snapshot -/

theorem take_succ_set (a : List HANDLE) (i : Nat) (v : HANDLE) (hi : i < a.length) :
    (a.set i v).take (i + 1) = a.take i ++ [v] := by
  induction a generalizing i with
  | nil => simp at hi
  | cons x rest ih =>
    cases i with
    | zero => simp
    | succ i =>
      simp only [List.set_cons_succ, List.take_succ_cons, List.cons_append, List.cons.injEq,
        true_and]
      exact ih i (by simpa using hi)

theorem fillHandles_eq (l : List WaitHandlerBase) (i : Nat) (a : List HANDLE)
    (hlen : a.length = i + l.length) :
    fillHandles l i a = (a.take i ++ l.map (fun e => e.m_h), i + l.length) := by
  induction l generalizing i a with
  | nil =>
    simp only [fillHandles, List.map_nil, List.append_nil, List.length_nil, Nat.add_zero]
    rw [List.take_of_length_le (by simp at hlen; omega)]
  | cons e rest ih =>
    have hi : i < a.length := by simp at hlen; omega
    rw [fillHandles, ih (i + 1) (a.set i e.m_h) (by simp at hlen ⊢; omega),
      take_succ_set a i e.m_h hi]
    simp only [List.map_cons, List.append_assoc, List.singleton_append, List.length_cons]
    congr 1
    omega

theorem resize_length (a : List HANDLE) (n : Nat) : (resize a n).length = n := by
  simp only [resize, List.length_append, List.length_take, List.length_replicate]
  omega

theorem reserved_slots (a : List HANDLE) (x y : HANDLE) (h : 2 ≤ a.length) :
    ((a.set 0 x).set 1 y).take 2 = [x, y] := by
  match a, h with
  | p :: q :: t, _ => simp

theorem BuildHandleArray_snapshot (a : List HANDLE) (s : WFMOHandler) :
    (BuildHandleArray a s).1
      = s.m_shutdownevent :: s.m_rebuildwaitarrayevent ::
          (s.m_waithandlers.filter (fun e => !e.m_markfordeletion)).map (fun e => e.m_h) ∧
    (BuildHandleArray a s).2.1
      = 2 + (s.m_waithandlers.filter (fun e => !e.m_markfordeletion)).length := by
  have hl : (((resize a (2 + (sweep s.m_waithandlers).1.length)).set 0 s.m_shutdownevent).set 1
      s.m_rebuildwaitarrayevent).length = 2 + (sweep s.m_waithandlers).1.length := by
    simp [resize_length]
  have hf := fillHandles_eq (sweep s.m_waithandlers).1 2 _ hl
  have hr := reserved_slots (resize a (2 + (sweep s.m_waithandlers).1.length))
    s.m_shutdownevent s.m_rebuildwaitarrayevent (by rw [resize_length]; omega)
  simp only [BuildHandleArray]
  rw [hf, hr]
  simp only [sweep_fst_eq_filter]
  exact ⟨rfl, trivial⟩

theorem removalsOf_append (a b : List Event) :
    removalsOf (a ++ b) = removalsOf a ++ removalsOf b := by
  induction a with
  | nil => rfl
  | cons x rest ih => cases x <;> simp [removalsOf, ih]

theorem invocationsOf_append (a b : List Event) :
    invocationsOf (a ++ b) = invocationsOf a ++ invocationsOf b := by
  induction a with
  | nil => rfl
  | cons x rest ih => cases x <;> simp [invocationsOf, ih]

theorem destructionsOf_append (a b : List Event) :
    destructionsOf (a ++ b) = destructionsOf a ++ destructionsOf b := by
  induction a with
  | nil => rfl
  | cons x rest ih => cases x <;> simp [destructionsOf, ih]

theorem trace_of_destroyed (l : List WaitHandlerBase) :
    removalsOf (l.map (fun e => Event.destroyed e.addr)) = [] ∧
    invocationsOf (l.map (fun e => Event.destroyed e.addr)) = [] ∧
    destructionsOf (l.map (fun e => Event.destroyed e.addr)) = l.map (fun e => e.addr) := by
  induction l with
  | nil => exact ⟨rfl, rfl, rfl⟩
  | cons e rest ih => simp [removalsOf, invocationsOf, destructionsOf, ih]

/-- C5 (counterexample): Stop on a reactor holding one registered source empties the
registry and destroys the entry, yet no OnWaitHandleRemoved call is made for it. -/
theorem stop_skips_removal_hook :
    oneSource.m_waithandlers.length = 1 ∧
    (Stop oneSource).m_waithandlers = [] ∧
    removalsOf (Stop oneSource).trace = [] :=
  ⟨rfl, rfl, rfl⟩

/-- C5 (amended): for every registry state, Stop leaves the registry empty and destroys
each entry that was still registered exactly once, in registry order; it invokes no
entry's callback and makes no OnWaitHandleRemoved call. -/
theorem stop_frees_without_notifying (s : WFMOHandler) :
    (Stop s).m_waithandlers = [] ∧
    destructionsOf (Stop s).trace
      = destructionsOf s.trace ++ s.m_waithandlers.map (fun e => e.addr) ∧
    invocationsOf (Stop s).trace = invocationsOf s.trace ∧
    removalsOf (Stop s).trace = removalsOf s.trace := by
  obtain ⟨h1, h2, h3⟩ := trace_of_destroyed s.m_waithandlers
  unfold Stop FreePtrContainer
  split_ifs <;>
    simp [destructionsOf_append, invocationsOf_append, removalsOf_append, h1, h2, h3]

/-! ## AdjustTimer -/

theorem AdjustTimer_fixedPart (id interval : Nat) (r : Bool) (s : WFMOHandler) :
    (AdjustTimer id interval r s).m_waithandlers.map WaitHandlerBase.fixedPart
      = s.m_waithandlers.map WaitHandlerBase.fixedPart := by
  simp only [AdjustTimer, List.map_map]
  apply List.map_congr_left
  intro e _
  simp only [Function.comp]
  split_ifs
  · cases h : e.timer <;> simp [WaitHandlerBase.fixedPart, rearm, h]
  · rfl

/-- C6 (code behaviour at the failing input): a timer added as repeating every 50 ms and
adjusted with AdjustTimer(1, 200, false) keeps its id, has its timer object armed for
200 ms without period, but still stores interval 50 and repeat = true; when it is next
invoked it is not marked for deletion, the rebuild event is not raised by the invoke, and
the timer object is re-armed with the old interval 50 as a periodic timer. -/
theorem adjustTimer_leaves_stored_interval_and_repeat :
    adjustedTimer.m_waithandlers.map
        (fun e => e.timer.map (fun t => (t.m_id, t.m_interval, t.m_repeat, t.armed)))
      = [some (1, 50, true, some (200, 0))] ∧
    (InvokeWaitHandleHandler 0 (BuildHandleArray [] adjustedTimer).2.2).m_waithandlers.map
        (fun e => (e.m_markfordeletion,
          e.timer.map (fun t => (t.m_id, t.m_interval, t.m_repeat, t.armed))))
      = [(false, some (1, 50, true, some (50, 50)))] ∧
    (InvokeWaitHandleHandler 0 (BuildHandleArray [] adjustedTimer).2.2).rebuildSet = false ∧
    invocationsOf (InvokeWaitHandleHandler 0 (BuildHandleArray [] adjustedTimer).2.2).trace
      = [0] :=
  ⟨rfl, rfl, rfl, rfl⟩

/-! ## RemoveTimer -/

theorem isTimerWithId_cancelMark (id : Nat) (e : WaitHandlerBase) :
    isTimerWithId id { CancelWaitableTimer e with m_markfordeletion := true }
      = isTimerWithId id e := by
  unfold isTimerWithId CancelWaitableTimer
  split_ifs
  · rfl
  · cases e.timer <;> rfl

theorem cancelMark_idem (e : WaitHandlerBase) :
    ({ CancelWaitableTimer { CancelWaitableTimer e with m_markfordeletion := true } with
        m_markfordeletion := true } : WaitHandlerBase)
      = { CancelWaitableTimer e with m_markfordeletion := true } := by
  unfold CancelWaitableTimer
  by_cases h : e.m_h = 0
  · simp [h]
  · cases ht : e.timer <;> simp [h, ht]

theorem updateFirst_idem (p : WaitHandlerBase → Bool) (f : WaitHandlerBase → WaitHandlerBase)
    (hp : ∀ e, p (f e) = p e) (hf : ∀ e, f (f e) = f e) (l : List WaitHandlerBase) :
    updateFirst p f (updateFirst p f l) = updateFirst p f l := by
  induction l with
  | nil => rfl
  | cons e rest ih =>
    by_cases h : p e = true
    · have h' : p (f e) = true := by rw [hp]; exact h
      simp [updateFirst, h, h', hf]
    · simp [updateFirst, h, ih]

theorem find_updateFirst_isSome (p : WaitHandlerBase → Bool)
    (f : WaitHandlerBase → WaitHandlerBase) (hp : ∀ e, p (f e) = p e)
    (l : List WaitHandlerBase) :
    ((updateFirst p f l).find? p).isSome = (l.find? p).isSome := by
  induction l with
  | nil => rfl
  | cons e rest ih =>
    by_cases h : p e = true
    · have h' : p (f e) = true := by rw [hp]; exact h
      simp [updateFirst, h, h', List.find?_cons]
    · simp [updateFirst, h, List.find?_cons, ih]

theorem RemoveTimer_rebuildSet (id : Nat) (s : WFMOHandler) :
    (RemoveTimer id s).rebuildSet
      = (s.rebuildSet || (s.m_waithandlers.find? (isTimerWithId id)).isSome) := by
  unfold RemoveTimer
  cases h : s.m_waithandlers.find? (isTimerWithId id) <;> simp [setRebuild]

theorem RemoveTimer_untouched (id : Nat) (s : WFMOHandler) :
    (RemoveTimer id s).m_shutdownevent = s.m_shutdownevent ∧
    (RemoveTimer id s).m_rebuildwaitarrayevent = s.m_rebuildwaitarrayevent ∧
    (RemoveTimer id s).m_htWorker = s.m_htWorker ∧
    (RemoveTimer id s).shutdownSet = s.shutdownSet := by
  unfold RemoveTimer
  split <;> exact ⟨rfl, rfl, rfl, rfl⟩

/-- C9: RemoveTimer(t) applied twice leaves the same reactor state as RemoveTimer(t)
applied once (same registry entries in the same order with the same delete flags and
timer objects, same next timer id, same rebuild and shutdown event state, same object
members); and when no registry entry is a timer with id t, RemoveTimer(t) leaves the
reactor unchanged. -/
theorem RemoveTimer_idempotent (t : Nat) (s : WFMOHandler) :
    (RemoveTimer t (RemoveTimer t s)).m_waithandlers = (RemoveTimer t s).m_waithandlers ∧
    (RemoveTimer t (RemoveTimer t s)).m_nexttimertriggerid
      = (RemoveTimer t s).m_nexttimertriggerid ∧
    (RemoveTimer t (RemoveTimer t s)).rebuildSet = (RemoveTimer t s).rebuildSet ∧
    (RemoveTimer t (RemoveTimer t s)).shutdownSet = (RemoveTimer t s).shutdownSet ∧
    (RemoveTimer t (RemoveTimer t s)).m_shutdownevent = (RemoveTimer t s).m_shutdownevent ∧
    (RemoveTimer t (RemoveTimer t s)).m_rebuildwaitarrayevent
      = (RemoveTimer t s).m_rebuildwaitarrayevent ∧
    (RemoveTimer t (RemoveTimer t s)).m_htWorker = (RemoveTimer t s).m_htWorker ∧
    (RemoveTimer t (RemoveTimer t s)).nextAddr = (RemoveTimer t s).nextAddr ∧
    (s.m_waithandlers.find? (isTimerWithId t) = none → RemoveTimer t s = s) := by
  have hu := RemoveTimer_untouched t (RemoveTimer t s)
  refine ⟨?_, RemoveTimer_counter _ _, ?_, hu.2.2.2, hu.1, hu.2.1, hu.2.2.1,
    RemoveTimer_nextAddr _ _, ?_⟩
  · rw [RemoveTimer_registry t (RemoveTimer t s), RemoveTimer_registry t s]
    exact updateFirst_idem _ _ (isTimerWithId_cancelMark t) cancelMark_idem _
  · rw [RemoveTimer_rebuildSet t (RemoveTimer t s), RemoveTimer_rebuildSet t s,
      RemoveTimer_registry t s, find_updateFirst_isSome _ _ (isTimerWithId_cancelMark t)]
    cases s.rebuildSet <;> cases (s.m_waithandlers.find? (isTimerWithId t)).isSome <;> rfl
  · intro h
    simp [RemoveTimer, h]

/-! ## Object identity and positions -/

theorem Evolves.refl (e : WaitHandlerBase) : Evolves e e := ⟨rfl, rfl, id⟩

theorem Evolves.trans {a b c : WaitHandlerBase} (h₁ : Evolves a b) (h₂ : Evolves b c) :
    Evolves a c :=
  ⟨h₂.1.trans h₁.1, h₂.2.1.trans h₁.2.1, fun h => h₂.2.2 (h₁.2.2 h)⟩

theorem Evolves.addr_eq {a b : WaitHandlerBase} (h : Evolves a b) : b.addr = a.addr :=
  congrArg Prod.fst h.1

theorem Evolves.timer_eq {a b : WaitHandlerBase} (h : Evolves a b) :
    b.timer.map (fun t => (t.m_id, t.m_interval, t.m_repeat))
      = a.timer.map (fun t => (t.m_id, t.m_interval, t.m_repeat)) :=
  congrArg (fun x => x.2.2) h.1

theorem stable_mark : Stable (fun e => { e with m_markfordeletion := true }) :=
  fun _ => ⟨rfl, rfl, fun _ => rfl⟩

theorem stable_cancelMark :
    Stable (fun e => { CancelWaitableTimer e with m_markfordeletion := true }) := by
  intro e
  refine ⟨?_, ?_, fun _ => rfl⟩
  · by_cases h : e.m_h = 0
    · simp [CancelWaitableTimer, WaitHandlerBase.fixedPart, h]
    · cases ht : e.timer <;> simp [CancelWaitableTimer, WaitHandlerBase.fixedPart, h, ht]
  · by_cases h : e.m_h = 0 <;> simp [CancelWaitableTimer, h]

theorem stable_rearm (ms : Nat) (r : Bool) : Stable (rearm ms r) := by
  intro e
  refine ⟨?_, rfl, id⟩
  unfold rearm WaitHandlerBase.fixedPart
  cases e.timer <;> rfl

theorem stable_adjust (id interval : Nat) (r : Bool) :
    Stable (fun e =>
      if isTimerWithId id e && !e.m_markfordeletion then rearm interval r e else e) := by
  intro e
  show Evolves e (if _ then _ else _)
  split_ifs
  · exact stable_rearm interval r e
  · exact Evolves.refl e

theorem map_addr_updateFirst (p : WaitHandlerBase → Bool)
    (f : WaitHandlerBase → WaitHandlerBase) (hf : Stable f) (l : List WaitHandlerBase) :
    (updateFirst p f l).map (fun e => e.addr) = l.map (fun e => e.addr) := by
  induction l with
  | nil => rfl
  | cons e rest ih =>
    unfold updateFirst
    split_ifs
    · simp [(hf e).addr_eq]
    · simp [ih]

theorem map_addr_updateAt (f : WaitHandlerBase → WaitHandlerBase) (hf : Stable f)
    (l : List WaitHandlerBase) (k : Nat) :
    (updateAt k f l).map (fun e => e.addr) = l.map (fun e => e.addr) := by
  induction l generalizing k with
  | nil => simp [updateAt]
  | cons e rest ih =>
    cases k with
    | zero => simp [updateAt, (hf e).addr_eq]
    | succ k => simp [updateAt, ih]

theorem map_addr_map (f : WaitHandlerBase → WaitHandlerBase) (hf : Stable f)
    (l : List WaitHandlerBase) :
    (l.map f).map (fun e => e.addr) = l.map (fun e => e.addr) := by
  rw [List.map_map]
  apply List.map_congr_left
  intro e _
  exact (hf e).addr_eq

theorem getElem?_updateFirst (p : WaitHandlerBase → Bool)
    (f : WaitHandlerBase → WaitHandlerBase) (hf : Stable f) (l : List WaitHandlerBase)
    (k : Nat) (e : WaitHandlerBase) (h : l[k]? = some e) :
    ∃ e', (updateFirst p f l)[k]? = some e' ∧ Evolves e e' := by
  induction l generalizing k with
  | nil => simp at h
  | cons x rest ih =>
    unfold updateFirst
    by_cases hp : p x = true
    · simp only [hp, if_true]
      cases k with
      | zero =>
        simp only [List.getElem?_cons_zero, Option.some.injEq] at h ⊢
        exact ⟨f x, rfl, h ▸ hf x⟩
      | succ k =>
        simp only [List.getElem?_cons_succ] at h ⊢
        exact ⟨e, h, Evolves.refl e⟩
    · simp only [hp, Bool.false_eq_true, if_false]
      cases k with
      | zero =>
        simp only [List.getElem?_cons_zero, Option.some.injEq] at h ⊢
        exact ⟨e, h, Evolves.refl e⟩
      | succ k =>
        simp only [List.getElem?_cons_succ] at h ⊢
        exact ih k h

theorem getElem?_updateAt (f : WaitHandlerBase → WaitHandlerBase) (hf : Stable f)
    (l : List WaitHandlerBase) (j k : Nat) (e : WaitHandlerBase) (h : l[k]? = some e) :
    ∃ e', (updateAt j f l)[k]? = some e' ∧ Evolves e e' := by
  induction l generalizing j k with
  | nil => simp at h
  | cons x rest ih =>
    cases j with
    | zero =>
      cases k with
      | zero =>
        simp only [updateAt, List.getElem?_cons_zero, Option.some.injEq] at h ⊢
        exact ⟨f x, rfl, h ▸ hf x⟩
      | succ k =>
        simp only [updateAt, List.getElem?_cons_succ] at h ⊢
        exact ⟨e, h, Evolves.refl e⟩
    | succ j =>
      cases k with
      | zero =>
        simp only [updateAt, List.getElem?_cons_zero, Option.some.injEq] at h ⊢
        exact ⟨e, h, Evolves.refl e⟩
      | succ k =>
        simp only [updateAt, List.getElem?_cons_succ] at h ⊢
        exact ih j k h

theorem getElem?_updateAt_self (f : WaitHandlerBase → WaitHandlerBase)
    (l : List WaitHandlerBase) (k : Nat) (e : WaitHandlerBase) (h : l[k]? = some e) :
    (updateAt k f l)[k]? = some (f e) := by
  induction l generalizing k with
  | nil => simp at h
  | cons x rest ih =>
    cases k with
    | zero =>
      simp only [updateAt, List.getElem?_cons_zero, Option.some.injEq] at h ⊢
      rw [h]
    | succ k =>
      simp only [updateAt, List.getElem?_cons_succ] at h ⊢
      exact ih k h

theorem getElem?_exec (c : ApiCall) (s : WFMOHandler) (k : Nat) (e : WaitHandlerBase)
    (h : s.m_waithandlers[k]? = some e) :
    ∃ e', (c.exec s).m_waithandlers[k]? = some e' ∧ Evolves e e' := by
  have happ : ∀ x : WaitHandlerBase, (s.m_waithandlers ++ [x])[k]? = some e := by
    intro x
    have hk : k < s.m_waithandlers.length := by
      by_contra hk
      rw [List.getElem?_eq_none (by omega)] at h
      exact Option.noConfusion h
    rw [List.getElem?_append_left hk]
    exact h
  cases c with
  | addWaitHandle hd handler =>
    simp only [ApiCall.exec, AddWaitHandle]
    split_ifs
    · exact ⟨e, h, Evolves.refl e⟩
    · exact ⟨e, happ _, Evolves.refl e⟩
  | removeWaitHandle hd =>
    simp only [ApiCall.exec, RemoveWaitHandle_registry]
    exact getElem?_updateFirst _ _ stable_mark _ k e h
  | addTimer hTimer ms r handler =>
    simp only [ApiCall.exec, AddTimer]
    split_ifs
    · exact ⟨e, h, Evolves.refl e⟩
    · exact ⟨e, happ _, Evolves.refl e⟩
  | removeTimer id =>
    simp only [ApiCall.exec, RemoveTimer_registry]
    exact getElem?_updateFirst _ _ stable_cancelMark _ k e h
  | adjustTimer id interval r =>
    simp only [ApiCall.exec, AdjustTimer, List.getElem?_map, h, Option.map_some']
    exact ⟨_, rfl, stable_adjust id interval r e⟩

theorem getElem?_runCalls (cs : List ApiCall) (s : WFMOHandler) (k : Nat)
    (e : WaitHandlerBase) (h : s.m_waithandlers[k]? = some e) :
    ∃ e', (runCalls cs s).m_waithandlers[k]? = some e' ∧ Evolves e e' := by
  induction cs generalizing s e with
  | nil => exact ⟨e, h, Evolves.refl e⟩
  | cons c cs ih =>
    obtain ⟨e₁, h₁, hev₁⟩ := getElem?_exec c s k e h
    obtain ⟨e₂, h₂, hev₂⟩ := ih (c.exec s) e₁ h₁
    exact ⟨e₂, h₂, hev₁.trans hev₂⟩

theorem wellAddressed_push (s : WFMOHandler) (x : WaitHandlerBase) (hx : x.addr = s.nextAddr)
    (hs : WellAddressed s) :
    ((s.m_waithandlers ++ [x]).map (fun e => e.addr) ++ [s.nextAddr + 1]).Pairwise
      (fun a b => a < b) := by
  unfold WellAddressed at hs
  rw [List.map_append, List.map_singleton, hx]
  rw [List.pairwise_append] at hs ⊢
  obtain ⟨h1, _, h3⟩ := hs
  have hlt : ∀ a ∈ s.m_waithandlers.map (fun e => e.addr), a < s.nextAddr :=
    fun a ha => h3 a ha _ (by simp)
  refine ⟨?_, List.pairwise_singleton _ _, ?_⟩
  · rw [List.pairwise_append]
    exact ⟨h1, List.pairwise_singleton _ _, fun a ha b hb => by
      simp only [List.mem_singleton] at hb; rw [hb]; exact hlt a ha⟩
  · intro a ha b hb
    simp only [List.mem_singleton] at hb
    rw [List.mem_append] at ha
    rcases ha with ha | ha
    · have := hlt a ha; omega
    · simp only [List.mem_singleton] at ha; omega

theorem wellAddressed_of_same (s s' : WFMOHandler)
    (h1 : s'.m_waithandlers.map (fun e => e.addr) = s.m_waithandlers.map (fun e => e.addr))
    (h2 : s'.nextAddr = s.nextAddr) (hs : WellAddressed s) : WellAddressed s' := by
  unfold WellAddressed at *
  rw [h1, h2]
  exact hs

theorem wellAddressed_exec (c : ApiCall) (s : WFMOHandler) (hs : WellAddressed s) :
    WellAddressed (c.exec s) := by
  cases c with
  | addWaitHandle h handler =>
    simp only [ApiCall.exec, AddWaitHandle]
    split_ifs
    · exact hs
    · exact wellAddressed_push s (WaitHandler.new s.nextAddr h handler) rfl hs
  | removeWaitHandle h =>
    exact wellAddressed_of_same s _
      (by rw [ApiCall.exec, RemoveWaitHandle_registry]; exact map_addr_updateFirst _ _ stable_mark _)
      (RemoveWaitHandle_nextAddr h s) hs
  | addTimer hTimer ms r handler =>
    simp only [ApiCall.exec, AddTimer]
    split_ifs
    · exact hs
    · exact wellAddressed_push s
        (TimerHandler.new s.nextAddr hTimer ms r s.m_nexttimertriggerid handler) rfl hs
  | removeTimer id =>
    exact wellAddressed_of_same s _
      (by rw [ApiCall.exec, RemoveTimer_registry]
          exact map_addr_updateFirst _ _ stable_cancelMark _)
      (RemoveTimer_nextAddr id s) hs
  | adjustTimer id interval r =>
    exact wellAddressed_of_same s _ (map_addr_map _ (stable_adjust id interval r) _) rfl hs

theorem wellAddressed_build (a : List HANDLE) (s : WFMOHandler) (hs : WellAddressed s) :
    WellAddressed (BuildHandleArray a s).2.2 := by
  unfold WellAddressed at *
  rw [BuildHandleArray_registry, sweep_fst_eq_filter]
  refine List.Pairwise.sublist ?_ hs
  exact List.Sublist.append_right (List.Sublist.map _ (List.filter_sublist _)) _

theorem wellAddressed_mem (s : WFMOHandler) (hs : WellAddressed s) (x : WaitHandlerBase)
    (hx : x ∈ s.m_waithandlers) : x.addr < s.nextAddr := by
  unfold WellAddressed at hs
  rw [List.pairwise_append] at hs
  exact hs.2.2 x.addr (List.mem_map_of_mem _ hx) _ (by simp)

theorem wellAddressed_inj (s : WFMOHandler) (hs : WellAddressed s) (j k : Nat)
    (x y : WaitHandlerBase) (hj : s.m_waithandlers[j]? = some x)
    (hk : s.m_waithandlers[k]? = some y) (hxy : x.addr = y.addr) : j = k := by
  unfold WellAddressed at hs
  rw [List.pairwise_append] at hs
  have hp := hs.1
  have hj' : (s.m_waithandlers.map (fun e => e.addr))[j]? = some x.addr := by
    simp [List.getElem?_map, hj]
  have hk' : (s.m_waithandlers.map (fun e => e.addr))[k]? = some y.addr := by
    simp [List.getElem?_map, hk]
  rw [List.pairwise_iff_getElem] at hp
  obtain ⟨hjl, hje⟩ := List.getElem?_eq_some.mp hj'
  obtain ⟨hkl, hke⟩ := List.getElem?_eq_some.mp hk'
  by_contra hne
  rcases Nat.lt_or_gt_of_ne hne with h | h
  · have := hp j k hjl hkl h; omega
  · have := hp k j hkl hjl h; omega

/-- Induction principle for runs of a well-addressed reactor. While the functor of the
entry `e` found at position `k` runs, position `k` still holds a later state of `e`. -/
theorem run_invariant_wf (P : WFMOHandler → Prop)
    (M : Nat → WaitHandlerBase → WFMOHandler → Prop)
    (hapi : ∀ c s, WellAddressed s → P s → P (ApiCall.exec c s))
    (hbuild : ∀ a s, WellAddressed s → P s → P (BuildHandleArray a s).2.2)
    (hstart : ∀ k e s, WellAddressed s → P s → s.m_waithandlers[k]? = some e →
      e.m_markfordeletion = false →
      M k e { s with trace := s.trace ++ [Event.invoked e.addr e.m_handler.tag] })
    (hmid : ∀ k e c s, WellAddressed s → M k e s → M k e (ApiCall.exec c s))
    (hext : ∀ k e e' s, WellAddressed s → M k e s → s.m_waithandlers[k]? = some e' →
      Evolves e e' → e.timer = none → P s)
    (hrep : ∀ k e t e' s, WellAddressed s → M k e s → s.m_waithandlers[k]? = some e' →
      Evolves e e' → e.timer = some t → t.m_repeat = true →
      P { s with
        m_waithandlers := updateAt k (rearm t.m_interval t.m_repeat) s.m_waithandlers })
    (hone : ∀ k e t e' s, WellAddressed s → M k e s → s.m_waithandlers[k]? = some e' →
      Evolves e e' → e.timer = some t → t.m_repeat = false →
      P (setRebuild { s with
        m_waithandlers :=
          updateAt k (fun x => { x with m_markfordeletion := true }) s.m_waithandlers
        trace := s.trace ++ [Event.selfMarked e.addr] }))
    (steps : List Step) (ts : ThreadState) (hwf : WellAddressed ts.obj) (hs : P ts.obj) :
    WellAddressed (run steps ts).obj ∧ P (run steps ts).obj := by
  refine run_invariant (fun s => WellAddressed s ∧ P s)
    (fun k e s => WellAddressed s ∧ (∃ e', s.m_waithandlers[k]? = some e' ∧ Evolves e e') ∧
      M k e s) ?_ ?_ ?_ ?_ ?_ ?_ ?_ steps ts ⟨hwf, hs⟩
  · exact fun c s h => ⟨wellAddressed_exec c s h.1, hapi c s h.1 h.2⟩
  · exact fun a s h => ⟨wellAddressed_build a s h.1, hbuild a s h.1 h.2⟩
  · intro k e s h hk hm
    exact ⟨wellAddressed_of_same s _ rfl rfl h.1, ⟨e, hk, Evolves.refl e⟩,
      hstart k e s h.1 h.2 hk hm⟩
  · intro k e c s h
    obtain ⟨hw, ⟨e', hk, hev⟩, hM⟩ := h
    obtain ⟨e'', hk', hev'⟩ := getElem?_exec c s k e' hk
    exact ⟨wellAddressed_exec c s hw, ⟨e'', hk', hev.trans hev'⟩, hmid k e c s hw hM⟩
  · intro k e s h ht
    obtain ⟨hw, ⟨e', hk, hev⟩, hM⟩ := h
    exact ⟨hw, hext k e e' s hw hM hk hev ht⟩
  · intro k e t s h ht hr
    obtain ⟨hw, ⟨e', hk, hev⟩, hM⟩ := h
    exact ⟨wellAddressed_of_same s _ (map_addr_updateAt _ (stable_rearm _ _) _ _) rfl hw,
      hrep k e t e' s hw hM hk hev ht hr⟩
  · intro k e t s h ht hr
    obtain ⟨hw, ⟨e', hk, hev⟩, hM⟩ := h
    exact ⟨wellAddressed_of_same s _ (map_addr_updateAt _ stable_mark _ _) rfl hw,
      hone k e t e' s hw hM hk hev ht hr⟩

theorem wellAddressed_fresh (hShutdown hRebuild : HANDLE) :
    WellAddressed (ThreadState.fresh hShutdown hRebuild).obj := by
  simp [WellAddressed, ThreadState.fresh, WFMOHandler.new]

theorem wellAddressed_run (steps : List Step) (ts : ThreadState)
    (hwf : WellAddressed ts.obj) : WellAddressed (run steps ts).obj :=
  (run_invariant_wf (fun _ => True) (fun _ _ _ => True) (fun _ _ _ _ => trivial)
    (fun _ _ _ _ => trivial) (fun _ _ _ _ _ _ _ => trivial) (fun _ _ _ _ _ _ => trivial)
    (fun _ _ _ _ _ _ _ _ _ => trivial) (fun _ _ _ _ _ _ _ _ _ _ _ => trivial)
    (fun _ _ _ _ _ _ _ _ _ _ _ => trivial) steps ts hwf trivial).1

/-! ## How single operations change entries and the trace -/

theorem mem_updateFirst (p : WaitHandlerBase → Bool) (f : WaitHandlerBase → WaitHandlerBase)
    (hf : Stable f) (l : List WaitHandlerBase) (x' : WaitHandlerBase)
    (h : x' ∈ updateFirst p f l) : ∃ x ∈ l, Evolves x x' := by
  induction l with
  | nil => simp [updateFirst] at h
  | cons e rest ih =>
    unfold updateFirst at h
    split_ifs at h
    · rcases List.mem_cons.mp h with h | h
      · exact ⟨e, List.mem_cons_self _ _, h ▸ hf e⟩
      · exact ⟨x', List.mem_cons_of_mem _ h, Evolves.refl x'⟩
    · rcases List.mem_cons.mp h with h | h
      · exact ⟨e, List.mem_cons_self _ _, h ▸ Evolves.refl e⟩
      · obtain ⟨x, hx, hev⟩ := ih h
        exact ⟨x, List.mem_cons_of_mem _ hx, hev⟩

theorem mem_updateAt (f : WaitHandlerBase → WaitHandlerBase) (hf : Stable f)
    (l : List WaitHandlerBase) (k : Nat) (x' : WaitHandlerBase) (h : x' ∈ updateAt k f l) :
    ∃ x ∈ l, Evolves x x' := by
  induction l generalizing k with
  | nil => simp [updateAt] at h
  | cons e rest ih =>
    cases k with
    | zero =>
      simp only [updateAt] at h
      rcases List.mem_cons.mp h with h | h
      · exact ⟨e, List.mem_cons_self _ _, h ▸ hf e⟩
      · exact ⟨x', List.mem_cons_of_mem _ h, Evolves.refl x'⟩
    | succ k =>
      simp only [updateAt] at h
      rcases List.mem_cons.mp h with h | h
      · exact ⟨e, List.mem_cons_self _ _, h ▸ Evolves.refl e⟩
      · obtain ⟨x, hx, hev⟩ := ih k h
        exact ⟨x, List.mem_cons_of_mem _ hx, hev⟩

theorem mem_exec (c : ApiCall) (s : WFMOHandler) (x' : WaitHandlerBase)
    (h : x' ∈ (c.exec s).m_waithandlers) :
    (∃ x ∈ s.m_waithandlers, Evolves x x') ∨
      (x'.addr = s.nextAddr ∧ x'.m_markfordeletion = false) := by
  cases c with
  | addWaitHandle hd handler =>
    simp only [ApiCall.exec, AddWaitHandle] at h
    split_ifs at h
    · exact Or.inl ⟨x', h, Evolves.refl x'⟩
    · rcases List.mem_append.mp h with h | h
      · exact Or.inl ⟨x', h, Evolves.refl x'⟩
      · rw [List.mem_singleton] at h
        exact Or.inr (h ▸ ⟨rfl, rfl⟩)
  | removeWaitHandle hd =>
    rw [ApiCall.exec, RemoveWaitHandle_registry] at h
    exact Or.inl (mem_updateFirst _ _ stable_mark _ x' h)
  | addTimer hTimer ms r handler =>
    simp only [ApiCall.exec, AddTimer] at h
    split_ifs at h
    · exact Or.inl ⟨x', h, Evolves.refl x'⟩
    · rcases List.mem_append.mp h with h | h
      · exact Or.inl ⟨x', h, Evolves.refl x'⟩
      · rw [List.mem_singleton] at h
        exact Or.inr (h ▸ ⟨rfl, rfl⟩)
  | removeTimer id =>
    rw [ApiCall.exec, RemoveTimer_registry] at h
    exact Or.inl (mem_updateFirst _ _ stable_cancelMark _ x' h)
  | adjustTimer id interval r =>
    simp only [ApiCall.exec, AdjustTimer, List.mem_map] at h
    obtain ⟨x, hx, hxe⟩ := h
    exact Or.inl ⟨x, hx, hxe ▸ stable_adjust id interval r x⟩

theorem nextAddr_le_exec (c : ApiCall) (s : WFMOHandler) :
    s.nextAddr ≤ (c.exec s).nextAddr := by
  cases c with
  | addWaitHandle hd handler =>
    simp only [ApiCall.exec, AddWaitHandle]
    split_ifs
    · exact le_refl _
    · exact Nat.le_succ _
  | removeWaitHandle hd => exact le_of_eq (RemoveWaitHandle_nextAddr hd s).symm
  | addTimer hTimer ms r handler =>
    simp only [ApiCall.exec, AddTimer]
    split_ifs
    · exact le_refl _
    · exact Nat.le_succ _
  | removeTimer id => exact le_of_eq (RemoveTimer_nextAddr id s).symm
  | adjustTimer id interval r => exact le_refl _

theorem invocationsOf_exec (c : ApiCall) (s : WFMOHandler) :
    invocationsOf (c.exec s).trace = invocationsOf s.trace := by
  cases c with
  | addWaitHandle hd handler =>
    simp only [ApiCall.exec, AddWaitHandle]
    split_ifs
    · rfl
    · simp [setRebuild, invocationsOf_append, invocationsOf]
  | removeWaitHandle hd =>
    simp only [ApiCall.exec, RemoveWaitHandle]
    split
    · rfl
    · simp [setRebuild, invocationsOf_append, invocationsOf]
  | addTimer hTimer ms r handler =>
    simp only [ApiCall.exec, AddTimer]
    split_ifs
    · rfl
    · simp [setRebuild, invocationsOf_append, invocationsOf]
  | removeTimer id =>
    simp only [ApiCall.exec, RemoveTimer]
    split
    · rfl
    · simp [setRebuild, invocationsOf_append, invocationsOf]
  | adjustTimer id interval r => rfl

theorem invocationsOf_sweep (l : List WaitHandlerBase) : invocationsOf (sweep l).2 = [] := by
  induction l with
  | nil => rfl
  | cons e rest ih =>
    unfold sweep
    cases h : e.m_markfordeletion <;> simp [h, invocationsOf, ih]

theorem mem_sweep (l : List WaitHandlerBase) (x : WaitHandlerBase) :
    x ∈ (sweep l).1 ↔ x ∈ l ∧ x.m_markfordeletion = false := by
  rw [sweep_fst_eq_filter, List.mem_filter]
  cases x.m_markfordeletion <;> simp

/-! ## A retired object is never invoked again -/

theorem retired_exec (a : Nat) (c : ApiCall) (s : WFMOHandler) (h : Retired a s) :
    Retired a (c.exec s) := by
  refine ⟨lt_of_lt_of_le h.1 (nextAddr_le_exec c s), ?_⟩
  intro x' hx' ha
  rcases mem_exec c s x' hx' with ⟨x, hx, hev⟩ | ⟨hn, _⟩
  · exact hev.2.2 (h.2 x hx (hev.addr_eq ▸ ha))
  · have := h.1
    omega

theorem retired_updateAt (a : Nat) (k : Nat) (f : WaitHandlerBase → WaitHandlerBase)
    (hf : Stable f) (s s' : WFMOHandler)
    (hreg : s'.m_waithandlers = updateAt k f s.m_waithandlers)
    (hn : s'.nextAddr = s.nextAddr) (h : Retired a s) : Retired a s' := by
  refine ⟨hn ▸ h.1, ?_⟩
  intro x' hx' ha
  rw [hreg] at hx'
  obtain ⟨x, hx, hev⟩ := mem_updateAt f hf _ k x' hx'
  exact hev.2.2 (h.2 x hx (hev.addr_eq ▸ ha))

theorem retired_run (a n : Nat) (steps : List Step) (ts : ThreadState)
    (hr : Retired a ts.obj) (hn : (invocationsOf ts.obj.trace).count a = n) :
    Retired a (run steps ts).obj ∧ (invocationsOf (run steps ts).obj.trace).count a = n := by
  refine run_invariant
    (fun s => Retired a s ∧ (invocationsOf s.trace).count a = n)
    (fun _ _ s => Retired a s ∧ (invocationsOf s.trace).count a = n)
    ?_ ?_ ?_ ?_ ?_ ?_ ?_ steps ts ⟨hr, hn⟩
  · exact fun c s h => ⟨retired_exec a c s h.1, by rw [invocationsOf_exec]; exact h.2⟩
  · intro b s h
    refine ⟨⟨h.1.1, ?_⟩, ?_⟩
    · intro x hx ha
      rw [BuildHandleArray_registry, mem_sweep] at hx
      exact h.1.2 x hx.1 ha
    · simp only [BuildHandleArray, invocationsOf_append, invocationsOf_sweep, List.append_nil]
      exact h.2
  · intro k e s h hk hm
    have hmem : e ∈ s.m_waithandlers := List.getElem?_mem hk
    have hne : e.addr ≠ a := by
      intro ha
      have := h.1.2 e hmem ha
      rw [hm] at this
      exact Bool.noConfusion this
    refine ⟨h.1, ?_⟩
    simp only [invocationsOf_append, invocationsOf, List.count_append, List.count_cons,
      List.count_nil]
    simp [hne, h.2]
  · exact fun _ _ c s h => ⟨retired_exec a c s h.1, by rw [invocationsOf_exec]; exact h.2⟩
  · exact fun _ _ _ h _ => h
  · intro k e t s h _ _
    exact ⟨retired_updateAt a k _ (stable_rearm _ _) s _ rfl rfl h.1, h.2⟩
  · intro k e t s h _ _
    refine ⟨retired_updateAt a k _ stable_mark s _ rfl rfl h.1, ?_⟩
    simp only [setRebuild, invocationsOf_append, invocationsOf, List.append_nil]
    exact h.2

theorem invokedAllocated_exec (c : ApiCall) (s : WFMOHandler) (h : InvokedAllocated s) :
    InvokedAllocated (c.exec s) := by
  intro a ha
  rw [invocationsOf_exec] at ha
  exact lt_of_lt_of_le (h a ha) (nextAddr_le_exec c s)

theorem invokedAllocated_run (steps : List Step) (ts : ThreadState)
    (hwf : WellAddressed ts.obj) (hs : InvokedAllocated ts.obj) :
    InvokedAllocated (run steps ts).obj := by
  refine (run_invariant_wf InvokedAllocated (fun _ _ => InvokedAllocated)
    ?_ ?_ ?_ ?_ ?_ ?_ ?_ steps ts hwf hs).2
  · exact fun c s _ h => invokedAllocated_exec c s h
  · intro b s _ h a ha
    simp only [BuildHandleArray, invocationsOf_append, invocationsOf_sweep,
      List.append_nil] at ha
    exact h a ha
  · intro k e s hw h hk _ a ha
    simp only [invocationsOf_append, invocationsOf, List.mem_append, List.mem_singleton] at ha
    rcases ha with ha | ha
    · exact h a ha
    · rw [ha]; exact wellAddressed_mem s hw e (List.getElem?_mem hk)
  · exact fun _ _ c s _ h => invokedAllocated_exec c s h
  · exact fun _ _ _ _ _ h _ _ _ => h
  · exact fun _ _ _ _ _ _ h _ _ _ _ => h
  · intro k e t e' s _ h _ _ _ _ a ha
    simp only [setRebuild, invocationsOf_append, invocationsOf, List.append_nil] at ha
    exact h a ha

theorem invokedAllocated_fresh (hShutdown hRebuild : HANDLE) :
    InvokedAllocated (ThreadState.fresh hShutdown hRebuild).obj := by
  intro a ha
  simp [ThreadState.fresh, WFMOHandler.new, invocationsOf] at ha

theorem updateFirst_marks_target (p : WaitHandlerBase → Bool)
    (f : WaitHandlerBase → WaitHandlerBase)
    (hm : ∀ e, (f e).m_markfordeletion = true) (l : List WaitHandlerBase)
    (e : WaitHandlerBase) (hfind : l.find? p = some e)
    (hl : (l.map (fun x => x.addr)).Pairwise (fun a b => a < b)) :
    ∀ x ∈ updateFirst p f l, x.addr = e.addr → x.m_markfordeletion = true := by
  induction l with
  | nil => simp at hfind
  | cons y rest ih =>
    rw [List.map_cons, List.pairwise_cons] at hl
    intro x hx hxa
    unfold updateFirst at hx
    by_cases hp : p y = true
    · simp only [List.find?_cons, hp, Option.some.injEq] at hfind
      subst hfind
      simp only [hp, if_true] at hx
      rcases List.mem_cons.mp hx with hx | hx
      · rw [hx]; exact hm y
      · have := hl.1 x.addr (List.mem_map_of_mem _ hx)
        omega
    · simp only [List.find?_cons, hp] at hfind
      simp only [hp, Bool.false_eq_true, if_false] at hx
      rcases List.mem_cons.mp hx with hx | hx
      · have := hl.1 e.addr (List.mem_map_of_mem _ (List.mem_of_find?_eq_some hfind))
        rw [hx] at hxa
        omega
      · exact ih hfind hl.2 x hx hxa

theorem wellAddressed_pairwise (s : WFMOHandler) (hs : WellAddressed s) :
    (s.m_waithandlers.map (fun x => x.addr)).Pairwise (fun a b => a < b) := by
  unfold WellAddressed at hs
  rw [List.pairwise_append] at hs
  exact hs.1

theorem retired_RemoveTimer (t : Nat) (s : WFMOHandler) (e : WaitHandlerBase)
    (hw : WellAddressed s) (hfind : s.m_waithandlers.find? (isTimerWithId t) = some e) :
    Retired e.addr (RemoveTimer t s) := by
  refine ⟨?_, ?_⟩
  · rw [RemoveTimer_nextAddr]
    exact wellAddressed_mem s hw e (List.mem_of_find?_eq_some hfind)
  · rw [RemoveTimer_registry]
    exact updateFirst_marks_target _ _ (fun _ => rfl) _ e hfind
      (wellAddressed_pairwise s hw)

/-- Removal by id before the counter wraps (the part of C7 that the code keeps): in every
reachable state, if `e` is the registry entry that carries the
timer id `t` (the first one in registry order, which is the only one as long as the id
counter has not wrapped), then after RemoveTimer(t) no sequence of API calls, rebuilds,
dispatches and loop iterations for any wake indexes invokes the callback of `e` again:
the number of its invocations stays what it was, and as long as the entry is in the
registry its delete flag is true. -/
theorem removed_timer_never_invoked (hShutdown hRebuild : HANDLE) (steps₀ : List Step)
    (t : Nat) (e : WaitHandlerBase) (steps : List Step)
    (hfind : (run steps₀ (ThreadState.fresh hShutdown hRebuild)).obj.m_waithandlers.find?
      (isTimerWithId t) = some e) :
    (invocationsOf (run steps (Step.exec (Step.api (ApiCall.removeTimer t))
        (run steps₀ (ThreadState.fresh hShutdown hRebuild)))).obj.trace).count e.addr
      = (invocationsOf (run steps₀ (ThreadState.fresh hShutdown hRebuild)).obj.trace).count
          e.addr ∧
    ∀ x ∈ (run steps (Step.exec (Step.api (ApiCall.removeTimer t))
        (run steps₀ (ThreadState.fresh hShutdown hRebuild)))).obj.m_waithandlers,
      x.addr = e.addr → x.m_markfordeletion = true := by
  have hw := wellAddressed_run steps₀ _ (wellAddressed_fresh hShutdown hRebuild)
  have hr := retired_RemoveTimer t _ e hw hfind
  have hc := invocationsOf_exec (ApiCall.removeTimer t)
    (run steps₀ (ThreadState.fresh hShutdown hRebuild)).obj
  obtain ⟨h1, h2⟩ := retired_run e.addr _ steps
    (Step.exec (Step.api (ApiCall.removeTimer t))
      (run steps₀ (ThreadState.fresh hShutdown hRebuild))) hr rfl
  refine ⟨?_, h1.2⟩
  rw [h2]
  exact congrArg (fun l => List.count e.addr l) hc

/-- Witness for the removal of a timer by its id: a one-shot timer is added, removed before it fired, and the
loop then rebuilds and is woken twice on index 2; the timer was never invoked. -/
theorem removed_timer_never_invoked_witness :
    (invocationsOf (run [Step.build, Step.wake 2, Step.wake 2]
        (Step.exec (Step.api (ApiCall.removeTimer 1))
          (run [Step.api (ApiCall.addTimer 5 100 false (Handler.mk 0 []))]
            (ThreadState.fresh 1 2)))).obj.trace).count 0 = 0 :=
  (removed_timer_never_invoked 1 2 [Step.api (ApiCall.addTimer 5 100 false (Handler.mk 0 []))]
    1 (TimerHandler.new 0 5 100 false 1 (Handler.mk 0 [])) [Step.build, Step.wake 2, Step.wake 2]
    rfl).1

theorem reuse_round (s : WFMOHandler) (b : List HANDLE)
    (hreg : s.m_waithandlers = [keptTimer]) (hc : s.m_nexttimertriggerid = 1) :
    (AddTimer 6 10 false (Handler.mk 1 []) s).2.m_waithandlers
      = [keptTimer, TimerHandler.new s.nextAddr 6 10 false 1 (Handler.mk 1 [])] ∧
    returnedIds (AddTimer 6 10 false (Handler.mk 1 []) s).2.trace
      = returnedIds s.trace ++ [1] ∧
    invocationsOf (AddTimer 6 10 false (Handler.mk 1 []) s).2.trace
      = invocationsOf s.trace ∧
    invocationsOf (InvokeWaitHandleHandler 0 (BuildHandleArray b
        (RemoveTimer 1 (AddTimer 6 10 false (Handler.mk 1 []) s).2)).2.2).trace
      = invocationsOf s.trace ++ [s.nextAddr] := by
  have hb : IsWaitHandleSlotAvailable s = true := by
    rw [slotAvailable_iff, hreg]; decide
  have hadd : (AddTimer 6 10 false (Handler.mk 1 []) s).2.m_waithandlers
      = [keptTimer, TimerHandler.new s.nextAddr 6 10 false 1 (Handler.mk 1 [])] := by
    simp [AddTimer, hb, setRebuild, hreg, hc]
  have htr : (AddTimer 6 10 false (Handler.mk 1 []) s).2.trace
      = s.trace ++ [Event.created s.nextAddr, Event.addTimerReturned s.nextAddr false 1] := by
    rw [AddTimer_trace_of_available _ _ _ _ _ hb, hc]
    norm_num [UINT_RANGE]
  have hk : isTimerWithId 1 keptTimer = true := rfl
  have hrem : (RemoveTimer 1 (AddTimer 6 10 false (Handler.mk 1 []) s).2).m_waithandlers
      = [{ CancelWaitableTimer keptTimer with m_markfordeletion := true },
          TimerHandler.new s.nextAddr 6 10 false 1 (Handler.mk 1 [])] := by
    rw [RemoveTimer_registry, hadd]
    simp [updateFirst, hk]
  have hbuild : (BuildHandleArray b
      (RemoveTimer 1 (AddTimer 6 10 false (Handler.mk 1 []) s).2)).2.2.m_waithandlers
      = [TimerHandler.new s.nextAddr 6 10 false 1 (Handler.mk 1 [])] := by
    rw [BuildHandleArray_registry, hrem]
    simp [sweep, TimerHandler.new]
  refine ⟨hadd, ?_, ?_, ?_⟩
  · rw [htr, returnedIds_append]; rfl
  · rw [htr, invocationsOf_append]; simp [invocationsOf]
  · have hget : (BuildHandleArray b
        (RemoveTimer 1 (AddTimer 6 10 false (Handler.mk 1 []) s).2)).2.2.m_waithandlers[0]?
        = some (TimerHandler.new s.nextAddr 6 10 false 1 (Handler.mk 1 [])) := by
      rw [hbuild]; rfl
    rw [InvokeWaitHandleHandler_live 0 _ _ hget rfl, invoke_oneshot 0 _ _ _ rfl rfl]
    simp only [setRebuild, callHandler, TimerHandler.new, Handler.calls, runCalls,
      List.foldl_nil, invocationsOf_append]
    have h3 : invocationsOf (BuildHandleArray b
        (RemoveTimer 1 (AddTimer 6 10 false (Handler.mk 1 []) s).2)).2.2.trace
        = invocationsOf s.trace := by
      simp only [BuildHandleArray, invocationsOf_append, invocationsOf_sweep, List.append_nil]
      have := invocationsOf_exec (ApiCall.removeTimer 1)
        (AddTimer 6 10 false (Handler.mk 1 []) s).2
      simp only [ApiCall.exec] at this
      rw [this, htr, invocationsOf_append]
      simp [invocationsOf]
    rw [h3]
    simp [invocationsOf]

theorem reuse_run (ts : ThreadState) (hreg : ts.obj.m_waithandlers = [keptTimer])
    (hc : ts.obj.m_nexttimertriggerid = 1) :
    (Step.exec (Step.api (ApiCall.addTimer 6 10 false (Handler.mk 1 []))) ts).obj.m_waithandlers
      = [keptTimer, TimerHandler.new ts.obj.nextAddr 6 10 false 1 (Handler.mk 1 [])] ∧
    returnedIds
        (Step.exec (Step.api (ApiCall.addTimer 6 10 false (Handler.mk 1 []))) ts).obj.trace
      = returnedIds ts.obj.trace ++ [1] ∧
    invocationsOf
        (Step.exec (Step.api (ApiCall.addTimer 6 10 false (Handler.mk 1 []))) ts).obj.trace
      = invocationsOf ts.obj.trace ∧
    invocationsOf (run [Step.api (ApiCall.removeTimer 1), Step.build, Step.dispatch 0]
        (Step.exec (Step.api (ApiCall.addTimer 6 10 false (Handler.mk 1 []))) ts)).obj.trace
      = invocationsOf ts.obj.trace ++ [ts.obj.nextAddr] := by
  rw [run_cons, run_cons, run_cons, run_nil]
  simp only [Step.exec, ApiCall.exec, ThreadState.rebuild]
  exact reuse_round ts.obj ts.ahandles hreg hc

/-- C7 (code behaviour at the failing input): on the run `stepsToReuse` the timer with id 1 added first is
still registered when, 2^32 - 1 timers later, AddTimer returns the id 1 again for a new
timer (the object at address 2^32), whose callback has not been invoked. RemoveTimer(1)
then marks the older timer, and after the rebuild a dispatch invokes the callback of the
timer just removed by its id. -/
theorem removeTimer_misses_timer_after_wrap :
    (returnedIds (run stepsToReuse (ThreadState.fresh 1 2)).obj.trace).getLast? = some 1 ∧
    (run stepsToReuse (ThreadState.fresh 1 2)).obj.m_waithandlers.map
        (fun e => (e.addr, e.timer.map (fun t => t.m_id)))
      = [(0, some 1), (UINT_RANGE, some 1)] ∧
    UINT_RANGE ∉ invocationsOf (run stepsToReuse (ThreadState.fresh 1 2)).obj.trace ∧
    UINT_RANGE ∈ invocationsOf
      (run [Step.api (ApiCall.removeTimer 1), Step.build, Step.dispatch 0]
        (run stepsToReuse (ThreadState.fresh 1 2))).obj.trace := by
  have hn : UINT_RANGE - 1 + 1 ≤ UINT_RANGE := by norm_num [UINT_RANGE]
  obtain ⟨h1, h2, h3⟩ := churn_reaches (UINT_RANGE - 1) hn
  have hc : (UINT_RANGE - 1 + 2) % UINT_RANGE = 1 := by norm_num [UINT_RANGE]
  have ha : UINT_RANGE - 1 + 1 = UINT_RANGE := by norm_num [UINT_RANGE]
  rw [hc] at h2
  rw [ha] at h3
  have hinv := invokedAllocated_run (churn (UINT_RANGE - 1)) _ (wellAddressed_fresh 1 2)
    (invokedAllocated_fresh 1 2)
  obtain ⟨r1, r2, r3, r4⟩ := reuse_run _ h1 h2
  have hrun : run stepsToReuse (ThreadState.fresh 1 2)
      = Step.exec (Step.api (ApiCall.addTimer 6 10 false (Handler.mk 1 [])))
          (run (churn (UINT_RANGE - 1)) (ThreadState.fresh 1 2)) := by
    rw [stepsToReuse, run_append, run_cons, run_nil]
  rw [hrun]
  refine ⟨?_, ?_, ?_, ?_⟩
  · rw [r2]; simp
  · rw [r1, h3]; rfl
  · rw [r3]
    intro hmem
    have := hinv _ hmem
    omega
  · rw [r4, h3]; simp

/-! ## One-shot timers fire at most once -/

theorem IsOneShot.of_evolves {x x' : WaitHandlerBase} (hev : Evolves x x')
    (h : IsOneShot x) : IsOneShot x' := by
  obtain ⟨t, ht, hr⟩ := h
  have := hev.timer_eq
  rw [ht] at this
  cases ht' : x'.timer with
  | none => rw [ht'] at this; simp at this
  | some t' =>
    rw [ht'] at this
    simp only [Option.map_some', Option.some.injEq, Prod.mk.injEq] at this
    exact ⟨t', ht', by rw [this.2.2]; exact hr⟩

theorem IsOneShot.back {x x' : WaitHandlerBase} (hev : Evolves x x')
    (h : IsOneShot x') : IsOneShot x := by
  obtain ⟨t, ht, hr⟩ := h
  have := hev.timer_eq
  rw [ht] at this
  cases ht' : x.timer with
  | none => rw [ht'] at this; simp at this
  | some t' =>
    rw [ht'] at this
    simp only [Option.map_some', Option.some.injEq, Prod.mk.injEq] at this
    exact ⟨t', ht', by rw [← this.2.2]; exact hr⟩

theorem oneShotAdded_exec (a : Nat) (c : ApiCall) (s : WFMOHandler) (hw : WellAddressed s)
    (h : OneShotAdded a (c.exec s).trace) :
    OneShotAdded a s.trace ∨
      (a = s.nextAddr ∧ s.nextAddr < (c.exec s).nextAddr ∧
        ∀ x' ∈ (c.exec s).m_waithandlers, x'.addr = s.nextAddr → IsOneShot x') := by
  obtain ⟨id, hid⟩ := h
  cases c with
  | addWaitHandle hd handler =>
    simp only [ApiCall.exec, AddWaitHandle] at hid
    split_ifs at hid
    · exact Or.inl ⟨id, hid⟩
    · simp [setRebuild] at hid
      exact Or.inl ⟨id, hid⟩
  | removeWaitHandle hd =>
    simp only [ApiCall.exec, RemoveWaitHandle] at hid
    split at hid
    · exact Or.inl ⟨id, hid⟩
    · simp [setRebuild] at hid
      exact Or.inl ⟨id, hid⟩
  | addTimer hTimer ms r handler =>
    simp only [ApiCall.exec, AddTimer] at hid ⊢
    split_ifs at hid ⊢
    · exact Or.inl ⟨id, hid⟩
    · simp only [setRebuild, TimerHandler.new, List.mem_append, List.mem_cons,
        List.mem_singleton, Event.addTimerReturned.injEq, List.not_mem_nil, or_false,
        false_or] at hid
      rcases hid with hid | hid | hid
      · exact Or.inl ⟨id, hid⟩
      · exact Event.noConfusion hid
      · obtain ⟨ha, hr, _⟩ := hid
        refine Or.inr ⟨ha, Nat.lt_succ_self _, ?_⟩
        intro x' hx' hxa
        rcases List.mem_append.mp hx' with hx' | hx'
        · have := wellAddressed_mem s hw x' hx'
          omega
        · rw [List.mem_singleton] at hx'
          rw [hx']
          exact ⟨_, rfl, hr.symm⟩
  | removeTimer t =>
    simp only [ApiCall.exec, RemoveTimer] at hid
    split at hid
    · exact Or.inl ⟨id, hid⟩
    · simp [setRebuild] at hid
      exact Or.inl ⟨id, hid⟩
  | adjustTimer t interval r => exact Or.inl ⟨id, hid⟩

theorem oneShotState_exec (a : Nat) (c : ApiCall) (s : WFMOHandler)
    (h : OneShotState a s) : OneShotState a (c.exec s) := by
  obtain ⟨h1, h2, h3⟩ := h
  have hback : ∀ x' ∈ (c.exec s).m_waithandlers, x'.addr = a →
      ∃ x ∈ s.m_waithandlers, Evolves x x' := by
    intro x' hx' hxa
    rcases mem_exec c s x' hx' with hx | ⟨hn, _⟩
    · exact hx
    · omega
  refine ⟨lt_of_lt_of_le h1 (nextAddr_le_exec c s), ?_, ?_⟩
  · intro x' hx' hxa
    obtain ⟨x, hx, hev⟩ := hback x' hx' hxa
    exact IsOneShot.of_evolves hev (h2 x hx (hev.addr_eq ▸ hxa))
  · rw [invocationsOf_exec]
    rcases h3 with h3 | ⟨h3, h4⟩
    · exact Or.inl h3
    · refine Or.inr ⟨h3, ?_⟩
      intro x' hx' hxa
      obtain ⟨x, hx, hev⟩ := hback x' hx' hxa
      exact hev.2.2 (h4 x hx (hev.addr_eq ▸ hxa))

theorem oneShotDuring_exec (a : Nat) (e : WaitHandlerBase) (c : ApiCall) (s : WFMOHandler)
    (h : OneShotDuring a e s) : OneShotDuring a e (c.exec s) := by
  obtain ⟨h1, h2, h3, h4⟩ := h
  have hback : ∀ x' ∈ (c.exec s).m_waithandlers, x'.addr = a →
      ∃ x ∈ s.m_waithandlers, Evolves x x' := by
    intro x' hx' hxa
    rcases mem_exec c s x' hx' with hx | ⟨hn, _⟩
    · exact hx
    · omega
  refine ⟨lt_of_lt_of_le h1 (nextAddr_le_exec c s), ?_, ?_, ?_⟩
  · intro x' hx' hxa
    obtain ⟨x, hx, hev⟩ := hback x' hx' hxa
    exact IsOneShot.of_evolves hev (h2 x hx (hev.addr_eq ▸ hxa))
  · rw [invocationsOf_exec]; exact h3
  · rw [invocationsOf_exec]
    intro hne
    rcases h4 hne with h5 | ⟨h5, h6⟩
    · exact Or.inl h5
    · refine Or.inr ⟨h5, ?_⟩
      intro x' hx' hxa
      obtain ⟨x, hx, hev⟩ := hback x' hx' hxa
      exact hev.2.2 (h6 x hx (hev.addr_eq ▸ hxa))

theorem updateAt_marks_target (f : WaitHandlerBase → WaitHandlerBase)
    (hm : ∀ e, (f e).m_markfordeletion = true) (l : List WaitHandlerBase) (k : Nat)
    (e : WaitHandlerBase) (hk : l[k]? = some e)
    (hl : (l.map (fun x => x.addr)).Pairwise (fun a b => a < b)) :
    ∀ x ∈ updateAt k f l, x.addr = e.addr → x.m_markfordeletion = true := by
  induction l generalizing k with
  | nil => simp at hk
  | cons y rest ih =>
    rw [List.map_cons, List.pairwise_cons] at hl
    intro x hx hxa
    cases k with
    | zero =>
      simp only [List.getElem?_cons_zero, Option.some.injEq] at hk
      subst hk
      simp only [updateAt] at hx
      rcases List.mem_cons.mp hx with hx | hx
      · rw [hx]; exact hm y
      · have := hl.1 x.addr (List.mem_map_of_mem _ hx)
        omega
    | succ k =>
      simp only [List.getElem?_cons_succ] at hk
      simp only [updateAt] at hx
      rcases List.mem_cons.mp hx with hx | hx
      · have := hl.1 e.addr (List.mem_map_of_mem _ (List.getElem?_mem hk))
        rw [hx] at hxa
        omega
      · exact ih k hk hl.2 x hx hxa

theorem addTimerReturned_not_mem_sweep (a : Nat) (r : Bool) (id : Nat)
    (l : List WaitHandlerBase) : Event.addTimerReturned a r id ∉ (sweep l).2 := by
  induction l with
  | nil => simp [sweep]
  | cons e rest ih =>
    unfold sweep
    cases hm : e.m_markfordeletion <;> simp [hm, ih]

theorem oneShotAdded_sweep (a : Nat) (tr : List Event) (l : List WaitHandlerBase)
    (h : OneShotAdded a (tr ++ (sweep l).2)) : OneShotAdded a tr := by
  obtain ⟨id, hid⟩ := h
  rcases List.mem_append.mp hid with hid | hid
  · exact ⟨id, hid⟩
  · exact absurd hid (addTimerReturned_not_mem_sweep a false id l)

theorem oneShotAdded_snoc (a : Nat) (tr : List Event) (ev : Event)
    (hev : ∀ r id, ev ≠ Event.addTimerReturned a r id)
    (h : OneShotAdded a (tr ++ [ev])) : OneShotAdded a tr := by
  obtain ⟨id, hid⟩ := h
  rcases List.mem_append.mp hid with hid | hid
  · exact ⟨id, hid⟩
  · rw [List.mem_singleton] at hid
    exact absurd hid.symm (hev false id)

theorem oneShotState_updateAt (a k : Nat) (f : WaitHandlerBase → WaitHandlerBase)
    (hf : Stable f) (s s' : WFMOHandler)
    (hreg : s'.m_waithandlers = updateAt k f s.m_waithandlers)
    (hn : s'.nextAddr = s.nextAddr)
    (htr : invocationsOf s'.trace = invocationsOf s.trace)
    (h1 : a < s.nextAddr) (h2 : ∀ x ∈ s.m_waithandlers, x.addr = a → IsOneShot x)
    (h3 : (invocationsOf s.trace).count a = 0 ∨
      ((invocationsOf s.trace).count a = 1 ∧
        ∀ x ∈ s.m_waithandlers, x.addr = a → x.m_markfordeletion = true)) :
    OneShotState a s' := by
  have hback : ∀ x' ∈ s'.m_waithandlers, ∃ x ∈ s.m_waithandlers, Evolves x x' := by
    intro x' hx'
    rw [hreg] at hx'
    exact mem_updateAt f hf _ k x' hx'
  refine ⟨hn ▸ h1, ?_, ?_⟩
  · intro x' hx' hxa
    obtain ⟨x, hx, hev⟩ := hback x' hx'
    exact IsOneShot.of_evolves hev (h2 x hx (hev.addr_eq ▸ hxa))
  · rw [htr]
    rcases h3 with h3 | ⟨h3, h4⟩
    · exact Or.inl h3
    · refine Or.inr ⟨h3, ?_⟩
      intro x' hx' hxa
      obtain ⟨x, hx, hev⟩ := hback x' hx'
      exact hev.2.2 (h4 x hx (hev.addr_eq ▸ hxa))

theorem oneShot_run (a : Nat) (steps : List Step) (ts : ThreadState)
    (hwf : WellAddressed ts.obj) (hi : InvokedAllocated ts.obj)
    (hs : OneShotAdded a ts.obj.trace → OneShotState a ts.obj) :
    OneShotAdded a (run steps ts).obj.trace → OneShotState a (run steps ts).obj := by
  refine (run_invariant_wf
    (fun s => InvokedAllocated s ∧ (OneShotAdded a s.trace → OneShotState a s))
    (fun _ e s => InvokedAllocated s ∧ e.addr ∈ invocationsOf s.trace ∧
      (OneShotAdded a s.trace → OneShotDuring a e s))
    ?_ ?_ ?_ ?_ ?_ ?_ ?_ steps ts hwf ⟨hi, hs⟩).2.2
  · intro c s hw h
    refine ⟨invokedAllocated_exec c s h.1, fun hadd => ?_⟩
    rcases oneShotAdded_exec a c s hw hadd with hold | ⟨ha, hlt, hnew⟩
    · exact oneShotState_exec a c s (h.2 hold)
    · refine ⟨ha ▸ hlt, fun x' hx' hxa => hnew x' hx' (ha ▸ hxa), Or.inl ?_⟩
      rw [invocationsOf_exec]
      apply List.count_eq_zero_of_not_mem
      intro hmem
      have := h.1 a hmem
      omega
  · intro b s _ h
    have htr : invocationsOf (BuildHandleArray b s).2.2.trace = invocationsOf s.trace := by
      simp only [BuildHandleArray, invocationsOf_append, invocationsOf_sweep, List.append_nil]
    refine ⟨fun x hx => h.1 x (htr ▸ hx), fun hadd => ?_⟩
    obtain ⟨h1, h2, h3⟩ := h.2 (oneShotAdded_sweep a s.trace s.m_waithandlers hadd)
    have hsub : ∀ x ∈ (BuildHandleArray b s).2.2.m_waithandlers, x ∈ s.m_waithandlers := by
      intro x hx
      rw [BuildHandleArray_registry, mem_sweep] at hx
      exact hx.1
    refine ⟨h1, fun x hx => h2 x (hsub x hx), ?_⟩
    rw [htr]
    rcases h3 with h3 | ⟨h3, h4⟩
    · exact Or.inl h3
    · exact Or.inr ⟨h3, fun x hx => h4 x (hsub x hx)⟩
  · intro k e s hw h hk hm
    have hmem : e ∈ s.m_waithandlers := List.getElem?_mem hk
    refine ⟨?_, ?_, fun hadd => ?_⟩
    · intro x hx
      simp only [invocationsOf_append, invocationsOf, List.mem_append,
        List.mem_singleton] at hx
      rcases hx with hx | hx
      · exact h.1 x hx
      · rw [hx]; exact wellAddressed_mem s hw e hmem
    · simp [invocationsOf_append, invocationsOf]
    · obtain ⟨h1, h2, h3⟩ := h.2 (oneShotAdded_snoc a s.trace _ (fun _ _ => Event.noConfusion)
        hadd)
      refine ⟨h1, h2, ?_, ?_⟩
      · intro hea
        have h0 : (invocationsOf s.trace).count a = 0 := by
          rcases h3 with h3 | ⟨_, h4⟩
          · exact h3
          · have := h4 e hmem hea
            rw [hm] at this
            exact Bool.noConfusion this
        simp [invocationsOf_append, invocationsOf, List.count_append, h0, hea]
      · intro hne
        have hc : (invocationsOf (s.trace ++ [Event.invoked e.addr e.m_handler.tag])).count a
            = (invocationsOf s.trace).count a := by
          simp [invocationsOf_append, invocationsOf, List.count_append, List.count_cons, hne]
        show List.count a (invocationsOf (s.trace ++ _)) = 0 ∨
          List.count a (invocationsOf (s.trace ++ _)) = 1 ∧ _
        rw [hc]
        exact h3
  · intro k e c s hw h
    obtain ⟨hi', hmem, hd⟩ := h
    refine ⟨invokedAllocated_exec c s hi', by rw [invocationsOf_exec]; exact hmem,
      fun hadd => ?_⟩
    rcases oneShotAdded_exec a c s hw hadd with hold | ⟨ha, hlt, hnew⟩
    · exact oneShotDuring_exec a e c s (hd hold)
    · have hninv : a ∉ invocationsOf s.trace := by
        intro hmem'
        have := hi' a hmem'
        omega
      refine ⟨ha ▸ hlt, fun x' hx' hxa => hnew x' hx' (ha ▸ hxa), ?_, ?_⟩
      · intro hea
        rw [hea] at hmem
        exact absurd hmem hninv
      · intro _
        rw [invocationsOf_exec]
        exact Or.inl (List.count_eq_zero_of_not_mem hninv)
  · intro k e e' s _ h hk hev ht
    refine ⟨h.1, fun hadd => ?_⟩
    obtain ⟨h1, h2, h3, h4⟩ := h.2.2 hadd
    have hne : e.addr ≠ a := by
      intro hea
      obtain ⟨t, ht', _⟩ := IsOneShot.back hev
        (h2 e' (List.getElem?_mem hk) (hev.addr_eq.trans hea))
      rw [ht] at ht'
      exact Option.noConfusion ht'
    exact ⟨h1, h2, h4 hne⟩
  · intro k e t e' s _ h hk hev ht hr
    refine ⟨h.1, fun hadd => ?_⟩
    obtain ⟨h1, h2, h3, h4⟩ := h.2.2 hadd
    have hne : e.addr ≠ a := by
      intro hea
      obtain ⟨t', ht', hr'⟩ := IsOneShot.back hev
        (h2 e' (List.getElem?_mem hk) (hev.addr_eq.trans hea))
      rw [ht] at ht'
      simp only [Option.some.injEq] at ht'
      rw [← ht', hr] at hr'
      exact Bool.noConfusion hr'
    exact oneShotState_updateAt a k _ (stable_rearm _ _) s _ rfl rfl rfl h1 h2 (h4 hne)
  · intro k e t e' s hw h hk hev ht hr
    have htr : invocationsOf (s.trace ++ [Event.selfMarked e.addr]) = invocationsOf s.trace := by
      simp [invocationsOf_append, invocationsOf]
    refine ⟨fun x hx => h.1 x (htr ▸ hx), fun hadd => ?_⟩
    obtain ⟨h1, h2, h3, h4⟩ := h.2.2
      (oneShotAdded_snoc a s.trace _ (fun _ _ => Event.noConfusion) hadd)
    by_cases hea : e.addr = a
    · refine ⟨h1, ?_, Or.inr ⟨?_, ?_⟩⟩
      · intro x' hx' hxa
        obtain ⟨x, hx, hev'⟩ := mem_updateAt _ stable_mark _ k x' hx'
        exact IsOneShot.of_evolves hev' (h2 x hx (hev'.addr_eq ▸ hxa))
      · show List.count a (invocationsOf (s.trace ++ _)) = 1
        rw [htr]; exact h3 hea
      · intro x' hx' hxa
        exact updateAt_marks_target _ (fun _ => rfl) _ k e' hk (wellAddressed_pairwise s hw)
          x' hx' (by rw [hxa, hev.addr_eq, hea])
    · exact oneShotState_updateAt a k _ stable_mark s _ rfl rfl htr h1 h2 (h4 hea)

theorem invocationsOf_runCalls (cs : List ApiCall) (s : WFMOHandler) :
    invocationsOf (runCalls cs s).trace = invocationsOf s.trace := by
  induction cs generalizing s with
  | nil => rfl
  | cons c cs ih => exact (ih (c.exec s)).trans (invocationsOf_exec c s)

theorem oneShot_invoke_marks (s : WFMOHandler) (k : Nat) (e : WaitHandlerBase) (t : TimerPart)
    (hk : s.m_waithandlers[k]? = some e) (hm : e.m_markfordeletion = false)
    (ht : e.timer = some t) (hr : t.m_repeat = false) :
    (∃ e', (InvokeWaitHandleHandler k s).m_waithandlers[k]? = some e' ∧ e'.addr = e.addr ∧
      e'.m_markfordeletion = true) ∧
    (InvokeWaitHandleHandler k s).rebuildSet = true ∧
    invocationsOf (InvokeWaitHandleHandler k s).trace = invocationsOf s.trace ++ [e.addr] := by
  rw [InvokeWaitHandleHandler_live k s e hk hm, invoke_oneshot k e t s ht hr]
  obtain ⟨e₁, h₁, hev⟩ := getElem?_runCalls e.m_handler.calls
    { s with trace := s.trace ++ [Event.invoked e.addr e.m_handler.tag] } k e hk
  refine ⟨⟨_, getElem?_updateAt_self _ _ k e₁ h₁, hev.addr_eq, rfl⟩, rfl, ?_⟩
  simp only [setRebuild, invocationsOf_append, callHandler, invocationsOf_runCalls]
  simp [invocationsOf]

theorem rebuildPending_exec (c : ApiCall) (s : WFMOHandler) (h : RebuildPending s) :
    RebuildPending (c.exec s) := by
  cases c with
  | addWaitHandle hd handler =>
    simp only [ApiCall.exec, AddWaitHandle]
    split_ifs
    · exact h
    · exact fun _ => rfl
  | removeWaitHandle hd =>
    simp only [ApiCall.exec, RemoveWaitHandle]
    split
    · exact h
    · exact fun _ => rfl
  | addTimer hTimer ms r handler =>
    simp only [ApiCall.exec, AddTimer]
    split_ifs
    · exact h
    · exact fun _ => rfl
  | removeTimer id =>
    simp only [ApiCall.exec, RemoveTimer]
    split
    · exact h
    · exact fun _ => rfl
  | adjustTimer id interval r =>
    intro ⟨x', hx', hm⟩
    simp only [ApiCall.exec, AdjustTimer, List.mem_map] at hx'
    obtain ⟨x, hx, hxe⟩ := hx'
    refine h ⟨x, hx, ?_⟩
    rw [← hxe] at hm
    split_ifs at hm
    · exact hm
    · exact hm

theorem mark_of_mem_updateAt_rearm (ms : Nat) (r : Bool) (l : List WaitHandlerBase) (k : Nat)
    (x' : WaitHandlerBase) (hx' : x' ∈ updateAt k (rearm ms r) l)
    (hm : x'.m_markfordeletion = true) : ∃ x ∈ l, x.m_markfordeletion = true := by
  induction l generalizing k with
  | nil => simp [updateAt] at hx'
  | cons e rest ih =>
    cases k with
    | zero =>
      simp only [updateAt] at hx'
      rcases List.mem_cons.mp hx' with hx | hx
      · exact ⟨e, List.mem_cons_self _ _, by rw [hx] at hm; exact hm⟩
      · exact ⟨x', List.mem_cons_of_mem _ hx, hm⟩
    | succ k =>
      simp only [updateAt] at hx'
      rcases List.mem_cons.mp hx' with hx | hx
      · exact ⟨e, List.mem_cons_self _ _, by rw [hx] at hm; exact hm⟩
      · obtain ⟨x, hx, hxm⟩ := ih k hx
        exact ⟨x, List.mem_cons_of_mem _ hx, hxm⟩

theorem rebuildPending_run (steps : List Step) (ts : ThreadState)
    (hs : RebuildPending ts.obj) : RebuildPending (run steps ts).obj := by
  refine run_invariant RebuildPending (fun _ _ => RebuildPending) rebuildPending_exec
    ?_ ?_ ?_ ?_ ?_ ?_ steps ts hs
  · intro b s _ ⟨x, hx, hm⟩
    rw [BuildHandleArray_registry, mem_sweep] at hx
    rw [hx.2] at hm
    exact Bool.noConfusion hm
  · exact fun _ _ _ h _ _ => h
  · exact fun _ _ c s h => rebuildPending_exec c s h
  · exact fun _ _ _ h _ => h
  · intro k e t s h _ _ ⟨x', hx', hm⟩
    exact h (mark_of_mem_updateAt_rearm _ _ _ k x' hx' hm)
  · exact fun _ _ _ _ _ _ _ _ => rfl

theorem rebuildPending_fresh (hShutdown hRebuild : HANDLE) :
    RebuildPending (ThreadState.fresh hShutdown hRebuild).obj := by
  intro ⟨x, hx, _⟩
  simp [ThreadState.fresh, WFMOHandler.new] at hx

theorem map_visible_updateFirst (p : WaitHandlerBase → Bool)
    (f : WaitHandlerBase → WaitHandlerBase) (l : List WaitHandlerBase) (e : WaitHandlerBase)
    (hfind : l.find? p = some e) (hv : (f e).visible = e.visible) :
    (updateFirst p f l).map WaitHandlerBase.visible = l.map WaitHandlerBase.visible := by
  induction l with
  | nil => rfl
  | cons y rest ih =>
    unfold updateFirst
    by_cases hp : p y = true
    · simp only [List.find?_cons, hp, Option.some.injEq] at hfind
      subst hfind
      simp [hp, hv]
    · simp only [List.find?_cons, hp] at hfind
      simp [hp, ih hfind]

theorem visible_cancelMark (e : WaitHandlerBase) (hm : e.m_markfordeletion = true) :
    ({ CancelWaitableTimer e with m_markfordeletion := true } : WaitHandlerBase).visible
      = e.visible := by
  have h := stable_cancelMark e
  unfold WaitHandlerBase.visible
  rw [h.1, h.2.1, hm]

/-- One-shot timers (the part of C8 that the code keeps): for every timer added with
repeat = false (the object `a`) and every
sequence of API calls, rebuilds, dispatches and loop iterations for any wake indexes, the
timer's callback has been invoked at most once; in the state reached, a dispatch that
finds the timer unmarked invokes it for the first and only time, sets its delete flag and
raises the rebuild event; once the flag is set, a RemoveTimer on an id whose registry
entry is that timer changes nothing that dispatch can observe (only the timer object is
cancelled), and a RemoveTimer on an id that no registry entry carries changes nothing at
all. -/
theorem oneShot_timer_fires_at_most_once (hShutdown hRebuild : HANDLE) (steps : List Step)
    (a id : Nat)
    (hadd : Event.addTimerReturned a false id
      ∈ (run steps (ThreadState.fresh hShutdown hRebuild)).obj.trace) :
    (invocationsOf (run steps (ThreadState.fresh hShutdown hRebuild)).obj.trace).count a ≤ 1 ∧
    (∀ k e, (run steps (ThreadState.fresh hShutdown hRebuild)).obj.m_waithandlers[k]? = some e →
      e.addr = a → e.m_markfordeletion = false →
      (∃ e', (InvokeWaitHandleHandler k
          (run steps (ThreadState.fresh hShutdown hRebuild)).obj).m_waithandlers[k]? = some e' ∧
        e'.addr = a ∧ e'.m_markfordeletion = true) ∧
      (InvokeWaitHandleHandler k
        (run steps (ThreadState.fresh hShutdown hRebuild)).obj).rebuildSet = true ∧
      (invocationsOf (InvokeWaitHandleHandler k
        (run steps (ThreadState.fresh hShutdown hRebuild)).obj).trace).count a = 1) ∧
    (∀ t e, (run steps (ThreadState.fresh hShutdown hRebuild)).obj.m_waithandlers.find?
        (isTimerWithId t) = some e → e.addr = a → e.m_markfordeletion = true →
      (RemoveTimer t (run steps (ThreadState.fresh hShutdown hRebuild)).obj).m_waithandlers.map
          WaitHandlerBase.visible
        = (run steps (ThreadState.fresh hShutdown hRebuild)).obj.m_waithandlers.map
            WaitHandlerBase.visible ∧
      (RemoveTimer t (run steps (ThreadState.fresh hShutdown hRebuild)).obj).rebuildSet
        = (run steps (ThreadState.fresh hShutdown hRebuild)).obj.rebuildSet ∧
      (RemoveTimer t (run steps (ThreadState.fresh hShutdown hRebuild)).obj).m_nexttimertriggerid
        = (run steps (ThreadState.fresh hShutdown hRebuild)).obj.m_nexttimertriggerid ∧
      invocationsOf (RemoveTimer t (run steps (ThreadState.fresh hShutdown hRebuild)).obj).trace
        = invocationsOf (run steps (ThreadState.fresh hShutdown hRebuild)).obj.trace) ∧
    (∀ t, (run steps (ThreadState.fresh hShutdown hRebuild)).obj.m_waithandlers.find?
        (isTimerWithId t) = none →
      RemoveTimer t (run steps (ThreadState.fresh hShutdown hRebuild)).obj
        = (run steps (ThreadState.fresh hShutdown hRebuild)).obj) := by
  have hstate := oneShot_run a steps _ (wellAddressed_fresh hShutdown hRebuild)
    (invokedAllocated_fresh hShutdown hRebuild)
    (fun h => by obtain ⟨i, hi⟩ := h; simp [ThreadState.fresh, WFMOHandler.new] at hi)
    ⟨id, hadd⟩
  have hpend := rebuildPending_run steps _ (rebuildPending_fresh hShutdown hRebuild)
  generalize (run steps (ThreadState.fresh hShutdown hRebuild)).obj = s at hstate hpend ⊢
  obtain ⟨_, h2, h3⟩ := hstate
  refine ⟨?_, ?_, ?_, ?_⟩
  · rcases h3 with h3 | ⟨h3, _⟩ <;> omega
  · intro k e hk hea hm
    have hmem : e ∈ s.m_waithandlers := List.getElem?_mem hk
    obtain ⟨t, ht, hr⟩ := h2 e hmem hea
    obtain ⟨⟨e', he', hadr, hmark⟩, hreb, hinv⟩ := oneShot_invoke_marks s k e t hk hm ht hr
    refine ⟨⟨e', he', hadr.trans hea, hmark⟩, hreb, ?_⟩
    have h0 : (invocationsOf s.trace).count a = 0 := by
      rcases h3 with h3 | ⟨_, h4⟩
      · exact h3
      · have := h4 e hmem hea
        rw [hm] at this
        exact Bool.noConfusion this
    rw [hinv, List.count_append, h0, hea]
    simp
  · intro t e hfind _ hm
    refine ⟨?_, ?_, RemoveTimer_counter t s,
      invocationsOf_exec (ApiCall.removeTimer t) s⟩
    · rw [RemoveTimer_registry]
      exact map_visible_updateFirst _ _ _ e hfind (visible_cancelMark e hm)
    · rw [RemoveTimer_rebuildSet, hfind,
        hpend ⟨e, List.mem_of_find?_eq_some hfind, hm⟩]
      rfl
  · intro t hfind
    simp [RemoveTimer, hfind]

/-- Witness for the one-shot timer: a one-shot timer on a fresh reactor, a rebuild, and two
wakes on the timer's snapshot index 2; its callback ran once. -/
theorem oneShot_timer_fires_at_most_once_witness :
    (invocationsOf (run [Step.api (ApiCall.addTimer 5 100 false (Handler.mk 0 [])),
        Step.build, Step.wake 2, Step.wake 2] (ThreadState.fresh 1 2)).obj.trace).count 0 ≤ 1 :=
  (oneShot_timer_fires_at_most_once 1 2
    [Step.api (ApiCall.addTimer 5 100 false (Handler.mk 0 [])), Step.build, Step.wake 2,
      Step.wake 2] 0 1 (by decide)).1

theorem fire_round (s : WFMOHandler) (b : List HANDLE)
    (hreg : s.m_waithandlers = [keptTimer]) (hc : s.m_nexttimertriggerid = 1) :
    Event.addTimerReturned s.nextAddr false 1
      ∈ (InvokeWaitHandleHandler 1
          (BuildHandleArray b (AddTimer 6 10 false (Handler.mk 1 []) s).2).2.2).trace ∧
    invocationsOf (InvokeWaitHandleHandler 1
        (BuildHandleArray b (AddTimer 6 10 false (Handler.mk 1 []) s).2).2.2).trace
      = invocationsOf s.trace ++ [s.nextAddr] ∧
    (InvokeWaitHandleHandler 1
        (BuildHandleArray b (AddTimer 6 10 false (Handler.mk 1 []) s).2).2.2).m_waithandlers
      = [keptTimer,
          { TimerHandler.new s.nextAddr 6 10 false 1 (Handler.mk 1 []) with
            m_markfordeletion := true }] := by
  obtain ⟨hadd, _, hinv, _⟩ := reuse_round s b hreg hc
  have hb : IsWaitHandleSlotAvailable s = true := by
    rw [slotAvailable_iff, hreg]; decide
  have htr : (AddTimer 6 10 false (Handler.mk 1 []) s).2.trace
      = s.trace ++ [Event.created s.nextAddr, Event.addTimerReturned s.nextAddr false 1] := by
    rw [AddTimer_trace_of_available _ _ _ _ _ hb, hc]
    norm_num [UINT_RANGE]
  have hbuild : (BuildHandleArray b
      (AddTimer 6 10 false (Handler.mk 1 []) s).2).2.2.m_waithandlers
      = [keptTimer, TimerHandler.new s.nextAddr 6 10 false 1 (Handler.mk 1 [])] := by
    rw [BuildHandleArray_registry, hadd]
    simp [sweep, TimerHandler.new, keptTimer]
  have hbtr : (BuildHandleArray b (AddTimer 6 10 false (Handler.mk 1 []) s).2).2.2.trace
      = s.trace ++ [Event.created s.nextAddr, Event.addTimerReturned s.nextAddr false 1] := by
    show (AddTimer 6 10 false (Handler.mk 1 []) s).2.trace
      ++ (sweep (AddTimer 6 10 false (Handler.mk 1 []) s).2.m_waithandlers).2 = _
    rw [hadd, htr]
    simp [sweep, TimerHandler.new, keptTimer]
  have hget : (BuildHandleArray b
      (AddTimer 6 10 false (Handler.mk 1 []) s).2).2.2.m_waithandlers[1]?
      = some (TimerHandler.new s.nextAddr 6 10 false 1 (Handler.mk 1 [])) := by
    rw [hbuild]; rfl
  rw [InvokeWaitHandleHandler_live 1 _ _ hget rfl, invoke_oneshot 1 _ _ _ rfl rfl]
  simp only [setRebuild, callHandler, TimerHandler.new, Handler.calls, runCalls,
    List.foldl_nil, hbtr]
  refine ⟨by simp, by simp [invocationsOf_append, invocationsOf], ?_⟩
  simp only [TimerHandler.new] at hbuild
  rw [hbuild]
  rfl

theorem fire_run (ts : ThreadState) (hreg : ts.obj.m_waithandlers = [keptTimer])
    (hc : ts.obj.m_nexttimertriggerid = 1) :
    Event.addTimerReturned ts.obj.nextAddr false 1
      ∈ (run [Step.api (ApiCall.addTimer 6 10 false (Handler.mk 1 [])), Step.build,
          Step.dispatch 1] ts).obj.trace ∧
    invocationsOf (run [Step.api (ApiCall.addTimer 6 10 false (Handler.mk 1 [])), Step.build,
        Step.dispatch 1] ts).obj.trace
      = invocationsOf ts.obj.trace ++ [ts.obj.nextAddr] ∧
    (run [Step.api (ApiCall.addTimer 6 10 false (Handler.mk 1 [])), Step.build,
        Step.dispatch 1] ts).obj.m_waithandlers
      = [keptTimer,
          { TimerHandler.new ts.obj.nextAddr 6 10 false 1 (Handler.mk 1 []) with
            m_markfordeletion := true }] := by
  rw [run_cons, run_cons, run_cons, run_nil]
  simp only [Step.exec, ApiCall.exec, ThreadState.rebuild]
  exact fire_round ts.obj ts.ahandles hreg hc

/-- C8 (code behaviour at the failing input): on the run `stepsToFire` the one-shot timer created last (the
object at address 2^32, id 1 after the wrap of the id counter) has fired once and is
marked; the repeating timer added first, which also has id 1, is registered and not
marked. A later RemoveTimer on the one-shot timer's id 1 sets the delete flag of that
repeating timer, which dispatch observes. -/
theorem removeTimer_after_oneshot_hits_other_timer :
    Event.addTimerReturned UINT_RANGE false 1
      ∈ (run stepsToFire (ThreadState.fresh 1 2)).obj.trace ∧
    (invocationsOf (run stepsToFire (ThreadState.fresh 1 2)).obj.trace).count UINT_RANGE = 1 ∧
    (run stepsToFire (ThreadState.fresh 1 2)).obj.m_waithandlers.map
        (fun e => (e.addr, e.timer.map (fun t => t.m_id), e.m_markfordeletion))
      = [(0, some 1, false), (UINT_RANGE, some 1, true)] ∧
    (RemoveTimer 1 (run stepsToFire (ThreadState.fresh 1 2)).obj).m_waithandlers.map
        (fun e => (e.addr, e.timer.map (fun t => t.m_id), e.m_markfordeletion))
      = [(0, some 1, true), (UINT_RANGE, some 1, true)] := by
  have hn : UINT_RANGE - 1 + 1 ≤ UINT_RANGE := by norm_num [UINT_RANGE]
  obtain ⟨h1, h2, h3⟩ := churn_reaches (UINT_RANGE - 1) hn
  have hc : (UINT_RANGE - 1 + 2) % UINT_RANGE = 1 := by norm_num [UINT_RANGE]
  have ha : UINT_RANGE - 1 + 1 = UINT_RANGE := by norm_num [UINT_RANGE]
  rw [hc] at h2
  rw [ha] at h3
  have hinv := invokedAllocated_run (churn (UINT_RANGE - 1)) _ (wellAddressed_fresh 1 2)
    (invokedAllocated_fresh 1 2)
  obtain ⟨r1, r2, r3⟩ := fire_run _ h1 h2
  have hrun : run stepsToFire (ThreadState.fresh 1 2)
      = run [Step.api (ApiCall.addTimer 6 10 false (Handler.mk 1 [])), Step.build,
          Step.dispatch 1] (run (churn (UINT_RANGE - 1)) (ThreadState.fresh 1 2)) := by
    rw [stepsToFire, stepsToReuse, List.append_assoc, run_append]
    rfl
  rw [hrun]
  rw [h3] at r1 r2 r3
  refine ⟨r1, ?_, ?_, ?_⟩
  · rw [r2, List.count_append]
    have : UINT_RANGE ∉
        invocationsOf (run (churn (UINT_RANGE - 1)) (ThreadState.fresh 1 2)).obj.trace := by
      intro hmem
      have := hinv _ hmem
      omega
    rw [List.count_eq_zero_of_not_mem this]
    simp
  · rw [r3]; rfl
  · rw [RemoveTimer_registry, r3]
    rfl

/-! ## Removal notifications -/

theorem notifiedProperly_snoc (tr : List Event) (ev : Event)
    (hev : ∀ a h, ev = Event.handleRemoved a h → MayNotify tr a)
    (h : NotifiedProperly tr) : NotifiedProperly (tr ++ [ev]) := by
  intro pre post a hd heq
  rcases List.eq_nil_or_concat post with hp | ⟨post', b, hp⟩
  · subst hp
    have h2 : tr ++ [ev] = pre ++ [Event.handleRemoved a hd] := heq
    obtain ⟨h3, h4⟩ := List.append_inj' h2 rfl
    rw [← h3]
    exact hev a hd (List.singleton_inj.mp h4)
  · subst hp
    have h2 : tr ++ [ev] = (pre ++ Event.handleRemoved a hd :: post') ++ [b] := by
      rw [heq]; simp
    exact h pre post' a hd (List.append_inj' h2 rfl).1

theorem notifiedProperly_nil : NotifiedProperly [] := by
  intro pre post a h heq
  have := congrArg List.length heq
  simp at this
  omega

theorem mayNotify_snoc (tr : List Event) (ev : Event) (a : Nat)
    (h1 : ev ≠ Event.created a) (h2 : ∀ h, ev ≠ Event.handleRemoved a h)
    (h : MayNotify tr a) : MayNotify (tr ++ [ev]) a := by
  obtain ⟨hc, hm, hn⟩ := h
  refine ⟨?_, ?_, ?_⟩
  · rw [List.count_append, hc, List.count_singleton]
    simp [h1]
  · rcases hm with hm | hm
    · exact Or.inl (List.mem_append_left _ hm)
    · exact Or.inr (List.mem_append_left _ hm)
  · intro hd hmem
    rcases List.mem_append.mp hmem with hmem | hmem
    · exact hn hd hmem
    · rw [List.mem_singleton] at hmem
      exact h2 hd hmem.symm

theorem notifiedProperly_sweep (l : List WaitHandlerBase) (tr : List Event)
    (h : NotifiedProperly tr)
    (hl : (l.map (fun x => x.addr)).Pairwise (fun a b => a < b))
    (hok : ∀ x ∈ l, x.m_markfordeletion = true → MayNotify tr x.addr) :
    NotifiedProperly (tr ++ (sweep l).2) := by
  induction l generalizing tr with
  | nil => simpa [sweep] using h
  | cons e rest ih =>
    rw [List.map_cons, List.pairwise_cons] at hl
    unfold sweep
    cases hm : e.m_markfordeletion with
    | false =>
      simp only [Bool.false_eq_true, if_false]
      exact ih tr h hl.2 (fun x hx => hok x (List.mem_cons_of_mem _ hx))
    | true =>
      simp only [if_true]
      have heq : tr ++ Event.handleRemoved e.addr e.m_h :: Event.destroyed e.addr ::
          (sweep rest).2
          = ((tr ++ [Event.handleRemoved e.addr e.m_h]) ++ [Event.destroyed e.addr])
            ++ (sweep rest).2 := by simp
      rw [heq]
      have he := hok e (List.mem_cons_self _ _) hm
      apply ih
      · apply notifiedProperly_snoc _ _ (fun _ _ hc => Event.noConfusion hc)
        apply notifiedProperly_snoc _ _ _ h
        intro a hd hc
        simp only [Event.handleRemoved.injEq] at hc
        rw [← hc.1]
        exact he
      · exact hl.2
      · intro x hx hxm
        have hne : e.addr ≠ x.addr :=
          Nat.ne_of_lt (hl.1 x.addr (List.mem_map_of_mem _ hx))
        apply mayNotify_snoc _ _ _ (fun hc => Event.noConfusion hc)
          (fun _ hc => Event.noConfusion hc)
        apply mayNotify_snoc _ _ _ (fun hc => Event.noConfusion hc)
        · intro hd hc
          simp only [Event.handleRemoved.injEq] at hc
          exact hne hc.1
        · exact hok x (List.mem_cons_of_mem _ hx) hxm

theorem mem_sweep_events (l : List WaitHandlerBase) (ev : Event) (h : ev ∈ (sweep l).2) :
    ∃ y ∈ l, y.m_markfordeletion = true ∧
      (ev = Event.handleRemoved y.addr y.m_h ∨ ev = Event.destroyed y.addr) := by
  induction l with
  | nil => simp [sweep] at h
  | cons e rest ih =>
    unfold sweep at h
    cases hm : e.m_markfordeletion with
    | false =>
      simp only [hm, Bool.false_eq_true, if_false] at h
      obtain ⟨y, hy, hym, hev⟩ := ih h
      exact ⟨y, List.mem_cons_of_mem _ hy, hym, hev⟩
    | true =>
      simp only [hm, if_true, List.mem_cons] at h
      rcases h with h | h | h
      · exact ⟨e, List.mem_cons_self _ _, hm, Or.inl h⟩
      · exact ⟨e, List.mem_cons_self _ _, hm, Or.inr h⟩
      · obtain ⟨y, hy, hym, hev⟩ := ih h
        exact ⟨y, List.mem_cons_of_mem _ hy, hym, hev⟩

theorem addr_inj_of_pairwise (l : List WaitHandlerBase)
    (hl : (l.map (fun x => x.addr)).Pairwise (fun a b => a < b))
    (x y : WaitHandlerBase) (hx : x ∈ l) (hy : y ∈ l) (hxy : x.addr = y.addr) : x = y := by
  induction l with
  | nil => simp at hx
  | cons e rest ih =>
    rw [List.map_cons, List.pairwise_cons] at hl
    rcases List.mem_cons.mp hx with hx | hx <;> rcases List.mem_cons.mp hy with hy | hy
    · rw [hx, hy]
    · have := hl.1 y.addr (List.mem_map_of_mem _ hy)
      rw [hx] at hxy
      omega
    · have := hl.1 x.addr (List.mem_map_of_mem _ hx)
      rw [hy] at hxy
      omega
    · exact ih hl.2 hx hy

theorem mem_updateFirst_origin (p : WaitHandlerBase → Bool)
    (f : WaitHandlerBase → WaitHandlerBase) (l : List WaitHandlerBase) (x' : WaitHandlerBase)
    (h : x' ∈ updateFirst p f l) : x' ∈ l ∨ ∃ e, l.find? p = some e ∧ x' = f e := by
  induction l with
  | nil => simp [updateFirst] at h
  | cons y rest ih =>
    unfold updateFirst at h
    by_cases hp : p y = true
    · simp only [hp, if_true] at h
      rcases List.mem_cons.mp h with h | h
      · exact Or.inr ⟨y, by simp [List.find?_cons, hp], h⟩
      · exact Or.inl (List.mem_cons_of_mem _ h)
    · simp only [hp, Bool.false_eq_true, if_false] at h
      rcases List.mem_cons.mp h with h | h
      · exact Or.inl (h ▸ List.mem_cons_self _ _)
      · rcases ih h with h | ⟨e, he, hx⟩
        · exact Or.inl (List.mem_cons_of_mem _ h)
        · exact Or.inr ⟨e, by simp [List.find?_cons, hp, he], hx⟩

theorem mem_updateAt_origin (f : WaitHandlerBase → WaitHandlerBase)
    (l : List WaitHandlerBase) (k : Nat) (x' : WaitHandlerBase) (h : x' ∈ updateAt k f l) :
    x' ∈ l ∨ ∃ e, l[k]? = some e ∧ x' = f e := by
  induction l generalizing k with
  | nil => simp [updateAt] at h
  | cons y rest ih =>
    cases k with
    | zero =>
      simp only [updateAt] at h
      rcases List.mem_cons.mp h with h | h
      · exact Or.inr ⟨y, by simp, h⟩
      · exact Or.inl (List.mem_cons_of_mem _ h)
    | succ k =>
      simp only [updateAt] at h
      rcases List.mem_cons.mp h with h | h
      · exact Or.inl (h ▸ List.mem_cons_self _ _)
      · rcases ih k h with h | ⟨e, he, hx⟩
        · exact Or.inl (List.mem_cons_of_mem _ h)
        · exact Or.inr ⟨e, by simpa using he, hx⟩

theorem notifiedProperly_append_plain (tr evs : List Event)
    (hnr : ∀ a h, Event.handleRemoved a h ∉ evs) (h : NotifiedProperly tr) :
    NotifiedProperly (tr ++ evs) := by
  induction evs generalizing tr with
  | nil => simpa using h
  | cons ev rest ih =>
    have heq : tr ++ ev :: rest = (tr ++ [ev]) ++ rest := by simp
    rw [heq]
    apply ih
    · exact fun a hd hmem => hnr a hd (List.mem_cons_of_mem _ hmem)
    · apply notifiedProperly_snoc _ _ _ h
      intro a hd hc
      exact absurd (hc ▸ List.mem_cons_self _ _) (hnr a hd)

theorem traceInv_notified_lt (s : WFMOHandler) (h : TraceInv s) (a : Nat) (hd : HANDLE)
    (hmem : Event.handleRemoved a hd ∈ s.trace) : a < s.nextAddr := by
  obtain ⟨pre, post, heq⟩ := List.append_of_mem hmem
  have h1 := (h.1 pre post a hd heq).1
  have h2 := h.2.1 a
  rw [heq, List.count_append, h1] at h2
  by_contra hlt
  simp only [hlt, if_false] at h2
  omega

theorem traceInv_step (s s' : WFMOHandler) (evs : List Event)
    (htr : s'.trace = s.trace ++ evs)
    (hnr : ∀ a h, Event.handleRemoved a h ∉ evs)
    (hcount : ∀ a, s'.trace.count (Event.created a) = if a < s'.nextAddr then 1 else 0)
    (hmark : ∀ x' ∈ s'.m_waithandlers, x'.m_markfordeletion = true →
      (∃ x ∈ s.m_waithandlers, x.addr = x'.addr ∧ x.m_markfordeletion = true) ∨
        Event.removeMarked x'.addr ∈ evs ∨ Event.selfMarked x'.addr ∈ evs)
    (haddr : ∀ x' ∈ s'.m_waithandlers,
      (∃ x ∈ s.m_waithandlers, x.addr = x'.addr) ∨ s.nextAddr ≤ x'.addr)
    (h : TraceInv s) : TraceInv s' := by
  refine ⟨?_, hcount, ?_, ?_⟩
  · rw [htr]
    exact notifiedProperly_append_plain _ _ hnr h.1
  · intro x' hx' hm
    rw [htr]
    rcases hmark x' hx' hm with ⟨x, hx, hxa, hxm⟩ | hev | hev
    · rw [← hxa]
      rcases h.2.2.1 x hx hxm with h1 | h1
      · exact Or.inl (List.mem_append_left _ h1)
      · exact Or.inr (List.mem_append_left _ h1)
    · exact Or.inl (List.mem_append_right _ hev)
    · exact Or.inr (List.mem_append_right _ hev)
  · intro x' hx' hd hmem
    rw [htr] at hmem
    rcases List.mem_append.mp hmem with hmem | hmem
    · rcases haddr x' hx' with ⟨x, hx, hxa⟩ | hge
      · exact h.2.2.2 x hx hd (hxa ▸ hmem)
      · have := traceInv_notified_lt s h _ hd hmem
        omega
    · exact hnr _ hd hmem

theorem count_created_snoc (tr : List Event) (n a : Nat)
    (h : tr.count (Event.created a) = if a < n then 1 else 0) :
    (tr ++ [Event.created n]).count (Event.created a) = if a < n + 1 then 1 else 0 := by
  rw [List.count_append, h, List.count_singleton]
  by_cases h1 : a = n
  · subst h1; simp
  · have h2 : ¬ (Event.created n = Event.created a) := by
      simpa using fun hc => h1 hc.symm
    by_cases h3 : a < n
    · have h4 : a < n + 1 := by omega
      simp [h2, h3, h4]
    · have h4 : ¬ a < n + 1 := by omega
      simp [h2, h3, h4]

theorem traceInv_push (s : WFMOHandler) (x : WaitHandlerBase) (evs : List Event)
    (hx : x.addr = s.nextAddr) (hxm : x.m_markfordeletion = false)
    (hevs : ∀ ev ∈ evs, ∃ r id, ev = Event.addTimerReturned s.nextAddr r id)
    (s' : WFMOHandler) (hreg : s'.m_waithandlers = s.m_waithandlers ++ [x])
    (hn : s'.nextAddr = s.nextAddr + 1)
    (htr : s'.trace = s.trace ++ (Event.created s.nextAddr :: evs))
    (h : TraceInv s) : TraceInv s' := by
  have hplain : ∀ ev ∈ evs, ∀ a, ev ≠ Event.created a ∧ (∀ hd, ev ≠ Event.handleRemoved a hd) ∧
      ev ≠ Event.removeMarked a ∧ ev ≠ Event.selfMarked a := by
    intro ev hev a
    obtain ⟨r, id, he⟩ := hevs ev hev
    subst he
    exact ⟨fun hc => Event.noConfusion hc, fun _ hc => Event.noConfusion hc,
      fun hc => Event.noConfusion hc, fun hc => Event.noConfusion hc⟩
  refine traceInv_step s s' _ htr ?_ ?_ ?_ ?_ h
  · intro a hd hmem
    rcases List.mem_cons.mp hmem with hmem | hmem
    · exact Event.noConfusion hmem
    · exact (hplain _ hmem a).2.1 hd rfl
  · intro a
    have hz : evs.count (Event.created a) = 0 :=
      List.count_eq_zero_of_not_mem (fun hmem => (hplain _ hmem a).1 rfl)
    have := count_created_snoc s.trace s.nextAddr a (h.2.1 a)
    rw [htr, hn, ← this, List.count_append, List.count_append, List.count_cons, hz]
    simp [List.count_singleton]
  · intro x' hx' hm
    rw [hreg] at hx'
    rcases List.mem_append.mp hx' with hx' | hx'
    · exact Or.inl ⟨x', hx', rfl, hm⟩
    · rw [List.mem_singleton] at hx'
      rw [hx', hxm] at hm
      exact Bool.noConfusion hm
  · intro x' hx'
    rw [hreg] at hx'
    rcases List.mem_append.mp hx' with hx' | hx'
    · exact Or.inl ⟨x', hx', rfl⟩
    · rw [List.mem_singleton] at hx'
      exact Or.inr (by rw [hx', hx])

theorem traceInv_step_same (s s' : WFMOHandler) (evs : List Event)
    (htr : s'.trace = s.trace ++ evs) (hn : s'.nextAddr = s.nextAddr)
    (hnr : ∀ a h, Event.handleRemoved a h ∉ evs)
    (hnc : ∀ a, Event.created a ∉ evs)
    (hmark : ∀ x' ∈ s'.m_waithandlers, x'.m_markfordeletion = true →
      (∃ x ∈ s.m_waithandlers, x.addr = x'.addr ∧ x.m_markfordeletion = true) ∨
        Event.removeMarked x'.addr ∈ evs ∨ Event.selfMarked x'.addr ∈ evs)
    (haddr : ∀ x' ∈ s'.m_waithandlers, ∃ x ∈ s.m_waithandlers, x.addr = x'.addr)
    (h : TraceInv s) : TraceInv s' := by
  refine traceInv_step s s' evs htr hnr ?_ hmark (fun x' hx' => Or.inl (haddr x' hx')) h
  intro a
  rw [htr, hn, List.count_append, List.count_eq_zero_of_not_mem (hnc a), Nat.add_zero]
  exact h.2.1 a

theorem traceInv_updateFirst (s s' : WFMOHandler) (p : WaitHandlerBase → Bool)
    (f : WaitHandlerBase → WaitHandlerBase) (hf : Stable f) (e : WaitHandlerBase)
    (hfind : s.m_waithandlers.find? p = some e)
    (hreg : s'.m_waithandlers = updateFirst p f s.m_waithandlers)
    (htr : s'.trace = s.trace ++ [Event.removeMarked e.addr])
    (hn : s'.nextAddr = s.nextAddr) (h : TraceInv s) : TraceInv s' := by
  refine traceInv_step_same s s' _ htr hn ?_ ?_ ?_ ?_ h
  · intro a hd hmem
    rw [List.mem_singleton] at hmem
    exact Event.noConfusion hmem
  · intro a hmem
    rw [List.mem_singleton] at hmem
    exact Event.noConfusion hmem
  · intro x' hx' hm
    rw [hreg] at hx'
    rcases mem_updateFirst_origin p f _ x' hx' with hx | ⟨e', he', hxe⟩
    · exact Or.inl ⟨x', hx, rfl, hm⟩
    · rw [hfind, Option.some.injEq] at he'
      rw [hxe, ← he', (hf e).addr_eq]
      exact Or.inr (Or.inl (List.mem_singleton_self _))
  · intro x' hx'
    rw [hreg] at hx'
    obtain ⟨x, hx, hev⟩ := mem_updateFirst p f hf _ x' hx'
    exact ⟨x, hx, hev.addr_eq.symm⟩

theorem traceInv_exec (c : ApiCall) (s : WFMOHandler) (h : TraceInv s) :
    TraceInv (c.exec s) := by
  cases c with
  | addWaitHandle hd handler =>
    simp only [ApiCall.exec, AddWaitHandle]
    split_ifs
    · exact h
    · exact traceInv_push s (WaitHandler.new s.nextAddr hd handler) [] rfl rfl
        (fun _ hev => absurd hev (List.not_mem_nil _)) _ rfl rfl rfl h
  | removeWaitHandle hd =>
    simp only [ApiCall.exec, RemoveWaitHandle]
    split
    · exact h
    · rename_i e hfind
      exact traceInv_updateFirst s _ _ _ stable_mark e hfind rfl rfl rfl h
  | addTimer hTimer ms r handler =>
    simp only [ApiCall.exec, AddTimer]
    split_ifs
    · exact h
    · refine traceInv_push s
        (TimerHandler.new s.nextAddr hTimer ms r s.m_nexttimertriggerid handler)
        [Event.addTimerReturned s.nextAddr r
          (((s.m_nexttimertriggerid + 1) % UINT_RANGE + UINT_RANGE - 1) % UINT_RANGE)]
        rfl rfl ?_ _ rfl rfl rfl h
      intro ev hev
      rw [List.mem_singleton] at hev
      exact ⟨_, _, hev⟩
  | removeTimer id =>
    simp only [ApiCall.exec, RemoveTimer]
    split
    · exact h
    · rename_i e hfind
      exact traceInv_updateFirst s _ _ _ stable_cancelMark e hfind rfl rfl rfl h
  | adjustTimer id interval r =>
    refine traceInv_step_same s _ [] (by simp [ApiCall.exec, AdjustTimer]) rfl
      (fun _ _ hm => absurd hm (List.not_mem_nil _))
      (fun _ hm => absurd hm (List.not_mem_nil _)) ?_ ?_ h
    · intro x' hx' hm
      simp only [ApiCall.exec, AdjustTimer, List.mem_map] at hx'
      obtain ⟨x, hx, hxe⟩ := hx'
      refine Or.inl ⟨x, hx, ?_, ?_⟩
      · rw [← hxe]; exact ((stable_adjust id interval r) x).addr_eq.symm
      · rw [← hxe] at hm
        split_ifs at hm
        · exact hm
        · exact hm
    · intro x' hx'
      simp only [ApiCall.exec, AdjustTimer, List.mem_map] at hx'
      obtain ⟨x, hx, hxe⟩ := hx'
      exact ⟨x, hx, by rw [← hxe]; exact ((stable_adjust id interval r) x).addr_eq.symm⟩

theorem traceInv_build (b : List HANDLE) (s : WFMOHandler) (hw : WellAddressed s)
    (h : TraceInv s) : TraceInv (BuildHandleArray b s).2.2 := by
  have hpw := wellAddressed_pairwise s hw
  have htr : (BuildHandleArray b s).2.2.trace = s.trace ++ (sweep s.m_waithandlers).2 := rfl
  refine ⟨?_, ?_, ?_, ?_⟩
  · rw [htr]
    apply notifiedProperly_sweep _ _ h.1 hpw
    intro x hx hm
    refine ⟨?_, h.2.2.1 x hx hm, h.2.2.2 x hx⟩
    rw [h.2.1 x.addr]
    simp [wellAddressed_mem s hw x hx]
  · intro a
    have hz : (sweep s.m_waithandlers).2.count (Event.created a) = 0 := by
      apply List.count_eq_zero_of_not_mem
      intro hmem
      obtain ⟨y, _, _, hev | hev⟩ := mem_sweep_events _ _ hmem <;> exact Event.noConfusion hev
    rw [htr, List.count_append, hz, Nat.add_zero]
    exact h.2.1 a
  · intro x hx hm
    rw [BuildHandleArray_registry, mem_sweep] at hx
    rw [hx.2] at hm
    exact Bool.noConfusion hm
  · intro x hx hd hmem
    rw [BuildHandleArray_registry, mem_sweep] at hx
    rw [htr] at hmem
    rcases List.mem_append.mp hmem with hmem | hmem
    · exact h.2.2.2 x hx.1 hd hmem
    · obtain ⟨y, hy, hym, hev | hev⟩ := mem_sweep_events _ _ hmem
      · simp only [Event.handleRemoved.injEq] at hev
        have := addr_inj_of_pairwise _ hpw x y hx.1 hy hev.1
        rw [this, hym] at hx
        exact Bool.noConfusion hx.2
      · exact Event.noConfusion hev

theorem traceInv_run (steps : List Step) (ts : ThreadState) (hwf : WellAddressed ts.obj)
    (h : TraceInv ts.obj) : TraceInv (run steps ts).obj := by
  refine (run_invariant_wf TraceInv (fun _ _ => TraceInv) ?_ ?_ ?_ ?_ ?_ ?_ ?_
    steps ts hwf h).2
  · exact fun c s _ hs => traceInv_exec c s hs
  · exact fun b s hw hs => traceInv_build b s hw hs
  · intro k e s _ hs _ _
    refine traceInv_step_same s _ [Event.invoked e.addr e.m_handler.tag] rfl rfl ?_ ?_ ?_ ?_ hs
    · intro a hd hmem
      rw [List.mem_singleton] at hmem
      exact Event.noConfusion hmem
    · intro a hmem
      rw [List.mem_singleton] at hmem
      exact Event.noConfusion hmem
    · exact fun x' hx' hm => Or.inl ⟨x', hx', rfl, hm⟩
    · exact fun x' hx' => ⟨x', hx', rfl⟩
  · exact fun _ _ c s _ hs => traceInv_exec c s hs
  · exact fun _ _ _ _ _ hs _ _ _ => hs
  · intro k e t e' s _ hs _ _ _ _
    refine traceInv_step_same s _ [] (by simp) rfl
      (fun _ _ hm => absurd hm (List.not_mem_nil _))
      (fun _ hm => absurd hm (List.not_mem_nil _)) ?_ ?_ hs
    · intro x' hx' hm
      rcases mem_updateAt_origin _ _ k x' hx' with h1 | ⟨y, hy, hxy⟩
      · exact Or.inl ⟨x', h1, rfl, hm⟩
      · refine Or.inl ⟨y, List.getElem?_mem hy, ?_, ?_⟩
        · rw [hxy]; rfl
        · rw [hxy] at hm; exact hm
    · intro x' hx'
      obtain ⟨x, hx, hev⟩ := mem_updateAt _ (stable_rearm _ _) _ k x' hx'
      exact ⟨x, hx, hev.addr_eq.symm⟩
  · intro k e t e' s _ hs hk hev _ _
    refine traceInv_step_same s _ [Event.selfMarked e.addr] rfl rfl ?_ ?_ ?_ ?_ hs
    · intro a hd hmem
      rw [List.mem_singleton] at hmem
      exact Event.noConfusion hmem
    · intro a hmem
      rw [List.mem_singleton] at hmem
      exact Event.noConfusion hmem
    · intro x' hx' hm
      rcases mem_updateAt_origin _ _ k x' hx' with h1 | ⟨y, hy, hxy⟩
      · exact Or.inl ⟨x', h1, rfl, hm⟩
      · rw [hk, Option.some.injEq] at hy
        refine Or.inr (Or.inr ?_)
        rw [hxy, ← hy]
        show Event.selfMarked e'.addr ∈ [Event.selfMarked e.addr]
        rw [hev.addr_eq]
        exact List.mem_singleton_self _
    · intro x' hx'
      obtain ⟨x, hx, hev'⟩ := mem_updateAt _ stable_mark _ k x' hx'
      exact ⟨x, hx, hev'.addr_eq.symm⟩

theorem traceInv_fresh (hShutdown hRebuild : HANDLE) :
    TraceInv (ThreadState.fresh hShutdown hRebuild).obj := by
  refine ⟨notifiedProperly_nil, ?_, ?_, ?_⟩
  · intro a; simp [ThreadState.fresh, WFMOHandler.new]
  · intro x hx; simp [ThreadState.fresh, WFMOHandler.new] at hx
  · intro x hx; simp [ThreadState.fresh, WFMOHandler.new] at hx

/-- C10 (counterexample): in the run `selfRemovalRun` a one-shot timer fires, marks
itself for deletion and is swept by the next rebuild: OnWaitHandleRemoved is called for
it (object 0, timer handle 5) although no RemoveWaitHandle / RemoveTimer call ever
targeted it and Stop is not part of the run. -/
theorem selfRemoval_notified_without_remove_call :
    removalsOf (run selfRemovalRun (ThreadState.fresh 1 2)).obj.trace = [(0, 5)] ∧
    Event.removeMarked 0 ∉ (run selfRemovalRun (ThreadState.fresh 1 2)).obj.trace ∧
    Event.selfMarked 0 ∈ (run selfRemovalRun (ThreadState.fresh 1 2)).obj.trace := by
  decide

/-- C10 (amended): in every execution trace of the reactor, with or without a final Stop,
each OnWaitHandleRemoved notification for an object `a` is preceded by exactly one
successful AddWaitHandle / AddTimer that created `a` (and the trace holds no other), and
is preceded by a RemoveWaitHandle / RemoveTimer call that marked `a` or by the invoke in
which `a`, a one-shot timer, marked itself; no object is notified twice; Stop itself
notifies nobody. -/
theorem removal_notification_preceded (hShutdown hRebuild : HANDLE) (steps : List Step)
    (tr pre post : List Event) (a : Nat) (h : HANDLE)
    (htr : tr = (run steps (ThreadState.fresh hShutdown hRebuild)).obj.trace ∨
      tr = (Stop (run steps (ThreadState.fresh hShutdown hRebuild)).obj).trace)
    (heq : tr = pre ++ Event.handleRemoved a h :: post) :
    pre.count (Event.created a) = 1 ∧
    tr.count (Event.created a) = 1 ∧
    (Event.removeMarked a ∈ pre ∨ Event.selfMarked a ∈ pre) ∧
    (∀ h', Event.handleRemoved a h' ∉ pre) ∧
    (∀ h', Event.handleRemoved a h' ∉ post) ∧
    removalsOf (Stop (run steps (ThreadState.fresh hShutdown hRebuild)).obj).trace
      = removalsOf (run steps (ThreadState.fresh hShutdown hRebuild)).obj.trace := by
  have hinv := traceInv_run steps _ (wellAddressed_fresh hShutdown hRebuild)
    (traceInv_fresh hShutdown hRebuild)
  generalize (run steps (ThreadState.fresh hShutdown hRebuild)).obj = s at htr hinv ⊢
  have hstop : (Stop s).trace = s.trace ++ s.m_waithandlers.map (fun e => Event.destroyed e.addr)
      := by
    unfold Stop FreePtrContainer
    split_ifs <;> rfl
  have hd : ∀ ev ∈ s.m_waithandlers.map (fun e => Event.destroyed e.addr),
      ∃ b, ev = Event.destroyed b := by
    intro ev hev
    obtain ⟨x, _, hx⟩ := List.mem_map.mp hev
    exact ⟨x.addr, hx.symm⟩
  have hnr : ∀ b hb, Event.handleRemoved b hb
      ∉ s.m_waithandlers.map (fun e => Event.destroyed e.addr) := by
    intro b hb hmem
    obtain ⟨c, hc⟩ := hd _ hmem
    exact Event.noConfusion hc
  have hnc : (s.m_waithandlers.map (fun e => Event.destroyed e.addr)).count (Event.created a)
      = 0 := by
    apply List.count_eq_zero_of_not_mem
    intro hmem
    obtain ⟨c, hc⟩ := hd _ hmem
    exact Event.noConfusion hc
  have hprop : NotifiedProperly tr := by
    rcases htr with htr | htr
    · rw [htr]; exact hinv.1
    · rw [htr, hstop]; exact notifiedProperly_append_plain _ _ hnr hinv.1
  have hmem : Event.handleRemoved a h ∈ s.trace := by
    have h1 : Event.handleRemoved a h ∈ tr := by rw [heq]; simp
    rcases htr with htr | htr
    · rw [htr] at h1; exact h1
    · rw [htr, hstop] at h1
      rcases List.mem_append.mp h1 with h1 | h1
      · exact h1
      · exact absurd h1 (hnr a h)
  have hcount : tr.count (Event.created a) = 1 := by
    have h1 := hinv.2.1 a
    simp only [traceInv_notified_lt s hinv a h hmem, if_true] at h1
    rcases htr with htr | htr
    · rw [htr]; exact h1
    · rw [htr, hstop, List.count_append, h1, hnc]
  obtain ⟨h1, h2, h3⟩ := hprop pre post a h heq
  refine ⟨h1, hcount, h2, h3, ?_, ?_⟩
  · intro h' hmem'
    obtain ⟨p2, q2, hq⟩ := List.append_of_mem hmem'
    have heq2 : tr = (pre ++ Event.handleRemoved a h :: p2) ++ Event.handleRemoved a h' :: q2 := by
      rw [heq, hq]; simp
    exact (hprop _ q2 a h' heq2).2.2 h (by simp)
  · rw [hstop, removalsOf_append, (trace_of_destroyed s.m_waithandlers).1, List.append_nil]

/-- Witness for C10 (amended): the notification in `selfRemovalRun`, preceded by the
creation of the timer and by its self-removal. -/
theorem removal_notification_preceded_witness :
    [Event.created 0, Event.addTimerReturned 0 false 1, Event.invoked 0 0,
        Event.selfMarked 0].count (Event.created 0) = 1 :=
  (removal_notification_preceded 1 2 selfRemovalRun
    (run selfRemovalRun (ThreadState.fresh 1 2)).obj.trace
    [Event.created 0, Event.addTimerReturned 0 false 1, Event.invoked 0 0, Event.selfMarked 0]
    [Event.destroyed 0] 0 5 (Or.inl rfl) (by decide)).1

/-! ## RemoveWaitHandle -/

theorem updateFirst_eq_set (p : WaitHandlerBase → Bool) (f : WaitHandlerBase → WaitHandlerBase)
    (l : List WaitHandlerBase) (k : Nat) (e : WaitHandlerBase) (hk : l[k]? = some e)
    (hp : p e = true) (hfirst : ∀ j x, j < k → l[j]? = some x → p x = false) :
    updateFirst p f l = l.set k (f e) := by
  induction l generalizing k with
  | nil => simp at hk
  | cons y rest ih =>
    cases k with
    | zero =>
      simp only [List.getElem?_cons_zero, Option.some.injEq] at hk
      subst hk
      simp [updateFirst, hp]
    | succ k =>
      simp only [List.getElem?_cons_succ] at hk
      have hy : p y = false := hfirst 0 y (Nat.succ_pos k) (by simp)
      simp only [updateFirst, hy, Bool.false_eq_true, if_false, List.set_cons_succ,
        List.cons.injEq, true_and]
      exact ih k hk (fun j x hj hx => hfirst (j + 1) x (Nat.succ_lt_succ hj) (by simpa using hx))

theorem updateFirst_length (p : WaitHandlerBase → Bool) (f : WaitHandlerBase → WaitHandlerBase)
    (l : List WaitHandlerBase) : (updateFirst p f l).length = l.length := by
  induction l with
  | nil => rfl
  | cons y rest ih =>
    unfold updateFirst
    split_ifs <;> simp [ih]

theorem updateFirst_map_of_fixed {β : Type} (g : WaitHandlerBase → β)
    (p : WaitHandlerBase → Bool) (f : WaitHandlerBase → WaitHandlerBase)
    (hg : ∀ e, g (f e) = g e) (l : List WaitHandlerBase) :
    (updateFirst p f l).map g = l.map g := by
  induction l with
  | nil => rfl
  | cons y rest ih =>
    unfold updateFirst
    split_ifs
    · simp [hg]
    · simp [ih]

theorem RemoveWaitHandle_rebuildSet (h : HANDLE) (s : WFMOHandler) :
    (RemoveWaitHandle h s).rebuildSet
      = (s.rebuildSet || s.m_waithandlers.any (fun e => e.m_h == h)) := by
  unfold RemoveWaitHandle
  cases hf : s.m_waithandlers.find? (fun e => e.m_h == h) with
  | none =>
    have : s.m_waithandlers.any (fun e => e.m_h == h) = false := by
      rw [List.find?_eq_none] at hf
      rw [List.any_eq_false]
      exact hf
    simp [this]
  | some e =>
    have : s.m_waithandlers.any (fun e => e.m_h == h) = true := by
      rw [List.any_eq_true]
      have hp := List.find?_some hf
      exact ⟨e, List.mem_of_find?_eq_some hf, hp⟩
    simp [setRebuild, this]

/-- C11: RemoveWaitHandle(h) is a soft remove. For every registry state it erases and
reorders nothing (same length, every entry keeps its position, object, handle, callback
and timer part); when no entry has the handle h the reactor is unchanged; otherwise the
registry changes only at the first position whose handle is h, where the delete flag is
set to true; the next timer id, the other members and the wait snapshot of the worker
are unchanged; the rebuild event ends up set exactly when it was set before or an entry
with handle h exists. -/
theorem RemoveWaitHandle_soft (h : HANDLE) (s : WFMOHandler) (ts : ThreadState) :
    (RemoveWaitHandle h s).m_waithandlers.length = s.m_waithandlers.length ∧
    (RemoveWaitHandle h s).m_waithandlers.map (fun e => (e.addr, e.m_h, e.m_handler, e.timer))
      = s.m_waithandlers.map (fun e => (e.addr, e.m_h, e.m_handler, e.timer)) ∧
    ((∀ x ∈ s.m_waithandlers, x.m_h ≠ h) → RemoveWaitHandle h s = s) ∧
    (∀ k e, s.m_waithandlers[k]? = some e → e.m_h = h →
      (∀ j x, j < k → s.m_waithandlers[j]? = some x → x.m_h ≠ h) →
      (RemoveWaitHandle h s).m_waithandlers
        = s.m_waithandlers.set k { e with m_markfordeletion := true } ∧
      (RemoveWaitHandle h s).rebuildSet = true) ∧
    (RemoveWaitHandle h s).m_nexttimertriggerid = s.m_nexttimertriggerid ∧
    (RemoveWaitHandle h s).nextAddr = s.nextAddr ∧
    (RemoveWaitHandle h s).m_shutdownevent = s.m_shutdownevent ∧
    (RemoveWaitHandle h s).m_rebuildwaitarrayevent = s.m_rebuildwaitarrayevent ∧
    (RemoveWaitHandle h s).shutdownSet = s.shutdownSet ∧
    (Step.exec (Step.api (ApiCall.removeWaitHandle h)) ts).ahandles = ts.ahandles ∧
    (Step.exec (Step.api (ApiCall.removeWaitHandle h)) ts).nHandles = ts.nHandles ∧
    (RemoveWaitHandle h s).rebuildSet
      = (s.rebuildSet || s.m_waithandlers.any (fun e => e.m_h == h)) := by
  refine ⟨?_, ?_, ?_, ?_, RemoveWaitHandle_counter h s, RemoveWaitHandle_nextAddr h s, ?_, ?_,
    ?_, rfl, rfl, RemoveWaitHandle_rebuildSet h s⟩
  · rw [RemoveWaitHandle_registry, updateFirst_length]
  · rw [RemoveWaitHandle_registry]
    exact updateFirst_map_of_fixed (fun e => (e.addr, e.m_h, e.m_handler, e.timer)) _
      (fun e => { e with m_markfordeletion := true }) (fun _ => rfl) _
  · intro hno
    have : s.m_waithandlers.find? (fun e => e.m_h == h) = none := by
      rw [List.find?_eq_none]
      intro x hx
      simpa using hno x hx
    simp [RemoveWaitHandle, this]
  · intro k e hk he hfirst
    refine ⟨?_, ?_⟩
    · rw [RemoveWaitHandle_registry]
      exact updateFirst_eq_set _ _ _ k e hk (by simpa using he)
        (fun j x hj hx => by simpa using hfirst j x hj hx)
    · rw [RemoveWaitHandle_rebuildSet]
      have : s.m_waithandlers.any (fun e => e.m_h == h) = true := by
        rw [List.any_eq_true]
        exact ⟨e, List.getElem?_mem hk, by simpa using he⟩
      simp [this]
  · unfold RemoveWaitHandle; split <;> rfl
  · unfold RemoveWaitHandle; split <;> rfl
  · unfold RemoveWaitHandle; split <;> rfl

/-! ## The rebuilt snapshot fits -/

theorem sweep_length (l : List WaitHandlerBase) : (sweep l).1.length = nUsed l := by
  rw [sweep_fst_eq_filter, nUsed, List.countP_eq_length_filter]

theorem mem_fillIndices (l : List WaitHandlerBase) (i j : Nat) (h : j ∈ fillIndices l i) :
    i ≤ j ∧ j < i + l.length := by
  induction l generalizing i with
  | nil => simp [fillIndices] at h
  | cons e rest ih =>
    simp only [fillIndices, List.mem_cons] at h
    rcases h with h | h
    · simp [h]
    · have := ih (i + 1) h
      simp only [List.length_cons]
      omega

theorem BuildHandleArray_length (a : List HANDLE) (s : WFMOHandler) :
    (BuildHandleArray a s).1.length = 2 + nUsed s.m_waithandlers := by
  rw [(BuildHandleArray_snapshot a s).1]
  simp only [List.length_cons, List.length_map, nUsed, List.countP_eq_length_filter]
  omega

theorem snapshot_fits_run (steps : List Step) (ts : ThreadState)
    (hc : WithinCapacity ts.obj) (hl : ts.ahandles.length ≤ MAX_WAIT_COUNT) :
    (run steps ts).ahandles.length ≤ MAX_WAIT_COUNT := by
  induction steps generalizing ts with
  | nil => exact hl
  | cons x xs ih =>
    apply ih _ (withinCapacity_step x ts hc)
    have hb : (ThreadState.rebuild ts).ahandles.length ≤ MAX_WAIT_COUNT := by
      show (BuildHandleArray ts.ahandles ts.obj).1.length ≤ MAX_WAIT_COUNT
      rw [BuildHandleArray_length]
      unfold WithinCapacity MAX_WAIT_COUNT at *
      omega
    cases x with
    | api c => exact hl
    | build => exact hb
    | dispatch index => exact hl
    | wake dwRet =>
      simp only [Step.exec, ThreadProc.iterate]
      split_ifs
      · exact hl
      · exact hl
      · exact hb
      · exact hl
      · exact hl

/-- With the base class's empty OnWaitHandleRemoved (the part of C15 that the code keeps)
a snapshot rebuild cannot fail to fit. In every state reached from a freshly constructed
reactor, for any previous content of the snapshot vector, after the erase
loop of BuildHandleArray the registry holds at most MAX_WAIT_COUNT - 2 = 62 entries, so
the assertion m_waithandlers.size() <= MAX_WAIT_COUNT - 2 holds; every index that
BuildHandleArray writes lies within the resized snapshot; the snapshot it returns has at
most 64 slots, and so has the snapshot the worker holds in every reachable state. -/
theorem rebuild_fits (hShutdown hRebuild : HANDLE) (steps : List Step) (a : List HANDLE) :
    (BuildHandleArray a
      (run steps (ThreadState.fresh hShutdown hRebuild)).obj).2.2.m_waithandlers.length ≤ 62 ∧
    BuildHandleArray.assertion (run steps (ThreadState.fresh hShutdown hRebuild)).obj = true ∧
    (∀ i ∈ BuildHandleArray.writes (run steps (ThreadState.fresh hShutdown hRebuild)).obj,
      i < (resize a (2 + (sweep
        (run steps (ThreadState.fresh hShutdown hRebuild)).obj.m_waithandlers).1.length)).length) ∧
    (BuildHandleArray a (run steps (ThreadState.fresh hShutdown hRebuild)).obj).1.length ≤ 64 ∧
    (run steps (ThreadState.fresh hShutdown hRebuild)).ahandles.length ≤ 64 := by
  have hc : WithinCapacity (ThreadState.fresh hShutdown hRebuild).obj := by
    simp [WithinCapacity, ThreadState.fresh, WFMOHandler.new, nUsed]
  have hsnap := snapshot_fits_run steps (ThreadState.fresh hShutdown hRebuild) hc
    (by simp [ThreadState.fresh])
  have hcap := withinCapacity_run steps (ThreadState.fresh hShutdown hRebuild) hc
  generalize run steps (ThreadState.fresh hShutdown hRebuild) = ts at hsnap hcap ⊢
  have h62 : nUsed ts.obj.m_waithandlers ≤ 62 := hcap
  refine ⟨?_, ?_, ?_, ?_, hsnap⟩
  · rw [BuildHandleArray_registry, sweep_length]
    exact h62
  · simp only [BuildHandleArray.assertion, sweep_length, MAX_WAIT_COUNT, decide_eq_true_eq]
    exact h62
  · intro i hi
    rw [resize_length]
    simp only [BuildHandleArray.writes, List.mem_cons] at hi
    rcases hi with hi | hi | hi
    · omega
    · omega
    · have := mem_fillIndices _ _ _ hi
      omega
  · rw [BuildHandleArray_length]
    omega

theorem snapshot_fits_fresh (hShutdown hRebuild : HANDLE) (steps : List Step) :
    (run steps (ThreadState.fresh hShutdown hRebuild)).ahandles.length ≤ MAX_WAIT_COUNT :=
  snapshot_fits_run steps (ThreadState.fresh hShutdown hRebuild)
    (by simp [WithinCapacity, ThreadState.fresh, WFMOHandler.new, nUsed])
    (by simp [ThreadState.fresh])

/-! ## The loop of ThreadProc -/

theorem graceful_only_after_exit (steps : List Step) (ts : ThreadState)
    (h : ts.fGracefulExit = true → ts.fMore = false) :
    (run steps ts).fGracefulExit = true → (run steps ts).fMore = false := by
  induction steps generalizing ts with
  | nil => exact h
  | cons x xs ih =>
    apply ih
    cases x with
    | api c => exact h
    | build => exact h
    | dispatch index => exact h
    | wake dwRet =>
      simp only [Step.exec, ThreadProc.iterate]
      split_ifs
      · exact h
      · exact fun _ => rfl
      · exact h
      · exact h
      · exact fun _ => rfl

/-- The guard of the default branch compares the return code with MAX_WAIT_COUNT, not
with the snapshot length. The worker holds a snapshot of two slots and a source has been
registered since: the values 2 and 5, which a wait on two handles does not return, would
not end the loop, and 2 would be dispatched to registry position 0. -/
theorem iterate_dispatches_beyond_snapshot :
    (run staleSnapshotRun (ThreadState.fresh 1 2)).ahandles.length = 2 ∧
    invocationsOf (run staleSnapshotRun (ThreadState.fresh 1 2)).obj.trace = [] ∧
    (ThreadProc.iterate 2 (run staleSnapshotRun (ThreadState.fresh 1 2))).fMore = true ∧
    invocationsOf
      (ThreadProc.iterate 2 (run staleSnapshotRun (ThreadState.fresh 1 2))).obj.trace = [0] ∧
    (ThreadProc.iterate 5 (run staleSnapshotRun (ThreadState.fresh 1 2))).fMore = true := by
  decide

/-- The branches of the loop body by the value of `dwRet` alone: in every reachable state
in which the loop is still running, a value that is none of 0, 1 or 2..63 (the guard
compares with MAX_WAIT_COUNT, not with the snapshot length) invokes no callback, leaves graceful = false and exits the loop; return
code 0 exits with graceful = true and invokes nothing; return code 1 rebuilds and
continues; return codes 2..63, among them every index 2..N of the snapshot, continue the
loop after InvokeWaitHandleHandler(code - 2), with the snapshot unchanged. -/
theorem iterate_by_return_code (hShutdown hRebuild : HANDLE) (steps : List Step) (dwRet : Nat)
    (hmore : (run steps (ThreadState.fresh hShutdown hRebuild)).fMore = true) :
    (64 ≤ dwRet →
      (ThreadProc.iterate dwRet (run steps (ThreadState.fresh hShutdown hRebuild))).fMore
        = false ∧
      (ThreadProc.iterate dwRet (run steps (ThreadState.fresh hShutdown hRebuild))).fGracefulExit
        = false ∧
      (ThreadProc.iterate dwRet (run steps (ThreadState.fresh hShutdown hRebuild))).obj
        = (run steps (ThreadState.fresh hShutdown hRebuild)).obj) ∧
    (dwRet = 0 →
      (ThreadProc.iterate dwRet (run steps (ThreadState.fresh hShutdown hRebuild))).fMore
        = false ∧
      (ThreadProc.iterate dwRet (run steps (ThreadState.fresh hShutdown hRebuild))).fGracefulExit
        = true ∧
      (ThreadProc.iterate dwRet (run steps (ThreadState.fresh hShutdown hRebuild))).obj
        = (run steps (ThreadState.fresh hShutdown hRebuild)).obj) ∧
    (dwRet = 1 →
      ThreadProc.iterate dwRet (run steps (ThreadState.fresh hShutdown hRebuild))
        = (run steps (ThreadState.fresh hShutdown hRebuild)).rebuild ∧
      (ThreadProc.iterate dwRet (run steps (ThreadState.fresh hShutdown hRebuild))).fMore
        = true) ∧
    (2 ≤ dwRet → (dwRet < 64 ∨
        dwRet < (run steps (ThreadState.fresh hShutdown hRebuild)).ahandles.length) →
      (ThreadProc.iterate dwRet (run steps (ThreadState.fresh hShutdown hRebuild))).fMore
        = true ∧
      (ThreadProc.iterate dwRet (run steps (ThreadState.fresh hShutdown hRebuild))).obj
        = InvokeWaitHandleHandler (dwRet - 2)
            (run steps (ThreadState.fresh hShutdown hRebuild)).obj ∧
      (ThreadProc.iterate dwRet (run steps (ThreadState.fresh hShutdown hRebuild))).ahandles
        = (run steps (ThreadState.fresh hShutdown hRebuild)).ahandles) := by
  have hg := graceful_only_after_exit steps (ThreadState.fresh hShutdown hRebuild)
    (fun h => Bool.noConfusion h)
  have hlen := (snapshot_fits_fresh hShutdown hRebuild steps)
  generalize run steps (ThreadState.fresh hShutdown hRebuild) = ts at hmore hg hlen ⊢
  have hgf : ts.fGracefulExit = false := by
    cases hb : ts.fGracefulExit
    · rfl
    · have := hg hb
      rw [hmore] at this
      exact Bool.noConfusion this
  refine ⟨?_, ?_, ?_, ?_⟩
  · intro h64
    have h0 : dwRet ≠ 0 := by omega
    have h1 : dwRet ≠ 1 := by omega
    have h2 : ¬ (dwRet > 1 ∧ dwRet < MAX_WAIT_COUNT) := by unfold MAX_WAIT_COUNT; omega
    simp [ThreadProc.iterate, hmore, h0, h1, h2, hgf]
  · intro h0
    simp [ThreadProc.iterate, hmore, h0]
  · intro h1
    simp [ThreadProc.iterate, hmore, h1, ThreadState.rebuild]
  · intro h2 hlt
    have h0 : dwRet ≠ 0 := by omega
    have h1 : dwRet ≠ 1 := by omega
    have h3 : dwRet > 1 ∧ dwRet < MAX_WAIT_COUNT := by
      unfold MAX_WAIT_COUNT at *
      omega
    simp [ThreadProc.iterate, hmore, h0, h1, h3]

/-- Witness for the branches of the loop body: on a worker that has just built its
snapshot, the value 258 ends the loop. -/
theorem iterate_by_return_code_witness :
    (ThreadProc.iterate 258 (run [Step.build] (ThreadState.fresh 1 2))).fMore = false :=
  ((iterate_by_return_code 1 2 [Step.build] 258 rfl).1 (by decide)).1

/-! ## The snapshot between two rebuilds -/

theorem Evolves.h_eq {a b : WaitHandlerBase} (h : Evolves a b) : b.m_h = a.m_h :=
  congrArg (fun x => x.2.1) h.1

theorem updateAt_map_of_fixed {β : Type} (g : WaitHandlerBase → β)
    (f : WaitHandlerBase → WaitHandlerBase) (hg : ∀ e, g (f e) = g e)
    (l : List WaitHandlerBase) (k : Nat) : (updateAt k f l).map g = l.map g := by
  induction l generalizing k with
  | nil => simp [updateAt]
  | cons y rest ih =>
    cases k with
    | zero => simp [updateAt, hg]
    | succ k => simp [updateAt, ih]

theorem handles_prefix_exec (c : ApiCall) (s : WFMOHandler) :
    s.m_waithandlers.map (fun e => e.m_h) <+: (c.exec s).m_waithandlers.map (fun e => e.m_h) := by
  cases c with
  | addWaitHandle hd handler =>
    simp only [ApiCall.exec, AddWaitHandle]
    split_ifs
    · exact List.prefix_refl _
    · simp only [setRebuild, List.map_append]
      exact List.prefix_append _ _
  | removeWaitHandle hd =>
    rw [ApiCall.exec, RemoveWaitHandle_registry,
      updateFirst_map_of_fixed (fun e => e.m_h) _ _ (fun e => (stable_mark e).h_eq)]
  | addTimer hTimer ms r handler =>
    simp only [ApiCall.exec, AddTimer]
    split_ifs
    · exact List.prefix_refl _
    · simp only [setRebuild, List.map_append]
      exact List.prefix_append _ _
  | removeTimer id =>
    rw [ApiCall.exec, RemoveTimer_registry,
      updateFirst_map_of_fixed (fun e => e.m_h) _ _ (fun e => (stable_cancelMark e).h_eq)]
  | adjustTimer id interval r =>
    simp only [ApiCall.exec, AdjustTimer, List.map_map]
    have : (fun e : WaitHandlerBase => e.m_h) ∘ (fun e =>
        if isTimerWithId id e && !e.m_markfordeletion then rearm interval r e else e)
        = fun e => e.m_h := by
      funext e
      exact (stable_adjust id interval r e).h_eq
    rw [this]

theorem handles_prefix_runCalls (cs : List ApiCall) (s : WFMOHandler) :
    s.m_waithandlers.map (fun e => e.m_h)
      <+: (runCalls cs s).m_waithandlers.map (fun e => e.m_h) := by
  induction cs generalizing s with
  | nil => exact List.prefix_refl _
  | cons c cs ih => exact (handles_prefix_exec c s).trans (ih (c.exec s))

theorem handles_prefix_invoke (k : Nat) (e : WaitHandlerBase) (s : WFMOHandler) :
    s.m_waithandlers.map (fun e => e.m_h)
      <+: (invoke k e s).m_waithandlers.map (fun e => e.m_h) := by
  have h1 : s.m_waithandlers.map (fun e => e.m_h)
      <+: (callHandler e s).m_waithandlers.map (fun e => e.m_h) :=
    handles_prefix_runCalls e.m_handler.calls
      { s with trace := s.trace ++ [Event.invoked e.addr e.m_handler.tag] }
  cases ht : e.timer with
  | none => rw [invoke_external k e s ht]; exact h1
  | some t =>
    cases hr : t.m_repeat with
    | true =>
      rw [invoke_repeat k e t s ht hr]
      simp only [updateAt_map_of_fixed (fun e => e.m_h) _ (fun e => (stable_rearm _ _ e).h_eq)]
      exact h1
    | false =>
      rw [invoke_oneshot k e t s ht hr]
      simp only [setRebuild,
        updateAt_map_of_fixed (fun e => e.m_h) _ (fun e => (stable_mark e).h_eq)]
      exact h1

theorem handles_prefix_dispatch (index : Nat) (s : WFMOHandler) :
    s.m_waithandlers.map (fun e => e.m_h)
      <+: (InvokeWaitHandleHandler index s).m_waithandlers.map (fun e => e.m_h) := by
  cases hg : s.m_waithandlers[index]? with
  | none => rw [InvokeWaitHandleHandler_none index s hg]
  | some e =>
    cases hm : e.m_markfordeletion with
    | true => rw [InvokeWaitHandleHandler_marked index s e hg hm]
    | false =>
      rw [InvokeWaitHandleHandler_live index s e hg hm]
      exact handles_prefix_invoke index e s

theorem snapshotPrefix_rebuild (ts : ThreadState) : SnapshotPrefix ts.rebuild := by
  obtain ⟨h1, _⟩ := BuildHandleArray_snapshot ts.ahandles ts.obj
  have h3 : ts.rebuild.obj.m_waithandlers
      = ts.obj.m_waithandlers.filter (fun e => !e.m_markfordeletion) := by
    show (BuildHandleArray ts.ahandles ts.obj).2.2.m_waithandlers = _
    rw [BuildHandleArray_registry, sweep_fst_eq_filter]
  have h4 : ts.rebuild.ahandles = (BuildHandleArray ts.ahandles ts.obj).1 := rfl
  unfold SnapshotPrefix
  rw [h4, h1, h3]
  exact ⟨by simp, by simp⟩

theorem snapshotPrefix_step (x : Step) (ts : ThreadState) (hx : x.rebuilds = false)
    (h : SnapshotPrefix ts) : SnapshotPrefix (x.exec ts) := by
  cases x with
  | api c => exact ⟨h.1, h.2.trans (handles_prefix_exec c ts.obj)⟩
  | build => exact Bool.noConfusion hx
  | dispatch index => exact ⟨h.1, h.2.trans (handles_prefix_dispatch index ts.obj)⟩
  | wake dwRet =>
    have h1 : dwRet ≠ 1 := by simpa [Step.rebuilds] using hx
    simp only [Step.exec, ThreadProc.iterate, h1, if_false]
    split_ifs
    · exact h
    · exact h
    · exact ⟨h.1, h.2.trans (handles_prefix_dispatch _ ts.obj)⟩
    · exact h

theorem snapshotPrefix_run (steps : List Step) (ts : ThreadState)
    (hno : steps.all (fun x => !x.rebuilds) = true) (h : SnapshotPrefix ts) :
    SnapshotPrefix (run steps ts) := by
  induction steps generalizing ts with
  | nil => exact h
  | cons x xs ih =>
    simp only [List.all_cons, Bool.and_eq_true, Bool.not_eq_true'] at hno
    exact ih _ hno.2 (snapshotPrefix_step x ts hno.1 h)

theorem invocationsOf_invoke (k : Nat) (e : WaitHandlerBase) (s : WFMOHandler) :
    invocationsOf (invoke k e s).trace = invocationsOf s.trace ++ [e.addr] := by
  have h1 : invocationsOf (callHandler e s).trace = invocationsOf s.trace ++ [e.addr] := by
    simp only [callHandler, invocationsOf_runCalls, invocationsOf_append]
    simp [invocationsOf]
  cases ht : e.timer with
  | none => rw [invoke_external k e s ht]; exact h1
  | some t =>
    cases hr : t.m_repeat with
    | true => rw [invoke_repeat k e t s ht hr]; exact h1
    | false =>
      rw [invoke_oneshot k e t s ht hr]
      simp only [setRebuild, invocationsOf_append, h1]
      simp [invocationsOf]

theorem snapshotPrefix_entry (ts : ThreadState) (h : SnapshotPrefix ts) (i : Nat)
    (h2 : 2 ≤ i) (hi : i < ts.ahandles.length) :
    ∃ e, ts.obj.m_waithandlers[i - 2]? = some e ∧ ts.ahandles[i]? = some e.m_h := by
  obtain ⟨t, ht⟩ := h.2
  have hlen : i - 2 < (ts.ahandles.drop 2).length := by
    rw [List.length_drop]; omega
  have h1 : (ts.obj.m_waithandlers.map (fun e => e.m_h))[i - 2]? = ts.ahandles[i]? := by
    rw [← ht, List.getElem?_append_left hlen, List.getElem?_drop]
    congr 1
    omega
  rw [List.getElem?_map] at h1
  cases he : ts.obj.m_waithandlers[i - 2]? with
  | none =>
    rw [he] at h1
    have : ts.ahandles[i]? ≠ none := by
      rw [Ne, List.getElem?_eq_none_iff]; omega
    exact absurd h1.symm this
  | some e =>
    rw [he] at h1
    exact ⟨e, rfl, h1.symm⟩

/-- C13: in every state reachable between two rebuilds (a reachable state, a
sweep-and-snapshot, then any interleaving of AddWaitHandle, AddTimer, RemoveWaitHandle,
RemoveTimer, AdjustTimer, dispatches and loop iterations that do not rebuild), for every
wake index i with 2 <= i < snapshot length the registry entry at position i - 2 exists
and its handle is snapshot[i]; the loop dispatches index i through
InvokeWaitHandleHandler(i - 2), which invokes the callback of that entry and of no other
when its delete flag is false, and does nothing at all when its delete flag is true. -/
theorem dispatch_matches_snapshot (hShutdown hRebuild : HANDLE) (steps₀ steps : List Step)
    (i : Nat) (hno : steps.all (fun x => !x.rebuilds) = true) (h2 : 2 ≤ i)
    (hi : i < (run steps
      (run steps₀ (ThreadState.fresh hShutdown hRebuild)).rebuild).ahandles.length) :
    ∃ e,
      (run steps (run steps₀ (ThreadState.fresh hShutdown hRebuild)).rebuild).obj.m_waithandlers[i - 2]?
        = some e ∧
      (run steps (run steps₀ (ThreadState.fresh hShutdown hRebuild)).rebuild).ahandles[i]?
        = some e.m_h ∧
      (e.m_markfordeletion = false →
        invocationsOf (InvokeWaitHandleHandler (i - 2)
          (run steps (run steps₀ (ThreadState.fresh hShutdown hRebuild)).rebuild).obj).trace
          = invocationsOf
              (run steps (run steps₀ (ThreadState.fresh hShutdown hRebuild)).rebuild).obj.trace
            ++ [e.addr]) ∧
      (e.m_markfordeletion = true →
        InvokeWaitHandleHandler (i - 2)
          (run steps (run steps₀ (ThreadState.fresh hShutdown hRebuild)).rebuild).obj
          = (run steps (run steps₀ (ThreadState.fresh hShutdown hRebuild)).rebuild).obj) ∧
      ((run steps (run steps₀ (ThreadState.fresh hShutdown hRebuild)).rebuild).fMore = true →
        (ThreadProc.iterate i
          (run steps (run steps₀ (ThreadState.fresh hShutdown hRebuild)).rebuild)).obj
          = InvokeWaitHandleHandler (i - 2)
              (run steps (run steps₀ (ThreadState.fresh hShutdown hRebuild)).rebuild).obj) := by
  have hsnap := snapshotPrefix_run steps _ hno
    (snapshotPrefix_rebuild (run steps₀ (ThreadState.fresh hShutdown hRebuild)))
  have hlen : (run steps
      (run steps₀ (ThreadState.fresh hShutdown hRebuild)).rebuild).ahandles.length
      ≤ MAX_WAIT_COUNT := by
    have := snapshot_fits_fresh hShutdown hRebuild (steps₀ ++ Step.build :: steps)
    rw [run_append, run_cons] at this
    exact this
  generalize run steps (run steps₀ (ThreadState.fresh hShutdown hRebuild)).rebuild = ts
    at hi hsnap hlen ⊢
  obtain ⟨e, he, hh⟩ := snapshotPrefix_entry ts hsnap i h2 hi
  refine ⟨e, he, hh, ?_, ?_, ?_⟩
  · intro hm
    rw [InvokeWaitHandleHandler_live _ _ e he hm, invocationsOf_invoke]
  · intro hm
    exact InvokeWaitHandleHandler_marked _ _ e he hm
  · intro hmore
    have h0 : i ≠ 0 := by omega
    have h1 : i ≠ 1 := by omega
    have h3 : i > 1 ∧ i < MAX_WAIT_COUNT := by omega
    simp [ThreadProc.iterate, hmore, h0, h1, h3]

/-- Witness for C13: two sources are registered, the snapshot is built, the first source
is soft-removed; index 3 of the snapshot is still the second source. -/
theorem dispatch_matches_snapshot_witness :
    ∃ e, (run [Step.api (ApiCall.removeWaitHandle 7)]
        (run [Step.api (ApiCall.addWaitHandle 7 (Handler.mk 0 [])),
            Step.api (ApiCall.addWaitHandle 8 (Handler.mk 1 []))]
          (ThreadState.fresh 1 2)).rebuild).obj.m_waithandlers[3 - 2]? = some e ∧
      (run [Step.api (ApiCall.removeWaitHandle 7)]
        (run [Step.api (ApiCall.addWaitHandle 7 (Handler.mk 0 [])),
            Step.api (ApiCall.addWaitHandle 8 (Handler.mk 1 []))]
          (ThreadState.fresh 1 2)).rebuild).ahandles[3]? = some e.m_h := by
  obtain ⟨e, h1, h2, _⟩ := dispatch_matches_snapshot 1 2
    [Step.api (ApiCall.addWaitHandle 7 (Handler.mk 0 [])),
      Step.api (ApiCall.addWaitHandle 8 (Handler.mk 1 []))]
    [Step.api (ApiCall.removeWaitHandle 7)] 3 (by decide) (by decide) (by decide)
  exact ⟨e, h1, h2⟩

/-! ## Rebuild before dispatch -/

theorem rebuildSet_mono_exec (c : ApiCall) (s : WFMOHandler) (h : s.rebuildSet = true) :
    (c.exec s).rebuildSet = true := by
  cases c with
  | addWaitHandle hd handler =>
    simp only [ApiCall.exec, AddWaitHandle]
    split_ifs
    · exact h
    · rfl
  | removeWaitHandle hd => rw [ApiCall.exec, RemoveWaitHandle_rebuildSet, h]; rfl
  | addTimer hTimer ms r handler =>
    simp only [ApiCall.exec, AddTimer]
    split_ifs
    · exact h
    · rfl
  | removeTimer id => rw [ApiCall.exec, RemoveTimer_rebuildSet, h]; rfl
  | adjustTimer id interval r => exact h

theorem quiet_exec (c : ApiCall) (s : WFMOHandler) (h : (c.exec s).rebuildSet = false) :
    s.rebuildSet = false ∧
    (c.exec s).m_waithandlers.map (fun e => (e.m_h, e.m_markfordeletion))
      = s.m_waithandlers.map (fun e => (e.m_h, e.m_markfordeletion)) := by
  have h0 : s.rebuildSet = false := by
    cases hb : s.rebuildSet
    · rfl
    · rw [rebuildSet_mono_exec c s hb] at h
      exact Bool.noConfusion h
  refine ⟨h0, ?_⟩
  cases c with
  | addWaitHandle hd handler =>
    simp only [ApiCall.exec, AddWaitHandle] at h ⊢
    split_ifs at h ⊢
    · rfl
    · exact Bool.noConfusion h
  | removeWaitHandle hd =>
    simp only [ApiCall.exec, RemoveWaitHandle] at h ⊢
    split at h
    · rename_i hf
      simp only [hf]
    · exact Bool.noConfusion h
  | addTimer hTimer ms r handler =>
    simp only [ApiCall.exec, AddTimer] at h ⊢
    split_ifs at h ⊢
    · rfl
    · exact Bool.noConfusion h
  | removeTimer id =>
    simp only [ApiCall.exec, RemoveTimer] at h ⊢
    split at h
    · rename_i hf
      simp only [hf]
    · exact Bool.noConfusion h
  | adjustTimer id interval r =>
    simp only [ApiCall.exec, AdjustTimer, List.map_map]
    apply List.map_congr_left
    intro e _
    simp only [Function.comp]
    by_cases hc : (isTimerWithId id e && !e.m_markfordeletion) = true
    · simp only [hc, if_true]; rfl
    · simp only [hc, Bool.false_eq_true, if_false]

theorem quiet_runCalls (cs : List ApiCall) (s : WFMOHandler)
    (h : (runCalls cs s).rebuildSet = false) :
    s.rebuildSet = false ∧
    (runCalls cs s).m_waithandlers.map (fun e => (e.m_h, e.m_markfordeletion))
      = s.m_waithandlers.map (fun e => (e.m_h, e.m_markfordeletion)) := by
  induction cs generalizing s with
  | nil => exact ⟨h, rfl⟩
  | cons c cs ih =>
    obtain ⟨h1, h2⟩ := ih (c.exec s) h
    obtain ⟨h3, h4⟩ := quiet_exec c s h1
    exact ⟨h3, h2.trans h4⟩

theorem quiet_dispatch (index : Nat) (s : WFMOHandler)
    (h : (InvokeWaitHandleHandler index s).rebuildSet = false) :
    s.rebuildSet = false ∧
    (InvokeWaitHandleHandler index s).m_waithandlers.map (fun e => (e.m_h, e.m_markfordeletion))
      = s.m_waithandlers.map (fun e => (e.m_h, e.m_markfordeletion)) := by
  cases hg : s.m_waithandlers[index]? with
  | none => rw [InvokeWaitHandleHandler_none index s hg] at h ⊢; exact ⟨h, rfl⟩
  | some e =>
    cases hm : e.m_markfordeletion with
    | true => rw [InvokeWaitHandleHandler_marked index s e hg hm] at h ⊢; exact ⟨h, rfl⟩
    | false =>
      rw [InvokeWaitHandleHandler_live index s e hg hm] at h ⊢
      cases ht : e.timer with
      | none =>
        rw [invoke_external index e s ht] at h ⊢
        exact quiet_runCalls e.m_handler.calls
          { s with trace := s.trace ++ [Event.invoked e.addr e.m_handler.tag] } h
      | some t =>
        cases hr : t.m_repeat with
        | true =>
          rw [invoke_repeat index e t s ht hr] at h ⊢
          obtain ⟨h1, h2⟩ := quiet_runCalls e.m_handler.calls
            { s with trace := s.trace ++ [Event.invoked e.addr e.m_handler.tag] } h
          refine ⟨h1, ?_⟩
          have hfix : ∀ x : WaitHandlerBase,
              (fun e : WaitHandlerBase => (e.m_h, e.m_markfordeletion))
                (rearm t.m_interval t.m_repeat x)
              = (fun e : WaitHandlerBase => (e.m_h, e.m_markfordeletion)) x := fun _ => rfl
          simp only [updateAt_map_of_fixed (fun e => (e.m_h, e.m_markfordeletion)) _ hfix]
          exact h2
        | false =>
          rw [invoke_oneshot index e t s ht hr] at h
          exact Bool.noConfusion h

theorem inSync_transfer (a : List HANDLE) (l l' : List WaitHandlerBase)
    (hmap : l'.map (fun e => (e.m_h, e.m_markfordeletion))
      = l.map (fun e => (e.m_h, e.m_markfordeletion)))
    (h : a = l.map (fun e => e.m_h) ∧ ∀ x ∈ l, x.m_markfordeletion = false) :
    a = l'.map (fun e => e.m_h) ∧ ∀ x ∈ l', x.m_markfordeletion = false := by
  have h1 := congrArg (List.map Prod.fst) hmap
  have h2 := congrArg (List.map Prod.snd) hmap
  simp only [List.map_map] at h1 h2
  refine ⟨h.1.trans h1.symm, ?_⟩
  intro x hx
  have hm : x.m_markfordeletion ∈ l'.map (Prod.snd ∘ fun e => (e.m_h, e.m_markfordeletion)) :=
    List.mem_map.mpr ⟨x, hx, rfl⟩
  rw [h2] at hm
  obtain ⟨y, hy, hxy⟩ := List.mem_map.mp hm
  rw [← hxy]
  exact h.2 y hy

theorem inSync_rebuild (ts : ThreadState) : InSync ts.rebuild := by
  intro _
  obtain ⟨h1, _⟩ := BuildHandleArray_snapshot ts.ahandles ts.obj
  have h3 : ts.rebuild.obj.m_waithandlers
      = ts.obj.m_waithandlers.filter (fun e => !e.m_markfordeletion) := by
    show (BuildHandleArray ts.ahandles ts.obj).2.2.m_waithandlers = _
    rw [BuildHandleArray_registry, sweep_fst_eq_filter]
  have h4 : ts.rebuild.ahandles = (BuildHandleArray ts.ahandles ts.obj).1 := rfl
  rw [h4, h1, h3]
  refine ⟨by simp, ?_⟩
  intro x hx
  have := (List.mem_filter.mp hx).2
  simpa using this

theorem inSync_step (x : Step) (ts : ThreadState) (h : InSync ts) : InSync (x.exec ts) := by
  have hdisp : ∀ index, InSync { ts with obj := InvokeWaitHandleHandler index ts.obj } := by
    intro index hq
    obtain ⟨h1, h2⟩ := quiet_dispatch index ts.obj hq
    exact inSync_transfer _ _ _ h2 (h h1)
  cases x with
  | api c =>
    intro hq
    obtain ⟨h1, h2⟩ := quiet_exec c ts.obj hq
    exact inSync_transfer _ _ _ h2 (h h1)
  | build => exact inSync_rebuild ts
  | dispatch index => exact hdisp index
  | wake dwRet =>
    simp only [Step.exec, ThreadProc.iterate]
    split_ifs
    · exact h
    · exact h
    · exact inSync_rebuild ts
    · exact hdisp _
    · exact h

theorem inSync_run (steps : List Step) (ts : ThreadState) (h : InSync ts) :
    InSync (run steps ts) := by
  induction steps generalizing ts with
  | nil => exact h
  | cons x xs ih => exact ih _ (inSync_step x ts h)

/-- With the base class hook: from the first snapshot on, whatever API calls, callbacks
and loop steps follow, the wait (lowest ready index first) selects a user source only
while neither the shutdown nor the rebuild event is set, and then the snapshot lists
exactly the handles of the registry entries, none of which is marked for deletion. -/
theorem user_source_selected_only_when_current (ts₀ : ThreadState) (steps : List Step)
    (ready : HANDLE → Bool) (d : Nat)
    (hd : lowestReady ready (run steps ts₀.rebuild) = some d) (h2 : 2 ≤ d) :
    (run steps ts₀.rebuild).obj.shutdownSet = false ∧
    (run steps ts₀.rebuild).obj.rebuildSet = false ∧
    (run steps ts₀.rebuild).ahandles.drop 2
      = (run steps ts₀.rebuild).obj.m_waithandlers.map (fun e => e.m_h) ∧
    ∀ x ∈ (run steps ts₀.rebuild).obj.m_waithandlers, x.m_markfordeletion = false := by
  have hin := inSync_run steps _ (inSync_rebuild ts₀)
  generalize run steps ts₀.rebuild = ts at hd hin ⊢
  unfold lowestReady at hd
  cases hs : ts.obj.shutdownSet with
  | true =>
    simp only [hs, if_true, Option.some.injEq] at hd
    omega
  | false =>
    cases hr : ts.obj.rebuildSet with
    | true =>
      simp only [hs, hr, if_true, Bool.false_eq_true, if_false, Option.some.injEq] at hd
      omega
    | false => exact ⟨rfl, rfl, hin hr⟩

/-! ## The erase loop with an overriding removal hook -/

theorem eraseIdx_length_append (pre rest : List WaitHandlerBase) (e : WaitHandlerBase) :
    (pre ++ e :: rest).eraseIdx pre.length = pre ++ rest := by
  induction pre with
  | nil => rfl
  | cons y ys ih => simp [List.eraseIdx, ih]

theorem sweepWith_base (rest : List WaitHandlerBase) :
    ∀ (pre : List WaitHandlerBase) (s : WFMOHandler) (fuel : Nat),
      s.m_waithandlers = pre ++ rest → rest.length < fuel →
      sweepWith (fun _ => []) fuel pre.length s
        = some { s with
            m_waithandlers := pre ++ (sweep rest).1
            trace := s.trace ++ (sweep rest).2 } := by
  induction rest with
  | nil =>
    intro pre s fuel hreg hfuel
    obtain ⟨f, rfl⟩ : ∃ f, fuel = f + 1 := ⟨fuel - 1, by simp at hfuel; omega⟩
    have hg : s.m_waithandlers[pre.length]? = none := by
      rw [hreg]; simp
    simp only [sweepWith, hg, sweep, List.append_nil]
    rw [← List.append_nil pre, ← hreg]
  | cons e r ih =>
    intro pre s fuel hreg hfuel
    obtain ⟨f, rfl⟩ : ∃ f, fuel = f + 1 := ⟨fuel - 1, by simp at hfuel; omega⟩
    have hg : s.m_waithandlers[pre.length]? = some e := by
      rw [hreg, List.getElem?_append_right (le_refl _)]; simp
    have hf : r.length < f := by simp at hfuel; omega
    cases hm : e.m_markfordeletion with
    | false =>
      have := ih (pre ++ [e]) s f (by rw [hreg]; simp) hf
      simp only [List.length_append, List.length_singleton] at this
      simp only [sweepWith, hg, hm, Bool.false_eq_true, if_false, this, sweep]
      simp
    | true =>
      have hlen : s.m_waithandlers.length = pre.length + (r.length + 1) := by
        rw [hreg]; simp
      have herase : s.m_waithandlers.eraseIdx pre.length = pre ++ r := by
        rw [hreg]; exact eraseIdx_length_append pre r e
      cases r with
      | nil =>
        simp only [sweepWith, hg, hm, if_true, runCalls, List.foldl_nil, hlen, List.length_nil,
          Nat.zero_add, decide_True, herase, sweep, List.append_nil, Bool.false_eq_true,
          if_false]
        simp
      | cons y ys =>
        have hne : ¬ (pre.length + 1 = pre.length + ((y :: ys).length + 1)) := by
          simp
        have := ih pre
          { s with
            m_waithandlers := pre ++ y :: ys
            trace := (s.trace ++ [Event.handleRemoved e.addr e.m_h]) ++ [Event.destroyed e.addr] }
          f rfl hf
        simp only [sweepWith, hg, hm, if_true, runCalls, List.foldl_nil, hlen, hne,
          decide_False, herase, Bool.false_eq_true, if_false, this]
        simp [sweep, hm]

/-- For the base class hook, which makes no API call, the erase loop with a hook is the
erase loop `sweep`, and `BuildHandleArrayWith` is `BuildHandleArray`, as soon as the fuel
exceeds the registry length. -/
theorem BuildHandleArrayWith_base (a : List HANDLE) (s : WFMOHandler) (fuel : Nat)
    (hfuel : s.m_waithandlers.length < fuel) :
    BuildHandleArrayWith (fun _ => []) fuel a s = some (BuildHandleArray a s) := by
  have h := sweepWith_base s.m_waithandlers [] s fuel rfl hfuel
  simp only [List.length_nil, List.nil_append] at h
  simp only [BuildHandleArrayWith, h, BuildHandleArray]

/-- C14 (code behaviour at the failing input): two sources with the handles 7 and 8 are
in the snapshot and the one with handle 8 has been removed; the derived class overrides
OnWaitHandleRemoved by `companionHook`, which answers the removal of 8 by
RemoveWaitHandle(7). The rebuild sweeps the entry of 8, the hook marks the entry of 7,
already passed by the erase loop, and sets the rebuild event; BuildHandleArray then
copies the marked entry into the snapshot and resets the rebuild event. The wait selects
the user index 2 next, the loop dispatches it without any rebuild, and the removal of 7
stays unprocessed: no OnWaitHandleRemoved(7), entry still registered. -/
theorem hook_removal_lost_by_reset :
    ((run companionRun (ThreadState.fresh 1 2)).rebuildWith companionHook 10).map
        (fun ts =>
          (ts.obj.m_waithandlers.map (fun e => (e.m_h, e.m_markfordeletion)),
            ts.ahandles, ts.obj.rebuildSet, removalsOf ts.obj.trace,
            lowestReady (fun h => h == 7) ts,
            (ThreadProc.iterate 2 ts).ahandles,
            (ThreadProc.iterate 2 ts).obj.m_waithandlers.map
              (fun e => (e.m_h, e.m_markfordeletion)),
            removalsOf (ThreadProc.iterate 2 ts).obj.trace))
      = some ([(7, true)], [1, 2, 7], false, [(1, 8)], some 2, [1, 2, 7], [(7, true)],
          [(1, 8)]) :=
  rfl

/-! ## The return codes of the multiplex wait -/

theorem returns_index_or_high (nCount dwRet : Nat)
    (h : WaitForMultipleObjectsEx.returns nCount dwRet = true) :
    (dwRet < nCount ∧ nCount ≤ 64) ∨ 64 ≤ dwRet := by
  simp only [WaitForMultipleObjectsEx.returns, MAXIMUM_WAIT_OBJECTS, WAIT_OBJECT_0,
    WAIT_ABANDONED_0, WAIT_IO_COMPLETION, WAIT_TIMEOUT, WAIT_FAILED, Bool.or_eq_true,
    Bool.and_eq_true, decide_eq_true_eq, beq_iff_eq] at h
  omega

/-- C12: in every reachable state in which the loop is still running, with a snapshot of
length N+1, and for every value `dwRet` that the multiplex wait on that snapshot can
return: if `dwRet` is none of 0, 1 or a user index in 2..N, the loop invokes no callback
(the reactor object is unchanged), graceful is false and the loop exits; 0 exits with
graceful = true and invokes nothing; 1 rebuilds the snapshot and continues the loop; a
user index in 2..N continues the loop after InvokeWaitHandleHandler(dwRet - 2), with
graceful still false and the snapshot unchanged. -/
theorem iterate_on_wait_return (hShutdown hRebuild : HANDLE) (steps : List Step) (dwRet : Nat)
    (hmore : (run steps (ThreadState.fresh hShutdown hRebuild)).fMore = true)
    (hret : WaitForMultipleObjectsEx.returns
      (run steps (ThreadState.fresh hShutdown hRebuild)).ahandles.length dwRet = true) :
    (dwRet ≠ 0 → dwRet ≠ 1 →
      ¬ (2 ≤ dwRet ∧
        dwRet + 1 ≤ (run steps (ThreadState.fresh hShutdown hRebuild)).ahandles.length) →
      (ThreadProc.iterate dwRet (run steps (ThreadState.fresh hShutdown hRebuild))).fMore
        = false ∧
      (ThreadProc.iterate dwRet (run steps (ThreadState.fresh hShutdown hRebuild))).fGracefulExit
        = false ∧
      (ThreadProc.iterate dwRet (run steps (ThreadState.fresh hShutdown hRebuild))).obj
        = (run steps (ThreadState.fresh hShutdown hRebuild)).obj ∧
      invocationsOf
        (ThreadProc.iterate dwRet (run steps (ThreadState.fresh hShutdown hRebuild))).obj.trace
        = invocationsOf (run steps (ThreadState.fresh hShutdown hRebuild)).obj.trace) ∧
    (dwRet = 0 →
      (ThreadProc.iterate dwRet (run steps (ThreadState.fresh hShutdown hRebuild))).fMore
        = false ∧
      (ThreadProc.iterate dwRet (run steps (ThreadState.fresh hShutdown hRebuild))).fGracefulExit
        = true ∧
      (ThreadProc.iterate dwRet (run steps (ThreadState.fresh hShutdown hRebuild))).obj
        = (run steps (ThreadState.fresh hShutdown hRebuild)).obj) ∧
    (dwRet = 1 →
      ThreadProc.iterate dwRet (run steps (ThreadState.fresh hShutdown hRebuild))
        = (run steps (ThreadState.fresh hShutdown hRebuild)).rebuild ∧
      (ThreadProc.iterate dwRet (run steps (ThreadState.fresh hShutdown hRebuild))).fMore
        = true ∧
      (ThreadProc.iterate dwRet (run steps (ThreadState.fresh hShutdown hRebuild))).fGracefulExit
        = false) ∧
    (2 ≤ dwRet →
      dwRet + 1 ≤ (run steps (ThreadState.fresh hShutdown hRebuild)).ahandles.length →
      (ThreadProc.iterate dwRet (run steps (ThreadState.fresh hShutdown hRebuild))).fMore
        = true ∧
      (ThreadProc.iterate dwRet (run steps (ThreadState.fresh hShutdown hRebuild))).fGracefulExit
        = false ∧
      (ThreadProc.iterate dwRet (run steps (ThreadState.fresh hShutdown hRebuild))).obj
        = InvokeWaitHandleHandler (dwRet - 2)
            (run steps (ThreadState.fresh hShutdown hRebuild)).obj ∧
      (ThreadProc.iterate dwRet (run steps (ThreadState.fresh hShutdown hRebuild))).ahandles
        = (run steps (ThreadState.fresh hShutdown hRebuild)).ahandles) := by
  have hg := graceful_only_after_exit steps (ThreadState.fresh hShutdown hRebuild)
    (fun h => Bool.noConfusion h)
  have hcode := returns_index_or_high _ _ hret
  have hlen := snapshot_fits_fresh hShutdown hRebuild steps
  generalize run steps (ThreadState.fresh hShutdown hRebuild) = ts at hmore hg hcode hlen ⊢
  have hgf : ts.fGracefulExit = false := by
    cases hb : ts.fGracefulExit
    · rfl
    · have := hg hb
      rw [hmore] at this
      exact Bool.noConfusion this
  refine ⟨?_, ?_, ?_, ?_⟩
  · intro h0 h1 hn
    have h2 : ¬ (dwRet > 1 ∧ dwRet < MAX_WAIT_COUNT) := by unfold MAX_WAIT_COUNT; omega
    simp [ThreadProc.iterate, hmore, h0, h1, h2, hgf]
  · intro h0
    simp [ThreadProc.iterate, hmore, h0]
  · intro h1
    simp [ThreadProc.iterate, hmore, h1, ThreadState.rebuild, hgf]
  · intro h2 hlt
    have h0 : dwRet ≠ 0 := by omega
    have h1 : dwRet ≠ 1 := by omega
    have h3 : dwRet > 1 ∧ dwRet < MAX_WAIT_COUNT := by
      unfold MAX_WAIT_COUNT at *
      omega
    simp [ThreadProc.iterate, hmore, h0, h1, h3, hgf]

/-- Witness for C12: two sources are registered and the worker has built its snapshot of
four slots. The wait can return `WAIT_FAILED`, which ends the loop with graceful = false,
and it can return the user index 3, after which the loop continues. -/
theorem iterate_on_wait_return_witness :
    ((ThreadProc.iterate 4294967295
        (run [Step.api (ApiCall.addWaitHandle 7 (Handler.mk 0 [])),
          Step.api (ApiCall.addWaitHandle 8 (Handler.mk 1 [])), Step.build]
          (ThreadState.fresh 1 2))).fMore = false ∧
      (ThreadProc.iterate 4294967295
        (run [Step.api (ApiCall.addWaitHandle 7 (Handler.mk 0 [])),
          Step.api (ApiCall.addWaitHandle 8 (Handler.mk 1 [])), Step.build]
          (ThreadState.fresh 1 2))).fGracefulExit = false) ∧
    (ThreadProc.iterate 3
        (run [Step.api (ApiCall.addWaitHandle 7 (Handler.mk 0 [])),
          Step.api (ApiCall.addWaitHandle 8 (Handler.mk 1 [])), Step.build]
          (ThreadState.fresh 1 2))).fMore = true :=
  ⟨(fun h => ⟨h.1, h.2.1⟩)
      ((iterate_on_wait_return 1 2
        [Step.api (ApiCall.addWaitHandle 7 (Handler.mk 0 [])),
          Step.api (ApiCall.addWaitHandle 8 (Handler.mk 1 [])), Step.build]
        4294967295 rfl rfl).1 (by decide) (by decide) (by decide)),
    ((iterate_on_wait_return 1 2
        [Step.api (ApiCall.addWaitHandle 7 (Handler.mk 0 [])),
          Step.api (ApiCall.addWaitHandle 8 (Handler.mk 1 [])), Step.build]
        3 rfl rfl).2.2.2 (by decide) (by decide)).1⟩

/-! ## The capacity of the snapshot with an overriding removal hook -/

set_option maxRecDepth 100000 in
/-- C15 (code behaviour at the failing input): the run `replacingRun` leaves 63 entries in
the registry, 62 of them live, within the capacity. The derived class overrides
OnWaitHandleRemoved by `replacingHook`, which answers the removal of 71 by
RemoveWaitHandle(10) and AddWaitHandle(73). In the rebuild the erase loop has passed the
entry of 10 when it reaches the marked entry of 71; the hook marks the entry of 10, which
frees a slot, and registers 73 in it. After the erase loop the registry holds 63 entries,
the marked entry of 10 among them: the assertion m_waithandlers.size() <=
MAX_WAIT_COUNT - 2 fails, the snapshot is resized to 65 slots and 65 is the handle count
returned, more than a multiplex wait accepts, so that no index is a possible return value
of the wait. -/
theorem hook_registration_overflows_snapshot :
    nUsed (run replacingRun (ThreadState.fresh 1 2)).obj.m_waithandlers = 62 ∧
    (run replacingRun (ThreadState.fresh 1 2)).obj.m_waithandlers.length = 63 ∧
    BuildHandleArrayWith.assertion replacingHook 100
      (run replacingRun (ThreadState.fresh 1 2)).obj = some false ∧
    ((run replacingRun (ThreadState.fresh 1 2)).rebuildWith replacingHook 100).map
        (fun ts =>
          (ts.obj.m_waithandlers.length, nUsed ts.obj.m_waithandlers,
            (ts.obj.m_waithandlers.take 1).map (fun e => (e.m_h, e.m_markfordeletion)),
            ts.ahandles.length, ts.nHandles, ts.obj.rebuildSet,
            WaitForMultipleObjectsEx.returns ts.ahandles.length 2))
      = some (63, 62, [(10, true)], 65, 65, false, false) :=
  ⟨rfl, rfl, rfl, rfl⟩

/-! ## The period passed to SetWaitableTimer -/

/-- A repeating interval of 2^31 ms or more becomes a negative `LONG lPeriod`: the call
fails and the timer object keeps its state. A one-shot interval, whose period is 0, arms
the timer whatever its size. -/
theorem SetWaitableTimer_period (h : HANDLE) (milliseconds : Nat) (t : TimerObject)
    (hh : h ≠ 0) :
    (2 ^ 31 ≤ milliseconds % UINT_RANGE → SetWaitableTimer h milliseconds true t = t) ∧
    (milliseconds % UINT_RANGE < 2 ^ 31 →
      SetWaitableTimer h milliseconds true t
        = some (milliseconds, milliseconds % UINT_RANGE)) ∧
    SetWaitableTimer h milliseconds false t = some (milliseconds, 0) := by
  refine ⟨?_, ?_, ?_⟩
  · intro hm
    have hc : h = 0 ∨ 2 ^ 31 ≤ milliseconds % UINT_RANGE := Or.inr hm
    simp only [SetWaitableTimer, if_true, if_pos hc]
  · intro hm
    have hc : ¬ (h = 0 ∨ 2 ^ 31 ≤ milliseconds % UINT_RANGE) := by
      rintro (h0 | h1)
      · exact hh h0
      · omega
    simp only [SetWaitableTimer, if_true, if_neg hc]
  · simp [SetWaitableTimer, hh]

end WFMO
